import Mathlib

/-!
# Lifting-scheme wavelets and the wavelet packet tree (integer, lossless)

A shallow embedding of the integer lifting transforms (`haar_int`, `line_int`,
`ts_trans_int`), of the wavelet packet tree (`packtree_base_int`, `packtree_int`),
of the bit-width cost (`costwidth`), of the inverse packet transform
(`invpacktree_int`), of the delta transform (`delta_trans`), of the classic
Haar step with its reversed form (`haar_classic`, `haar_classicFreq`) and of the
level basis of the frequency tree (`packfreq`).

Modelling conventions.

* A C++ `int` is a Lean `Int`; the development covers executions in which no
  signed overflow occurs (signed overflow is undefined behaviour in C++).
* An `int *` region, and likewise the logical array presented by a
  `packcontainer_int` through its index operator, is a `List Int`; `vec[i]` is
  `rd vec i` and `vec[i] = x` is `wr vec i x`.
* A `for (int i = 0; i < n; i++)` loop is `forLoop n body`.
* The floating point expressions of `line_int` and `ts_trans_int`
  (`(int)(... /2.0 + 0.5)`) are supplied by a `Rounding` record, so that the
  transforms are defined for every way of evaluating them; `floatRounding`
  evaluates them as the source does, with the roundings of `float`, and
  `exactRounding` evaluates them without representation error, which is the same
  value as long as the operands and their sum or difference are below `2^24` in
  magnitude; both convert to `int` by truncation toward zero.
* An array of `double` is a `List ℚ` (`rdQ`, `wrQ`), the value of a finite
  `double` being a rational number; every floating point operation of
  `haar_classic` and `haar_classicFreq` is the exact operation followed by
  `float64.round`, the rounding to the nearest `double` (ties to even).
* A null pointer is `packnode.null` for tree nodes and `none` for the halves of
  a container; a failed `assert` makes the enclosing function return `none`.
-/

namespace Libpacket

/-! ## Arrays and loops -/

/-- Read `vec[i]`. -/
def rd (vec : List Int) (i : Nat) : Int := vec.getD i 0

/-- Write `vec[i] = x`. -/
def wr (vec : List Int) (i : Nat) (x : Int) : List Int := vec.set i x

/-- The loop `for (i = 0; i < n; i++) s = body i s`. -/
def forLoop {σ : Type} (n : Nat) (body : Nat → σ → σ) (s : σ) : σ :=
  match n with
  | 0 => s
  | k + 1 => body k (forLoop k body s)

/-- Direction of a lifting step (`liftbase::transDirection`). -/
inductive transDirection where
  | forward
  | inverse
  deriving DecidableEq, Repr

/-! ## liftbase: split and merge -/

/-- Modelled from the spec: `liftbase::split` (liftbase.h is not part of the
sources).  The first `N` elements are rearranged so that the even-indexed elements
fill the first half and the odd-indexed elements fill the second half, both in
their original relative order. -/
def split (vec : List Int) (N : Nat) : List Int :=
  let half := N >>> 1
  (List.range half).map (fun i => rd vec (2 * i))
    ++ (List.range half).map (fun i => rd vec (2 * i + 1))
    ++ vec.drop (2 * half)

/-- Modelled from the spec: `liftbase::merge` (liftbase.h is not part of the
sources).  The inverse rearrangement of `split`: the first half is moved to the
even positions and the second half to the odd positions of the first `N`
elements. -/
def merge (vec : List Int) (N : Nat) : List Int :=
  let half := N >>> 1
  (List.range (2 * half)).map
      (fun k => if k % 2 = 0 then rd vec (k / 2) else rd vec (half + k / 2))
    ++ vec.drop (2 * half)

/-! ## haar_int -/

/-- The Haar predict step, `haar_int::predict`. -/
def haar_int.predict (vec : List Int) (N : Nat) (direction : transDirection) : List Int :=
  let half := N >>> 1
  forLoop half (fun i vec =>
    let predictVal := rd vec i
    let j := i + half
    match direction with
    | .forward => wr vec j (rd vec j - predictVal)
    | .inverse => wr vec j (rd vec j + predictVal)) vec

/-- The Haar update step, `haar_int::update`. -/
def haar_int.update (vec : List Int) (N : Nat) (direction : transDirection) : List Int :=
  let half := N >>> 1
  forLoop half (fun i vec =>
    let j := i + half
    let updateVal := rd vec j >>> 1
    match direction with
    | .forward => wr vec i (rd vec i + updateVal)
    | .inverse => wr vec i (rd vec i - updateVal)) vec

/-- Modelled from the spec: `liftbase::forwardStep` as inherited by `haar_int`
(liftbase.h is not part of the sources): split, predict forward, update forward. -/
def haar_int.forwardStep (vec : List Int) (n : Nat) : List Int :=
  haar_int.update (haar_int.predict (split vec n) n .forward) n .forward

/-- Modelled from the spec: `liftbase::inverseStep` as inherited by `haar_int`
(liftbase.h is not part of the sources): update inverse, predict inverse, merge. -/
def haar_int.inverseStep (vec : List Int) (n : Nat) : List Int :=
  merge (haar_int.predict (haar_int.update vec n .inverse) n .inverse) n


/-! ## Floating point expressions -/

/-- The values of the floating point expressions that `line_int` and
`ts_trans_int` convert back to `int`.  Each field stands for one C++ expression of
the sources, as a function of its integer operands. -/
structure Rounding where
  /-- The expression `(int)((((float)a + (float)b)/2.0) + 0.5)`. -/
  halfSum : Int → Int → Int
  /-- The expression `(int)(((float)a/2.0) + 0.5)`. -/
  halfOf : Int → Int
  /-- The expression `(int)((((float)a + (float)b)/4.0) + 0.5)`. -/
  quarterSum : Int → Int → Int
  /-- The expression `(int)((((float)a - (float)b)/4.0) + 0.5)`. -/
  quarterDiff : Int → Int → Int

/-- The floating point expressions evaluated without representation error: the
real value (for instance `(a + b)/2 + 1/2 = (a + b + 1)/2`) converted to `int` by
truncation toward zero, which is what the C++ cast `(int)` does.  This is the value
computed by the source whenever the operands and their sum or difference are
below `2^24` in magnitude, where the conversions to `float` are exact (see
`floatRounding` for the evaluation with the `float` roundings). -/
def exactRounding : Rounding where
  halfSum a b := Int.tdiv (a + b + 1) 2
  halfOf a := Int.tdiv (a + 1) 2
  quarterSum a b := Int.tdiv (a + b + 2) 4
  quarterDiff a b := Int.tdiv (a - b + 2) 4

/-- The search for the exponent of a magnitude `m ≥ 2^24`: the least `e`, counted
up from the start value, such that `m < 2^(24 + e)`.  The first argument bounds
the number of steps; `m` steps are always enough. -/
def float32.exponent.loop (m : Nat) : Nat → Nat → Nat
  | 0, e => e
  | fuel + 1, e => if m < 2 ^ (24 + e) then e else float32.exponent.loop m fuel (e + 1)

/-- The `float` (IEEE 754 single precision, 24 significant bits) nearest to the
integer `x`, ties going to the even significand: the value of the conversion
`(float)x` of an `int`, and of a sum or difference of two integer-valued `float`s
whose exact value is `x`.  Magnitudes below `2^24` are represented exactly; a
larger magnitude `m` with `2^(23+e) ≤ m < 2^(24+e)` is rounded to a multiple of
`2^e`.  (No `int` and no sum of two `int`s is large enough to overflow a
`float`.) -/
def float32.round (x : Int) : Int :=
  let m := x.natAbs
  if m < 2 ^ 24 then x
  else
    let q := 2 ^ (float32.exponent.loop m m 1)
    let d := m / q
    let r := m % q
    let n := if 2 * r < q then d else if q < 2 * r then d + 1 else if d % 2 = 0 then d else d + 1
    if x < 0 then -((n * q : Nat) : Int) else ((n * q : Nat) : Int)

/-- The floating point expressions as the source evaluates them: every operand is
converted to `float`, the sum or difference is a `float` operation (rounded to
`float`), the division by `2.0` or `4.0` and the addition of `0.5` are `double`
operations, which are exact on these values (an integer of magnitude at most
`2^32` divided by 4 and increased by one half has fewer than 53 significant
bits), and the cast `(int)` truncates toward zero. -/
def floatRounding : Rounding where
  halfSum a b := Int.tdiv (float32.round (float32.round a + float32.round b) + 1) 2
  halfOf a := Int.tdiv (float32.round a + 1) 2
  quarterSum a b := Int.tdiv (float32.round (float32.round a + float32.round b) + 2) 4
  quarterDiff a b := Int.tdiv (float32.round (float32.round a - float32.round b) + 2) 4

/-! ## line_int -/

/-- Extrapolated point after the end, `line_int::new_n_plus1`. -/
def line_int.new_n_plus1 (y1 y2 : Int) : Int :=
  let y := 2 * y2 - y1
  y

/-- Extrapolated point before the start, `line_int::new_n_minus1`. -/
def line_int.new_n_minus1 (y1 y2 : Int) : Int :=
  let y := 2 * y1 - y2
  y

/-- The predicted value computed by one iteration of `line_int::predict`.  Indices
are natural numbers; for even `N ≥ 2` no index expression of the source is
negative (`i - 1` is only read when `i = half - 1 ≥ 1`). -/
def line_int.predictVal (fp : Rounding) (vec : List Int) (N half i : Nat) : Int :=
  if i < half - 1 then
    fp.halfSum (rd vec i) (rd vec (i + 1))
  else if N = 2 then
    rd vec 0
  else
    let n_plus1 := line_int.new_n_plus1 (rd vec (i - 1)) (rd vec i)
    fp.halfSum (rd vec i) n_plus1

/-- The predict step of the linear interpolation wavelet, `line_int::predict`. -/
def line_int.predict (fp : Rounding) (vec : List Int) (N : Nat)
    (direction : transDirection) : List Int :=
  let half := N >>> 1
  forLoop half (fun i vec =>
    let j := i + half
    let predictVal := line_int.predictVal fp vec N half i
    match direction with
    | .forward => wr vec j (rd vec j - predictVal)
    | .inverse => wr vec j (rd vec j + predictVal)) vec

/-- The update value computed by one iteration of `line_int::update`. -/
def line_int.updateVal (fp : Rounding) (vec : List Int) (N half i : Nat) : Int :=
  let j := i + half
  if i = 0 ∧ N = 2 then
    fp.halfOf (rd vec j)
  else if i = 0 ∧ N > 2 then
    let v_n_minus_1 := line_int.new_n_minus1 (rd vec j) (rd vec (j + 1))
    fp.quarterSum v_n_minus_1 (rd vec j)
  else
    fp.quarterSum (rd vec (j - 1)) (rd vec j)

/-- The update step of the linear interpolation wavelet, `line_int::update`. -/
def line_int.update (fp : Rounding) (vec : List Int) (N : Nat)
    (direction : transDirection) : List Int :=
  let half := N >>> 1
  forLoop half (fun i vec =>
    let val := line_int.updateVal fp vec N half i
    match direction with
    | .forward => wr vec i (rd vec i + val)
    | .inverse => wr vec i (rd vec i - val)) vec

/-- Modelled from the spec: `liftbase::forwardStep` as inherited by `line_int`
(liftbase.h is not part of the sources): split, predict forward, update forward. -/
def line_int.forwardStep (fp : Rounding) (vec : List Int) (n : Nat) : List Int :=
  line_int.update fp (line_int.predict fp (split vec n) n .forward) n .forward

/-- Modelled from the spec: `liftbase::inverseStep` as inherited by `line_int`
(liftbase.h is not part of the sources): update inverse, predict inverse, merge. -/
def line_int.inverseStep (fp : Rounding) (vec : List Int) (n : Nat) : List Int :=
  merge (line_int.predict fp (line_int.update fp vec n .inverse) n .inverse) n

/-! ## ts_trans_int -/

/-- Extrapolated point after the end, `ts_trans_int::new_n_plus1`. -/
def ts_trans_int.new_n_plus1 (y1 y2 : Int) : Int :=
  let y := 2 * y2 - y1
  y

/-- Extrapolated point before the start, `ts_trans_int::new_n_minus1`. -/
def ts_trans_int.new_n_minus1 (y1 y2 : Int) : Int :=
  let y := 2 * y1 - y2
  y

/-- The neighbours `(y_n_minus1, y_n_plus1)` chosen by one iteration of
`ts_trans_int::predict2`.  Indices are natural numbers; `i - 1` is only read when
`i ≥ 1`. -/
def ts_trans_int.neighbours (vec : List Int) (N half i : Nat) : Int × Int :=
  if N = 2 then
    (rd vec 0, rd vec 0)
  else if i = 0 then
    (ts_trans_int.new_n_minus1 (rd vec 0) (rd vec 1), rd vec 1)
  else if i < half - 1 then
    (rd vec (i - 1), rd vec (i + 1))
  else
    (rd vec (i - 1), ts_trans_int.new_n_plus1 (rd vec (i - 1)) (rd vec i))

/-- The interpolation step, `ts_trans_int::predict2`. -/
def ts_trans_int.predict2 (fp : Rounding) (vec : List Int) (N : Nat)
    (direction : transDirection) : List Int :=
  let half := N >>> 1
  forLoop half (fun i vec =>
    let j := i + half
    let y := ts_trans_int.neighbours vec N half i
    let predictVal := fp.quarterDiff y.1 y.2
    match direction with
    | .forward => wr vec j (rd vec j + predictVal)
    | .inverse => wr vec j (rd vec j - predictVal)) vec

/-- One forward step of the TS transform, `ts_trans_int::forwardStep`. -/
def ts_trans_int.forwardStep (fp : Rounding) (vec : List Int) (n : Nat) : List Int :=
  let vec := split vec n
  let vec := haar_int.predict vec n .forward
  let vec := haar_int.update vec n .forward
  ts_trans_int.predict2 fp vec n .forward

/-- One inverse step of the TS transform, `ts_trans_int::inverseStep`. -/
def ts_trans_int.inverseStep (fp : Rounding) (vec : List Int) (n : Nat) : List Int :=
  let vec := ts_trans_int.predict2 fp vec n .inverse
  let vec := haar_int.update vec n .inverse
  let vec := haar_int.predict vec n .inverse
  merge vec n

/-! ## liftbase as seen by the packet tree -/

/-- The interface `liftbase<packcontainer_int, int>` used by the packet tree and by
the inverse packet transform: the three virtual step functions, acting on the
logical array of a container. -/
structure liftbase where
  /-- One forward step, low pass result in the lower half. -/
  forwardStep : List Int → Nat → List Int
  /-- One forward step with the filter results exchanged. -/
  forwardStepRev : List Int → Nat → List Int
  /-- One inverse step. -/
  inverseStep : List Int → Nat → List Int

/-- The wavelet object `haar_int`.  The reversed step is inherited from liftbase.h,
which is not part of the sources, and is a parameter. -/
def haar_int.wave (rev : List Int → Nat → List Int) : liftbase where
  forwardStep := haar_int.forwardStep
  forwardStepRev := rev
  inverseStep := haar_int.inverseStep

/-- The wavelet object `line_int<packcontainer_int>`.  The reversed step is
inherited from liftbase.h, which is not part of the sources, and is a parameter. -/
def line_int.wave (fp : Rounding) (rev : List Int → Nat → List Int) : liftbase where
  forwardStep := line_int.forwardStep fp
  forwardStepRev := rev
  inverseStep := line_int.inverseStep fp

/-- The wavelet object `ts_trans_int`.  The reversed step is inherited from
liftbase.h, which is not part of the sources, and is a parameter. -/
def ts_trans_int.wave (fp : Rounding) (rev : List Int → Nat → List Int) : liftbase where
  forwardStep := ts_trans_int.forwardStep fp
  forwardStepRev := rev
  inverseStep := ts_trans_int.inverseStep fp

/-! ## packdata and packnode -/

/-- The kind of data held by a node, `packdata::transformKind`. -/
inductive transformKind where
  | BadNodeKind
  | OriginalData
  | LowPass
  | HighPass
  deriving DecidableEq, Repr

/-- A pointer to a wavelet packet tree node (`packnode<int> *`): either null or a
node with its kind, length, data, cost value, chosen flag and two children. -/
inductive packnode where
  | null : packnode
  | node (kind : transformKind) (N : Nat) (data : List Int) (costVal : Int)
      (chosen : Bool) (leftChild rightChild : packnode) : packnode
  deriving DecidableEq, Repr

namespace packnode

/-- The constructor `packnode(vec, n, k)`: no children, cost 0, not chosen. -/
def new (vec : List Int) (n : Nat) (k : transformKind) : packnode :=
  node k n vec 0 false null null

/-- Test for the null pointer. -/
def isNull : packnode → Bool
  | null => true
  | node .. => false

/-- The length of the data, `length()`. -/
def length : packnode → Nat
  | null => 0
  | node _ n _ _ _ _ _ => n

/-- The data of the node, `getData()`. -/
def getData : packnode → List Int
  | null => []
  | node _ _ d _ _ _ _ => d

/-- The kind of the node, `getKind()`. -/
def getKind : packnode → transformKind
  | null => .BadNodeKind
  | node k _ _ _ _ _ _ => k

/-- The getter `cost()`. -/
def cost : packnode → Int
  | null => 0
  | node _ _ _ c _ _ _ => c

/-- The setter `cost(val)`. -/
def setCost (val : Int) : packnode → packnode
  | null => null
  | node k n d _ m l r => node k n d val m l r

/-- The getter `mark()`. -/
def mark : packnode → Bool
  | null => false
  | node _ _ _ _ m _ _ => m

/-- The setter `mark(b)`. -/
def setMark (b : Bool) : packnode → packnode
  | null => null
  | node k n d c _ l r => node k n d c b l r

/-- The getter `lhsChild()`. -/
def lhsChild : packnode → packnode
  | null => null
  | node _ _ _ _ _ l _ => l

/-- The getter `rhsChild()`. -/
def rhsChild : packnode → packnode
  | null => null
  | node _ _ _ _ _ _ r => r

/-- The index operator of a node, `(*node)[i]`. -/
def get (node : packnode) (i : Nat) : Int := rd node.getData i

end packnode

/-! ## packcontainer_int -/

/-- The container `packcontainer_int`: a length and two halves, each of which may
be a null pointer. -/
structure packcontainer_int where
  /-- Number of elements of the container. -/
  N : Nat
  /-- Left (low pass) half. -/
  lhs : Option (List Int)
  /-- Right (high pass) half. -/
  rhs : Option (List Int)
  deriving DecidableEq, Repr

namespace packcontainer_int

/-- The reading index operator `(*this)[i]`: the left half below `N/2`, the right
half from `N/2` on.  The source asserts `i < N`. -/
def get (c : packcontainer_int) (i : Nat) : Int :=
  let half := c.N >>> 1
  if i < half then rd (c.lhs.getD []) i else rd (c.rhs.getD []) (i - half)

/-- The assigning index operator `(*this)[i] = x`, with the same index map as the
reading one.  The source asserts `i < N`. -/
def set (c : packcontainer_int) (i : Nat) (x : Int) : packcontainer_int :=
  let half := c.N >>> 1
  if i < half then { c with lhs := c.lhs.map (fun l => wr l i x) }
  else { c with rhs := c.rhs.map (fun r => wr r (i - half) x) }

/-- The constructor `packcontainer_int(node)`: two fresh halves of `N/2` elements
(their contents before the copy are taken to be zero) filled by the loop
`(*this)[i] = (*node)[i]` for `i < N`.  The source asserts `N > 1`; the only caller,
`newLevel`, tests `len > 1` first. -/
def ofNode (node : packnode) : packcontainer_int :=
  let N := node.length
  let half := N >>> 1
  let c : packcontainer_int :=
    { N := N, lhs := some (List.replicate half 0), rhs := some (List.replicate half 0) }
  forLoop N (fun i c => c.set i (node.get i)) c

/-- The constructor `packcontainer_int(n)`: both halves null. -/
def ofSize (n : Nat) : packcontainer_int :=
  { N := n, lhs := none, rhs := none }

/-- The logical array presented by the container: the left half followed by the
right half. -/
def toList (c : packcontainer_int) : List Int :=
  c.lhs.getD [] ++ c.rhs.getD []

/-- Run a lifting step (template code instantiated at `packcontainer_int`) on the
logical array of the container; the result is stored back in the two halves. -/
def step (f : List Int → Nat → List Int) (c : packcontainer_int) (n : Nat) :
    packcontainer_int :=
  let v := f c.toList n
  let half := c.N >>> 1
  { c with lhs := some (v.take half), rhs := some (v.drop half) }

end packcontainer_int

/-! ## packtree_base_int and packtree_int -/

/-- The recursion of `packtree_base_int::newLevel`.  The source recurses on nodes
of length `len/2` while `len > 1`; the first argument makes this recursion
structural.  It is never smaller than the length of `top` (see `newLevel`), so it
is zero only when the length is zero, where the source stops as well. -/
def newLevelAux (waveObj : liftbase) : Nat → packnode → Bool → Bool → packnode
  | 0, top, _, _ => top
  | _ + 1, .null, _, _ => .null
  | bound + 1, .node kind len data costVal chosen l r, freqCalc, reverse =>
    if len > 1 then
      let top := packnode.node kind len data costVal chosen l r
      let container := packcontainer_int.ofNode top
      let container :=
        if reverse then container.step waveObj.forwardStepRev len
        else container.step waveObj.forwardStep len
      let lhs := packnode.new (container.lhs.getD []) (len / 2) .LowPass
      let rhs := packnode.new (container.rhs.getD []) (len / 2) .HighPass
      let top := top.setMark false
      let lhs := lhs.setMark true
      let rhs := rhs.setMark true
      let lhs := newLevelAux waveObj bound lhs freqCalc false
      let rhs :=
        if freqCalc then newLevelAux waveObj bound rhs freqCalc true
        else newLevelAux waveObj bound rhs freqCalc false
      .node top.getKind top.length top.getData top.cost top.mark lhs rhs
    else .node kind len data costVal chosen l r

/-- Build the tree below `top`, `packtree_base_int::newLevel`. -/
def newLevel (waveObj : liftbase) (top : packnode) (freqCalc reverse : Bool) : packnode :=
  newLevelAux waveObj top.length top freqCalc reverse

/-- The constructor `packtree_int(vec, N, w)`; the result is the root of the tree. -/
def packtree_int.new (vec : List Int) (N : Nat) (w : liftbase) : packnode :=
  let vecCopy := (List.range N).map (fun i => rd vec i)
  let root := packnode.new vecCopy N .OriginalData
  let root := root.setMark true
  newLevel w root false false

/-- The best basis walk, `packtree_int::bestBasisWalk`: the returned cost and the
updated tree, or `none` when the assertion fails (exactly one child is null). -/
def bestBasisWalk : packnode → Option (Int × packnode)
  | .null => some (0, .null)
  | .node kind n data costVal chosen lhs rhs =>
    if lhs.isNull && rhs.isNull then
      some (costVal, .node kind n data costVal chosen lhs rhs)
    else if !lhs.isNull && !rhs.isNull then
      match bestBasisWalk lhs, bestBasisWalk rhs with
      | some (lhsCost, lhs), some (rhsCost, rhs) =>
        let v1 := costVal
        let v2 := lhsCost + rhsCost
        if v1 ≤ v2 then
          some (costVal, .node kind n data costVal true (lhs.setMark false) (rhs.setMark false))
        else
          some (v2, .node kind n data v2 chosen lhs rhs)
      | _, _ => none
    else
      none

/-- Calculate the best basis, `packtree_int::bestBasis`: the tree after the walk. -/
def bestBasis (root : packnode) : Option packnode :=
  (bestBasisWalk root).map (fun x => x.2)

/-- The two class variables used by `checkBestBasis`. -/
structure CheckState where
  /-- The flag `foundOriginalData`. -/
  foundOriginalData : Bool
  /-- The flag `foundBestBasisVal`. -/
  foundBestBasisVal : Bool
  deriving DecidableEq, Repr

/-- The traversal `packtree_int::checkBestBasis`. -/
def checkBestBasis : packnode → CheckState → CheckState
  | .null, s => s
  | .node kind _ _ _ chosen lhs rhs, s =>
    let s :=
      if chosen then
        let s := { s with foundBestBasisVal := true }
        if kind = .OriginalData then { s with foundOriginalData := true } else s
      else s
    let s := if !s.foundOriginalData then checkBestBasis lhs s else s
    let s := if !s.foundOriginalData then checkBestBasis rhs s else s
    s

/-- The validity check `packtree_int::bestBasisOK`. -/
def bestBasisOK (root : packnode) : Bool :=
  let s := checkBestBasis root { foundOriginalData := false, foundBestBasisVal := false }
  let rslt := s.foundBestBasisVal && !s.foundOriginalData
  rslt

/-- The traversal `packtree_int::buildBestBasisList`; `FIFO_LIST::add` appends at
the tail. -/
def buildBestBasisList : packnode → List packnode → List packnode
  | .null, list => list
  | .node kind n data costVal chosen lhs rhs, list =>
    if chosen then list ++ [.node kind n data costVal chosen lhs rhs]
    else buildBestBasisList rhs (buildBestBasisList lhs list)

/-- The best basis list, `packtree_int::getBestBasisList`. -/
def getBestBasisList (root : packnode) : List packnode :=
  buildBestBasisList root []

/-- The traversal `packtree_int::cleanTree`: below the first marked node of every
path the marks are removed. -/
def cleanTree : packnode → Bool → packnode
  | .null, _ => .null
  | .node kind n data costVal chosen lhs rhs, removeMark =>
    if removeMark then
      let chosen := if chosen then false else chosen
      .node kind n data costVal chosen (cleanTree lhs removeMark) (cleanTree rhs removeMark)
    else
      let removeMark := if chosen then true else removeMark
      .node kind n data costVal chosen (cleanTree lhs removeMark) (cleanTree rhs removeMark)

/-! ## Cost functions -/

/-- The loop of `support::nearestPower2Width_` on the pair `(power, width)`.  The
guard `width < 32` bounds the number of iterations by 31, so a bound of 32 on the
number of iterations never cuts the loop short. -/
def support.nearestPower2Width_.loop (val : Nat) : Nat → Nat × Nat → Nat × Nat
  | 0, s => s
  | bound + 1, (power, width) =>
    if power < val ∧ width < 32 then
      support.nearestPower2Width_.loop val bound (power <<< 1, width + 1)
    else (power, width)

/-- The width of an unsigned value, `support::nearestPower2Width_`. -/
def support.nearestPower2Width_ (val : Nat) : Nat :=
  if val > 0 then
    (support.nearestPower2Width_.loop val 32 (1, 1)).2
  else 0

/-- The width of a signed value with its sign bit, `support::valWidth`. -/
def support.valWidth (val : Int) : Nat :=
  let wholeNum := if val < 0 then (-val).toNat else val.toNat
  let width := 1 + support.nearestPower2Width_ wholeNum
  width

/-- The summed width of the first `N` elements, `support::vecWidth`. -/
def support.vecWidth (vec : List Int) (N : Nat) : Nat :=
  forLoop N (fun i totalWidth => totalWidth + support.valWidth (rd vec i)) 0

/-- The traversal `costbase_int::traverse` for a cost function `costCalc`. -/
def costbase_int.traverse (costCalc : packnode → Int) : packnode → packnode
  | .null => .null
  | .node kind n data costVal chosen lhs rhs =>
    let cost := costCalc (.node kind n data costVal chosen lhs rhs)
    .node kind n data cost chosen (costbase_int.traverse costCalc lhs)
      (costbase_int.traverse costCalc rhs)

/-- The bit-width cost of a node, `costwidth::costCalc`. -/
def costwidth.costCalc (root : packnode) : Int :=
  let N := root.length
  let a := root.getData
  let width := support.vecWidth a N
  (width : Int)

/-- The constructor `costwidth(root)`: the tree with every cost set. -/
def costwidth (root : packnode) : packnode :=
  costbase_int.traverse costwidth.costCalc root

/-! ## invpacktree_int -/

/-- Push a new container whose left half is `elem`, `invpacktree_int::new_level`.
The stack is a list whose head is the top of the stack (`LIST::add` adds at the
front). -/
def invpacktree_int.new_level (elem : packnode) (stack : List packcontainer_int) :
    List packcontainer_int :=
  let half := elem.length
  let n := half * 2
  let container := packcontainer_int.ofSize n
  let container := { container with lhs := some elem.getData }
  container :: stack

/-- The body of `invpacktree_int::reduce` for a stack with top `tos` above `rest`.
The recursive call of the source is made on a stack with one container less; it is
written here as a recursion on `rest`. -/
def invpacktree_int.reduceTop (waveObj : liftbase) (tos : packcontainer_int)
    (rest : List packcontainer_int) : Option (List packcontainer_int) :=
  if tos.lhs.isSome && tos.rhs.isSome then
    let n := tos.N
    let tos := tos.step waveObj.inverseStep n
    let vec := (List.range n).map (fun i => tos.get i)
    match rest with
    | tos2 :: rest2 =>
      if tos2.N = n * 2 then
        invpacktree_int.reduceTop waveObj { tos2 with rhs := some vec } rest2
      else if tos2.N > n * 2 then
        let container := packcontainer_int.ofSize (n * 2)
        let container := { container with lhs := some vec }
        some (container :: tos2 :: rest2)
      else none
    | [] =>
      let container := packcontainer_int.ofSize (n * 2)
      let container := { container with lhs := some vec }
      some [container]
  else none

/-- The reduction `invpacktree_int::reduce`; `none` when an assertion fails or the
stack is empty. -/
def invpacktree_int.reduce (waveObj : liftbase) :
    List packcontainer_int → Option (List packcontainer_int)
  | [] => none
  | tos :: rest => invpacktree_int.reduceTop waveObj tos rest

/-- Add one element of the best basis list, `invpacktree_int::add_elem`.  The source
asserts that `elem` is not null; when the top container is too short the source
only prints a message and leaves the stack as it is. -/
def invpacktree_int.add_elem (waveObj : liftbase) (elem : packnode)
    (stack : List packcontainer_int) : Option (List packcontainer_int) :=
  if elem.isNull then none
  else
    match stack with
    | [] => some (invpacktree_int.new_level elem stack)
    | tos :: rest =>
      let half := elem.length
      let n := half * 2
      if tos.N = n then
        if tos.rhs.isSome then none
        else invpacktree_int.reduce waveObj ({ tos with rhs := some elem.getData } :: rest)
      else if tos.N > n then
        some (invpacktree_int.new_level elem stack)
      else
        some stack

/-- The loop of the constructor of `invpacktree_int` over the list. -/
def invpacktree_int.addAll (waveObj : liftbase) :
    List packnode → List packcontainer_int → Option (List packcontainer_int)
  | [], stack => some stack
  | elem :: list, stack =>
    match invpacktree_int.add_elem waveObj elem stack with
    | some stack => invpacktree_int.addAll waveObj list stack
    | none => none

/-- The object built by the constructor of `invpacktree_int`. -/
structure invpacktree_int where
  /-- The calculation stack left by the constructor. -/
  stack : List packcontainer_int
  /-- Pointer to the result. -/
  data : Option (List Int)
  /-- Length of the result. -/
  N : Nat
  deriving DecidableEq, Repr

/-- The constructor `invpacktree_int(list, w)`; `none` when an assertion fails or
the stack is empty at the end (the source then reads through a null handle). -/
def invpacktree_int.new (list : List packnode) (w : liftbase) : Option invpacktree_int :=
  match invpacktree_int.addAll w list [] with
  | none => none
  | some [] => none
  | some (tos :: rest) =>
    let len := tos.N
    some { stack := rest, data := tos.lhs, N := len / 2 }

/-- The result pointer, `invpacktree_int::getData`. -/
def invpacktree_int.getData (t : invpacktree_int) : Option (List Int) := t.data

/-! ## compresstest: packet_calc -/

/-- The inverse result computed in `packet_calc` of compresstest.cpp for the wavelet
object `w`: build the tree, annotate the bit-width cost, select the best basis,
collect the list and run the inverse packet transform. -/
def packet_calc.invRslt (w : liftbase) (intVec : List Int) (N : Nat) :
    Option (List Int) :=
  let treeRoot := packtree_int.new intVec N w
  let treeRoot := costwidth treeRoot
  match bestBasis treeRoot with
  | none => none
  | some treeRoot =>
    let bestBasisL := getBestBasisList treeRoot
    match invpacktree_int.new bestBasisL w with
    | none => none
    | some invtree => invtree.getData

/-! ## Vocabulary for statements about trees -/

namespace packnode

/-- The node reached from `t` along a path of child selections (`false` for the
left child, `true` for the right child); null when the path leaves the tree. -/
def sub : packnode → List Bool → packnode
  | t, [] => t
  | t, false :: p => sub t.lhsChild p
  | t, true :: p => sub t.rhsChild p

/-- An internal node: a node both of whose children are present. -/
def isInternal (t : packnode) : Bool :=
  !t.isNull && !t.lhsChild.isNull && !t.rhsChild.isNull

/-- A full binary tree: every node has either no child or two children. -/
def full : packnode → Bool
  | null => false
  | node _ _ _ _ _ l r => (l.isNull && r.isNull) || (full l && full r)

/-- The marks right after construction: a full binary tree in which exactly the
leaves are marked. -/
def fresh : packnode → Bool
  | null => false
  | node _ _ _ _ m l r => (l.isNull && r.isNull && m) || (!m && fresh l && fresh r)

/-- Some node of the tree is marked. -/
def anyMarked : packnode → Bool
  | null => false
  | node _ _ _ _ m l r => m || anyMarked l || anyMarked r

/-- No node of the tree has kind `OriginalData`. -/
def noOriginalData : packnode → Bool
  | null => true
  | node k _ _ _ _ l r => k != .OriginalData && noOriginalData l && noOriginalData r

/-- Only the root has kind `OriginalData`. -/
def onlyRootOriginal (t : packnode) : Bool :=
  t.getKind == .OriginalData && noOriginalData t.lhsChild && noOriginalData t.rhsChild

/-- Every path from the node down to a leaf meets a marked node. -/
def covered : packnode → Bool
  | null => false
  | node _ _ _ _ m l r => m || (covered l && covered r)

/-- Both children of every marked node are unmarked. -/
def kidsClear : packnode → Bool
  | null => true
  | node _ _ _ _ m l r => (!m || (!l.mark && !r.mark)) && kidsClear l && kidsClear r

/-- Every internal node met before the first marked node on its path has the sum
of the costs of its children as its cost. -/
def sumAbove : packnode → Bool
  | null => true
  | node _ _ _ c m l r =>
    m || (l.isNull && r.isNull) || (c == l.cost + r.cost && sumAbove l && sumAbove r)

/-- A leaf: a node without children. -/
def isLeaf (t : packnode) : Bool :=
  !t.isNull && t.lhsChild.isNull && t.rhsChild.isNull

/-- The nodes at depth `j` below `t` (the root `t` is at depth 0), from left to
right. -/
def nodesAt : packnode → Nat → List packnode
  | null, _ => []
  | node k n d c m l r, 0 => [node k n d c m l r]
  | node _ _ _ _ _ l r, j + 1 => nodesAt l j ++ nodesAt r j

/-- The number of nodes of the tree. -/
def size : packnode → Nat
  | null => 0
  | node _ _ _ _ _ l r => 1 + size l + size r

/-- The paths of the nodes collected by the best basis traversal: the traversal
stops at a marked node and otherwise visits the left subtree, then the right one. -/
def basisPaths : packnode → List (List Bool)
  | null => []
  | node _ _ _ _ m l r =>
    if m then [[]]
    else (basisPaths l).map (fun p => false :: p) ++ (basisPaths r).map (fun p => true :: p)

/-- Every left child has kind `LowPass` and every right child kind `HighPass`. -/
def stdKinds : packnode → Bool
  | null => true
  | node _ _ _ _ _ l r =>
    (l.isNull || l.getKind == .LowPass) && (r.isNull || r.getKind == .HighPass)
      && stdKinds l && stdKinds r

end packnode

/-- A decomposition of the subtree of a node: the node itself, or a decomposition
of its left child followed by a decomposition of its right child. -/
inductive IsDecomp : packnode → List packnode → Prop where
  | self (k : transformKind) (n : Nat) (d : List Int) (c : Int) (m : Bool)
      (l r : packnode) : IsDecomp (.node k n d c m l r) [.node k n d c m l r]
  | children (k : transformKind) (n : Nat) (d : List Int) (c : Int) (m : Bool)
      (l r : packnode) (dl dr : List packnode) :
      IsDecomp l dl → IsDecomp r dr → IsDecomp (.node k n d c m l r) (dl ++ dr)

/-- The summed cost of a list of nodes. -/
def sumCost (ns : List packnode) : Int := (ns.map packnode.cost).sum

/-- The value `c` is the minimum, over all decompositions of the subtree of `t`, of
the summed cost of the chosen nodes. -/
def IsMinCost (t : packnode) (c : Int) : Prop :=
  (∃ ns, IsDecomp t ns ∧ sumCost ns = c) ∧ ∀ ns, IsDecomp t ns → c ≤ sumCost ns

/-! ## Proof-side views of the lifting loops -/

/-- A loop that rewrites the upper half: `vec[i+half] = op vec[i+half] (P vec i)`. -/
def hiLoop (half : Nat) (P : List Int → Nat → Int) (op : Int → Int → Int)
    (vec : List Int) : List Int :=
  forLoop half (fun i v => wr v (i + half) (op (rd v (i + half)) (P v i))) vec

/-- A loop that rewrites the lower half: `vec[i] = op vec[i] (U vec i)`. -/
def loLoop (half : Nat) (U : List Int → Nat → Int) (op : Int → Int → Int)
    (vec : List Int) : List Int :=
  forLoop half (fun i v => wr v i (op (rd v i) (U v i))) vec

/-- The value `P vec i` only depends on the lower half of `vec`. -/
def LoDet (half : Nat) (P : List Int → Nat → Int) : Prop :=
  ∀ v w i, i < half → (∀ k, k < half → rd v k = rd w k) → P v i = P w i

/-- The value `U vec i` only depends on the part of `vec` from `half` on. -/
def HiDet (half : Nat) (U : List Int → Nat → Int) : Prop :=
  ∀ v w i, i < half → (∀ k, half ≤ k → rd v k = rd w k) → U v i = U w i

/-- A wavelet object whose steps keep the length and whose inverse step undoes its
forward step on arrays of even length. -/
def RoundTrip (w : liftbase) : Prop :=
  ∀ (d : List Int) (n : Nat), d.length = n → 2 * (n >>> 1) = n →
    (w.forwardStep d n).length = n ∧ w.inverseStep (w.forwardStep d n) n = d

/-- A wavelet object whose forward step keeps the length of arrays of even
length (in the source every step works in place). -/
def KeepsLength (w : liftbase) : Prop :=
  ∀ (d : List Int) (n : Nat), d.length = n → 2 * (n >>> 1) = n →
    (w.forwardStep d n).length = n

/-- A standard packet tree of depth `j` over the wavelet `w`: every node at height
`i` holds `2^i` samples, and the children of an internal node hold the two halves
of one forward step of its data. -/
inductive Built (w : liftbase) : Nat → packnode → Prop where
  | leaf (k : transformKind) (d : List Int) (c : Int) (m : Bool) :
      d.length = 1 → Built w 0 (.node k 1 d c m .null .null)
  | inner (j : Nat) (k : transformKind) (d : List Int) (c : Int) (m : Bool)
      (l r : packnode) :
      d.length = 2 ^ (j + 1) → Built w j l → Built w j r →
      l.getData = (w.forwardStep d (2 ^ (j + 1))).take (2 ^ j) →
      r.getData = (w.forwardStep d (2 ^ (j + 1))).drop (2 ^ j) →
      Built w (j + 1) (.node k (2 ^ (j + 1)) d c m l r)

/-- A stack on which an element of length `n` can be added: it is empty, or its top
container still waits for its right half and has length at least `2 * n`. -/
def Ready (stack : List packcontainer_int) (n : Nat) : Prop :=
  match stack with
  | [] => True
  | c :: _ => c.rhs = none ∧ 2 * n ≤ c.N

/-- A perfect binary tree of depth `j` whose nodes at height `i` have length
`2^i`. -/
def Perfect : Nat → packnode → Prop
  | _, .null => False
  | 0, .node _ n _ _ _ l r => n = 1 ∧ l = .null ∧ r = .null
  | j + 1, .node _ n _ _ _ l r => n = 2 ^ (j + 1) ∧ Perfect j l ∧ Perfect j r

/-- Modelled on the words of the spec: the collection is a depth-first,
left-to-right traversal that appends a marked node without descending and
otherwise collects the left subtree, then the right subtree. -/
def basisListSpec : packnode → List packnode
  | .null => []
  | .node k n d c m l r =>
    if m then [.node k n d c m l r] else basisListSpec l ++ basisListSpec r

/-! ## Filter placement in the tree -/

/-- The step that `newLevel` runs on the container of a node, selected by its
parameter `reverse`: `forwardStepRev` when it is set, `forwardStep` otherwise. -/
def stepOf (waveObj : liftbase) (reverse : Bool) : List Int → Nat → List Int :=
  if reverse then waveObj.forwardStepRev else waveObj.forwardStep

/-- The value of the parameter `reverse` with which `newLevel` reaches the node at
path `p`, when it was called on the root with `freqCalc` and `reverse`: the root
keeps `reverse`, the call on a left child passes `false`, and the call on a right
child passes `true` if `freqCalc` is set and `false` otherwise. -/
def reverseAt (freqCalc reverse : Bool) (p : List Bool) : Bool :=
  match p.getLast? with
  | none => reverse
  | some isRight => freqCalc && isRight

/-- A tree in which the children of every node that has children hold the two
halves of the step selected by `reverse` on the container of the node, the left
subtree satisfying the same with `reverse = false` and the right subtree with
`reverse = freqCalc`. -/
def StepTree (waveObj : liftbase) (freqCalc : Bool) : Bool → packnode → Prop
  | _, .null => True
  | reverse, .node k n d c m l r =>
    (l = .null ∧ r = .null) ∨
    (l.getData
        = (((packcontainer_int.ofNode (.node k n d c m l r)).step
            (stepOf waveObj reverse) n).lhs).getD []
      ∧ r.getData
        = (((packcontainer_int.ofNode (.node k n d c m l r)).step
            (stepOf waveObj reverse) n).rhs).getD []
      ∧ StepTree waveObj freqCalc false l
      ∧ StepTree waveObj freqCalc freqCalc r)

/-! ## IEEE double precision -/

/-- The integer nearest to a rational, ties going to the even integer. -/
def roundHalfEven (m : ℚ) : Int :=
  let f := ⌊m⌋
  let r := m - f
  if r < 1 / 2 then f else if 1 / 2 < r then f + 1 else if f % 2 = 0 then f else f + 1

/-- The exponent `e` of the spacing `2^e` of the `double`s around `x`: the
significand has 53 bits, so `e = floor(log2 |x|) - 52`, and not less than `-1074`,
the exponent of the subnormal numbers. -/
def float64.ulpExp (x : ℚ) : Int := max (Int.log 2 |x| - 52) (-1074)

/-- The `double` (IEEE 754 binary64) nearest to the rational `x`, ties going to
the even significand: the rounding applied to the exact result of every `double`
operation.  A result of magnitude `2^1024` or more stands for an overflow (an
infinity in C++); the statements below exclude it through `float64.isDouble`. -/
def float64.round (x : ℚ) : ℚ :=
  (roundHalfEven (x / 2 ^ float64.ulpExp x) : ℚ) * 2 ^ float64.ulpExp x

/-- The `double` addition `a + b`. -/
def float64.add (a b : ℚ) : ℚ := float64.round (a + b)

/-- The `double` subtraction `a - b`. -/
def float64.sub (a b : ℚ) : ℚ := float64.round (a - b)

/-- The `double` multiplication `a * b`. -/
def float64.mul (a b : ℚ) : ℚ := float64.round (a * b)

/-- The `double` division `a / b`. -/
def float64.div (a b : ℚ) : ℚ := float64.round (a / b)

/-- Read `vec[i]` of an array of `double`; the value of a finite `double` is a
rational number. -/
def rdQ (vec : List ℚ) (i : Nat) : ℚ := vec.getD i 0

/-- Write `vec[i] = x` in an array of `double`. -/
def wrQ (vec : List ℚ) (i : Nat) (x : ℚ) : List ℚ := vec.set i x

/-- Modelled from the spec: `liftbase::split` (liftbase.h is not part of the
sources) on an array of `double`: the even-indexed elements of the first `N`
elements fill the first half, the odd-indexed ones the second half. -/
def splitQ (vec : List ℚ) (N : Nat) : List ℚ :=
  let half := N >>> 1
  (List.range half).map (fun i => rdQ vec (2 * i))
    ++ (List.range half).map (fun i => rdQ vec (2 * i + 1))
    ++ vec.drop (2 * half)

/-- The predict step of the classic Haar transform, `haar_classic::predict`; every
arithmetic operation is a `double` operation. -/
def haar_classic.predict (vec : List ℚ) (N : Nat) (direction : transDirection) : List ℚ :=
  let half := N >>> 1
  forLoop half (fun i vec =>
    let predictVal := rdQ vec i
    let j := i + half
    match direction with
    | .forward => wrQ vec j (float64.div (float64.sub predictVal (rdQ vec j)) 2)
    | .inverse => wrQ vec j (float64.sub predictVal (float64.mul 2 (rdQ vec j)))) vec

/-- The update step of the classic Haar transform, `haar_classic::update`. -/
def haar_classic.update (vec : List ℚ) (N : Nat) (direction : transDirection) : List ℚ :=
  let half := N >>> 1
  forLoop half (fun i vec =>
    let j := i + half
    let updateVal := rdQ vec j
    match direction with
    | .forward => wrQ vec i (float64.sub (rdQ vec i) updateVal)
    | .inverse => wrQ vec i (float64.add (rdQ vec i) updateVal)) vec

/-- Modelled from the spec: `liftbase::forwardStep` as inherited by `haar_classic`
(liftbase.h is not part of the sources): split, predict forward, update forward. -/
def haar_classic.forwardStep (vec : List ℚ) (n : Nat) : List ℚ :=
  haar_classic.update (haar_classic.predict (splitQ vec n) n .forward) n .forward

/-- The reversed predict step, `haar_classicFreq::predictRev`: the high pass
result goes to the lower half. -/
def haar_classicFreq.predictRev (vec : List ℚ) (N : Nat) (direction : transDirection) :
    List ℚ :=
  let half := N >>> 1
  forLoop half (fun i vec =>
    let j := i + half
    match direction with
    | .forward => wrQ vec i (float64.div (float64.sub (rdQ vec i) (rdQ vec j)) 2)
    | .inverse => wrQ vec i (float64.add (float64.mul 2 (rdQ vec i)) (rdQ vec j))) vec

/-- The reversed update step, `haar_classicFreq::updateRev`: the low pass result
goes to the upper half. -/
def haar_classicFreq.updateRev (vec : List ℚ) (N : Nat) (direction : transDirection) :
    List ℚ :=
  let half := N >>> 1
  forLoop half (fun i vec =>
    let j := i + half
    match direction with
    | .forward => wrQ vec j (float64.add (rdQ vec j) (rdQ vec i))
    | .inverse => wrQ vec j (float64.sub (rdQ vec j) (rdQ vec i))) vec

/-- One forward step with the filter results exchanged,
`haar_classicFreq::forwardStepRev`: split, predictRev forward, updateRev
forward. -/
def haar_classicFreq.forwardStepRev (vec : List ℚ) (n : Nat) : List ℚ :=
  let vec := splitQ vec n
  let vec := haar_classicFreq.predictRev vec n .forward
  haar_classicFreq.updateRev vec n .forward

/-- Modelled from the spec: `liftbase::merge` (liftbase.h is not part of the
sources) on an array of `double`, the inverse rearrangement of `splitQ`:
the first half goes to the even positions and the second half to the odd positions
of the first `N` elements. -/
def mergeQ (vec : List ℚ) (N : Nat) : List ℚ :=
  let half := N >>> 1
  (List.range (2 * half)).map
      (fun k => if k % 2 = 0 then rdQ vec (k / 2) else rdQ vec (half + k / 2))
    ++ vec.drop (2 * half)

/-- Modelled from the spec: `liftbase::inverseStep` as inherited by `haar_classic`
(liftbase.h is not part of the sources): update inverse, predict inverse, merge. -/
def haar_classic.inverseStep (vec : List ℚ) (n : Nat) : List ℚ :=
  mergeQ (haar_classic.predict (haar_classic.update vec n .inverse) n .inverse) n

/-- The delta transform, `delta_trans::forward`: every element but the first is
replaced by its difference to the original value of its predecessor, which the
loop carries in `refVal`.  The loop `for (i = 1; i < len; i++)` runs `len - 1`
times with `i = k + 1`; the array pointer of the model is never null. -/
def delta_trans.forward (vec : List Int) (len : Nat) : List Int :=
  if len > 0 then
    let refVal := rd vec 0
    (forLoop (len - 1) (fun k (s : List Int × Int) =>
      let i := k + 1
      let next := rd s.1 i
      let vec := wr s.1 i (rd s.1 i - s.2)
      let refVal := next
      (vec, refVal)) (vec, refVal)).1
  else vec

/-- The inverse delta transform, `delta_trans::inverse`:
`vec[i] = vec[i] + vec[i-1]` for `i = 1 .. len - 1`. -/
def delta_trans.inverse (vec : List Int) (len : Nat) : List Int :=
  if len > 0 then
    forLoop (len - 1) (fun k vec =>
      let i := k + 1
      wr vec i (rd vec i + rd vec (i - 1))) vec
  else vec

/-! ## Documented values used for comparison -/

/-- The interpolation term as written in the header comment of ts_trans_int.h,
`floor((s[i-1] - s[i+1])/4.0 + 0.5)`, over the rationals. -/
def ts_trans_int.documentedTerm (sPrev sNext : Int) : Int :=
  ⌊((sPrev : ℚ) - (sNext : ℚ)) / 4 + 1 / 2⌋

/-! ## Further vocabulary for statements about trees -/

/-- A full binary tree in which every node with children costs no more than its
two children together. -/
def packnode.settled : packnode → Bool
  | .null => false
  | .node _ _ _ c _ l r =>
    (l.isNull && r.isNull)
      || (!l.isNull && !r.isNull && decide (c ≤ l.cost + r.cost)
          && packnode.settled l && packnode.settled r)

/-- Two nodes agree on their own kind, length, data and cost (their marks and
subtrees may differ). -/
def sameOwn (x y : packnode) : Prop :=
  x.getKind = y.getKind ∧ x.length = y.length ∧ x.getData = y.getData ∧ x.cost = y.cost

/-! ## compresstest: calcPacketWidth -/

/-- The summed bit width of the nodes of a best basis list, `calcPacketWidth` of
compresstest.cpp. -/
def calcPacketWidth (bestBasisList : List packnode) : Nat :=
  bestBasisList.foldl (fun totalWidth node =>
    let len := node.length
    let vec := node.getData
    let nodeWidth := support.vecWidth vec len
    totalWidth + nodeWidth) 0

/-! ## The recursion of reduce, with a bound and a call count -/

/-- The outcome of a bounded run of `invpacktree_int::reduce`: the bound was too
small, an assertion failed (or the stack was empty), or the function returned; the
last two carry the number of recursive calls that were made. -/
inductive ReduceOutcome where
  | outOfFuel : ReduceOutcome
  | aborted (calls : Nat) : ReduceOutcome
  | returned (calls : Nat) (stack : List packcontainer_int) : ReduceOutcome
  deriving DecidableEq, Repr

/-- The function `invpacktree_int::reduce` as written in the source: the recursive
call is made on the stack as it is after the pop and the assignment of the right
half.  The first argument bounds the depth of the recursion, and the recursive
calls are counted. -/
def invpacktree_int.reduceRun (waveObj : liftbase) :
    Nat → List packcontainer_int → ReduceOutcome
  | _, [] => .aborted 0
  | 0, _ :: _ => .outOfFuel
  | fuel + 1, tos :: stack =>
    if tos.lhs.isSome && tos.rhs.isSome then
      let n := tos.N
      let tos := tos.step waveObj.inverseStep n
      let vec := (List.range n).map (fun i => tos.get i)
      match stack with
      | tos2 :: rest =>
        if tos2.N = n * 2 then
          match invpacktree_int.reduceRun waveObj fuel ({ tos2 with rhs := some vec } :: rest) with
          | .outOfFuel => .outOfFuel
          | .aborted calls => .aborted (calls + 1)
          | .returned calls stack => .returned (calls + 1) stack
        else if tos2.N > n * 2 then
          let container := packcontainer_int.ofSize (n * 2)
          let container := { container with lhs := some vec }
          .returned 0 (container :: tos2 :: rest)
        else .aborted 0
      | [] =>
        let container := packcontainer_int.ofSize (n * 2)
        let container := { container with lhs := some vec }
        .returned 0 [container]
    else .aborted 0

/-! ## The calculation stack of the inverse packet transform -/

/-- The state of the calculation stack between two calls of `add_elem`: every
container has its left half and no right half, its declared length is a power of
two, and it is shorter than every container below it. -/
def StackOK : List packcontainer_int → Prop
  | [] => True
  | c :: rest =>
    c.lhs.isSome = true ∧ c.rhs = none ∧ (∃ e, c.N = 2 ^ e) ∧ (∀ d ∈ rest, c.N < d.N)
      ∧ StackOK rest

/-- The declared lengths on the stack after an array of length `n` has been added
to a stack with the declared lengths `ms` (top first): a top container of length
`n * 2` is completed and its result, of length `n * 2`, is added in turn;
otherwise a container of length `n * 2` is pushed. -/
def pushShape : Nat → List Nat → List Nat
  | n, [] => [n * 2]
  | n, m :: rest => if m = n * 2 then pushShape (n * 2) rest else (n * 2) :: m :: rest

/-! ## packfreq: the frequency tree over double -/

/-- A pointer to a node of a tree over `double` (`packnode<double> *`), with the
data and the cost taken over the rationals. -/
inductive packnode_double where
  | null : packnode_double
  | node (kind : transformKind) (N : Nat) (data : List ℚ) (costVal : ℚ)
      (chosen : Bool) (leftChild rightChild : packnode_double) : packnode_double

namespace packnode_double

/-- The length of the data, `length()`. -/
def length : packnode_double → Nat
  | null => 0
  | node _ n _ _ _ _ _ => n

/-- The setter `mark(b)`. -/
def setMark (b : Bool) : packnode_double → packnode_double
  | null => null
  | node k n d c _ l r => node k n d c b l r

/-- The getter `lhsChild()`. -/
def lhsChild : packnode_double → packnode_double
  | null => null
  | node _ _ _ _ _ l _ => l

/-- The getter `rhsChild()`. -/
def rhsChild : packnode_double → packnode_double
  | null => null
  | node _ _ _ _ _ _ r => r

/-- The node reached along a path of child selections (`false` for the left child,
`true` for the right child); null when the path leaves the tree. -/
def sub : packnode_double → List Bool → packnode_double
  | t, [] => t
  | t, false :: p => sub t.lhsChild p
  | t, true :: p => sub t.rhsChild p

/-- The nodes at depth `j` below `t` (the root `t` is at depth 0), from left to
right. -/
def nodesAt : packnode_double → Nat → List packnode_double
  | null, _ => []
  | node k n d c m l r, 0 => [node k n d c m l r]
  | node _ _ _ _ _ l r, j + 1 => nodesAt l j ++ nodesAt r j

end packnode_double

/-- The interface `liftbase<packcontainer, double>` used by the tree over `double`:
the standard forward step and the forward step with the filter results
exchanged. -/
structure liftbase_double where
  /-- One forward step, low pass result in the lower half. -/
  forwardStep : List ℚ → Nat → List ℚ
  /-- One forward step with the filter results exchanged. -/
  forwardStepRev : List ℚ → Nat → List ℚ

/-- The wavelet object `haar_classicFreq<packcontainer>` used by freqtest.cpp. -/
def haar_classicFreq.wave : liftbase_double where
  forwardStep := haar_classic.forwardStep
  forwardStepRev := haar_classicFreq.forwardStepRev

/-- Modelled from the spec: `packtree_base::newLevel` for the tree over `double`
(packtree_base.cpp is not part of the sources), after section 4.3 of the spec.  A
node of length at most 1 is left as a leaf.  Otherwise one transform step, the
reversed one if `reverse` is set, is applied to the `len` elements of the node; the
left child (`LowPass`) holds the lower half and the right child (`HighPass`) the
upper half, each of length `len / 2`; the node is unmarked and its children are
marked; the recursion enters the left child with `reverse = false` and the right
child with `reverse = true` if `freqCalc` is set and with `reverse = false`
otherwise.  The first argument bounds the recursion as in `newLevelAux`. -/
def packtree_base.newLevelAux (waveObj : liftbase_double) :
    Nat → packnode_double → Bool → Bool → packnode_double
  | 0, top, _, _ => top
  | _ + 1, .null, _, _ => .null
  | bound + 1, .node kind len data costVal chosen l r, freqCalc, reverse =>
    if len > 1 then
      let vec := (List.range len).map (fun i => rdQ data i)
      let vec := if reverse then waveObj.forwardStepRev vec len else waveObj.forwardStep vec len
      let lhs := packnode_double.node .LowPass (len / 2) (vec.take (len / 2)) 0 true .null .null
      let rhs := packnode_double.node .HighPass (len / 2) (vec.drop (len / 2)) 0 true .null .null
      let lhs := packtree_base.newLevelAux waveObj bound lhs freqCalc false
      let rhs :=
        if freqCalc then packtree_base.newLevelAux waveObj bound rhs freqCalc true
        else packtree_base.newLevelAux waveObj bound rhs freqCalc false
      .node kind len data costVal false lhs rhs
    else .node kind len data costVal chosen l r

/-- Modelled from the spec: the entry point `packtree_base::newLevel`
(packtree_base.cpp is not part of the sources). -/
def packtree_base.newLevel (waveObj : liftbase_double) (top : packnode_double)
    (freqCalc reverse : Bool) : packnode_double :=
  packtree_base.newLevelAux waveObj top.length top freqCalc reverse

/-- The constructor `packfreq(vec, N, w)`; the result is the root of the tree. -/
def packfreq.new (vec : List ℚ) (N : Nat) (w : liftbase_double) : packnode_double :=
  let vecCopy := (List.range N).map (fun i => rdQ vec i)
  let root := packnode_double.node .OriginalData N vecCopy 0 false .null .null
  let root := root.setMark true
  packtree_base.newLevel w root true false

/-- The traversal `packfreq::findLevel`.  The level basis matrix `mat` is a list;
`GrowableArray::append` adds at the end. -/
def packfreq.findLevel :
    packnode_double → Nat → Nat → List packnode_double → List packnode_double
  | .null, _, _, mat => mat
  | .node k n d c m l r, cur_level, level, mat =>
    if cur_level = level then mat ++ [.node k n d c m l r]
    else
      let mat := packfreq.findLevel l (cur_level + 1) level mat
      packfreq.findLevel r (cur_level + 1) level mat

/-- The level basis, `packfreq::getLevel`, as a function of the root and of the
matrix before the call. -/
def packfreq.getLevel (root : packnode_double) (level : Nat)
    (mat : List packnode_double) : List packnode_double :=
  packfreq.findLevel root 0 level mat

/-- A perfect binary tree over `double` of depth `j` whose nodes at height `i`
have length `2^i`. -/
def PerfectD : Nat → packnode_double → Prop
  | _, .null => False
  | 0, .node _ n _ _ _ l r => n = 1 ∧ l = .null ∧ r = .null
  | j + 1, .node _ n _ _ _ l r => n = 2 ^ (j + 1) ∧ PerfectD j l ∧ PerfectD j r

/-- The paths of length `j`, ordered from left to right. -/
def levelPaths : Nat → List (List Bool)
  | 0 => [[]]
  | j + 1 => (levelPaths j).map (fun p => false :: p) ++ (levelPaths j).map (fun p => true :: p)
/-! ## Theorems -/

theorem rd_wr (v : List Int) (i k : Nat) (x : Int) :
    rd (wr v i x) k = if k = i ∧ i < v.length then x else rd v k := by
  unfold rd wr
  simp only [List.getD_eq_getElem?_getD, List.getElem?_set]
  by_cases h : i = k
  · subst h
    by_cases h2 : i < v.length
    · simp [h2]
    · simp [h2, List.getElem?_eq_none (Nat.le_of_not_lt h2)]
  · have h3 : ¬ k = i := fun e => h e.symm
    simp [h, h3]

theorem length_wr (v : List Int) (i : Nat) (x : Int) : (wr v i x).length = v.length := by
  simp [wr]

theorem rd_of_lt (v : List Int) (k : Nat) (h : k < v.length) : rd v k = v[k] := by
  simp [rd, List.getD_eq_getElem?_getD, List.getElem?_eq_getElem h]

theorem rd_of_le (v : List Int) (k : Nat) (h : v.length ≤ k) : rd v k = 0 := by
  simp [rd, List.getD_eq_getElem?_getD, List.getElem?_eq_none h]

theorem ext_rd (a b : List Int) (hl : a.length = b.length)
    (h : ∀ k, k < a.length → rd a k = rd b k) : a = b := by
  apply List.ext_getElem hl
  intro n h1 h2
  have := h n h1
  rwa [rd_of_lt a n h1, rd_of_lt b n h2] at this

theorem rd_append (a b : List Int) (k : Nat) :
    rd (a ++ b) k = if k < a.length then rd a k else rd b (k - a.length) := by
  unfold rd
  simp only [List.getD_eq_getElem?_getD, List.getElem?_append]
  split <;> rfl

theorem rd_map_range (n : Nat) (f : Nat → Int) (k : Nat) :
    rd ((List.range n).map f) k = if k < n then f k else 0 := by
  unfold rd
  simp only [List.getD_eq_getElem?_getD, List.getElem?_map]
  by_cases h : k < n
  · simp [h, List.getElem?_range h]
  · simp [h, List.getElem?_eq_none (show (List.range n).length ≤ k by simpa using Nat.le_of_not_lt h)]

theorem rd_drop (v : List Int) (n k : Nat) : rd (v.drop n) k = rd v (n + k) := by
  simp [rd, List.getD_eq_getElem?_getD, List.getElem?_drop]


/-! ### The generic lifting loops -/

theorem hiLoop_run (half : Nat) (P : List Int → Nat → Int) (op : Int → Int → Int)
    (vec : List Int) (hP : LoDet half P) (hlen : 2 * half ≤ vec.length) (n : Nat)
    (hn : n ≤ half) :
    (forLoop n (fun i v => wr v (i + half) (op (rd v (i + half)) (P v i))) vec).length
        = vec.length ∧
    ∀ k, rd (forLoop n (fun i v => wr v (i + half) (op (rd v (i + half)) (P v i))) vec) k
        = if half ≤ k ∧ k < half + n then op (rd vec k) (P vec (k - half)) else rd vec k := by
  induction n with
  | zero =>
    refine ⟨rfl, fun k => ?_⟩
    have : ¬ (half ≤ k ∧ k < half) := by omega
    simp [forLoop, this]
  | succ n ih =>
    obtain ⟨ihl, ihk⟩ := ih (by omega)
    refine ⟨by simp [forLoop, length_wr, ihl], fun k => ?_⟩
    simp only [forLoop]
    rw [rd_wr, ihl, ihk (n + half)]
    have hPn : P (forLoop n (fun i v => wr v (i + half) (op (rd v (i + half)) (P v i))) vec) n
        = P vec n := by
      apply hP _ _ n (by omega)
      intro j hj
      rw [ihk j]
      have : ¬ (half ≤ j ∧ j < half + n) := by omega
      simp [this]
    rw [hPn]
    have h1 : ¬ (half ≤ n + half ∧ n + half < half + n) := by omega
    simp only [h1, if_false]
    by_cases hk : k = n + half
    · subst hk
      have h2 : (n + half = n + half ∧ n + half < vec.length) := ⟨rfl, by omega⟩
      have h3 : (half ≤ n + half ∧ n + half < half + (n + 1)) := by omega
      simp [h2, h3]
    · have h2 : ¬ (k = n + half ∧ n + half < vec.length) := fun h => hk h.1
      simp only [h2, if_false]
      rw [ihk k]
      by_cases h4 : half ≤ k ∧ k < half + n
      · have h5 : half ≤ k ∧ k < half + (n + 1) := by omega
        simp [h4, h5]
      · have h5 : ¬ (half ≤ k ∧ k < half + (n + 1)) := by omega
        simp [h4, h5]

theorem length_hiLoop (half : Nat) (P : List Int → Nat → Int) (op : Int → Int → Int)
    (vec : List Int) (hP : LoDet half P) (hlen : 2 * half ≤ vec.length) :
    (hiLoop half P op vec).length = vec.length :=
  (hiLoop_run half P op vec hP hlen half (Nat.le_refl _)).1

theorem rd_hiLoop (half : Nat) (P : List Int → Nat → Int) (op : Int → Int → Int)
    (vec : List Int) (hP : LoDet half P) (hlen : 2 * half ≤ vec.length) (k : Nat) :
    rd (hiLoop half P op vec) k
      = if half ≤ k ∧ k < half + half then op (rd vec k) (P vec (k - half)) else rd vec k :=
  (hiLoop_run half P op vec hP hlen half (Nat.le_refl _)).2 k

theorem loLoop_run (half : Nat) (U : List Int → Nat → Int) (op : Int → Int → Int)
    (vec : List Int) (hU : HiDet half U) (hlen : 2 * half ≤ vec.length) (n : Nat)
    (hn : n ≤ half) :
    (forLoop n (fun i v => wr v i (op (rd v i) (U v i))) vec).length = vec.length ∧
    ∀ k, rd (forLoop n (fun i v => wr v i (op (rd v i) (U v i))) vec) k
        = if k < n then op (rd vec k) (U vec k) else rd vec k := by
  induction n with
  | zero =>
    refine ⟨rfl, fun k => ?_⟩
    simp [forLoop]
  | succ n ih =>
    obtain ⟨ihl, ihk⟩ := ih (by omega)
    refine ⟨by simp [forLoop, length_wr, ihl], fun k => ?_⟩
    simp only [forLoop]
    rw [rd_wr, ihl, ihk n]
    have hUn : U (forLoop n (fun i v => wr v i (op (rd v i) (U v i))) vec) n = U vec n := by
      apply hU _ _ n (by omega)
      intro j hj
      rw [ihk j]
      have : ¬ j < n := by omega
      simp [this]
    rw [hUn]
    simp only [Nat.lt_irrefl, if_false]
    by_cases hk : k = n
    · subst hk
      have h2 : (k = k ∧ k < vec.length) := ⟨rfl, by omega⟩
      simp [h2]
    · have h2 : ¬ (k = n ∧ n < vec.length) := fun h => hk h.1
      simp only [h2, if_false]
      rw [ihk k]
      by_cases h4 : k < n
      · have h5 : k < n + 1 := by omega
        simp [h4, h5]
      · have h5 : ¬ k < n + 1 := by omega
        simp [h4, h5]

theorem length_loLoop (half : Nat) (U : List Int → Nat → Int) (op : Int → Int → Int)
    (vec : List Int) (hU : HiDet half U) (hlen : 2 * half ≤ vec.length) :
    (loLoop half U op vec).length = vec.length :=
  (loLoop_run half U op vec hU hlen half (Nat.le_refl _)).1

theorem rd_loLoop (half : Nat) (U : List Int → Nat → Int) (op : Int → Int → Int)
    (vec : List Int) (hU : HiDet half U) (hlen : 2 * half ≤ vec.length) (k : Nat) :
    rd (loLoop half U op vec) k = if k < half then op (rd vec k) (U vec k) else rd vec k :=
  (loLoop_run half U op vec hU hlen half (Nat.le_refl _)).2 k

/-- Undoing an upper-half loop with the inverse operation restores the array. -/
theorem hiLoop_undo (half : Nat) (P : List Int → Nat → Int) (op op2 : Int → Int → Int)
    (vec : List Int) (hP : LoDet half P) (hlen : 2 * half ≤ vec.length)
    (hop : ∀ a b, op2 (op a b) b = a) :
    hiLoop half P op2 (hiLoop half P op vec) = vec := by
  have hl1 := length_hiLoop half P op vec hP hlen
  apply ext_rd
  · rw [length_hiLoop half P op2 _ hP (by omega), hl1]
  · intro k _
    rw [rd_hiLoop half P op2 _ hP (by omega), rd_hiLoop half P op vec hP hlen]
    by_cases h : half ≤ k ∧ k < half + half
    · have hPk : P (hiLoop half P op vec) (k - half) = P vec (k - half) := by
        apply hP _ _ _ (by omega)
        intro j hj
        rw [rd_hiLoop half P op vec hP hlen]
        have : ¬ (half ≤ j ∧ j < half + half) := by omega
        simp [this]
      simp [h, hPk, hop]
    · simp [h]

/-- Undoing a lower-half loop with the inverse operation restores the array. -/
theorem loLoop_undo (half : Nat) (U : List Int → Nat → Int) (op op2 : Int → Int → Int)
    (vec : List Int) (hU : HiDet half U) (hlen : 2 * half ≤ vec.length)
    (hop : ∀ a b, op2 (op a b) b = a) :
    loLoop half U op2 (loLoop half U op vec) = vec := by
  have hl1 := length_loLoop half U op vec hU hlen
  apply ext_rd
  · rw [length_loLoop half U op2 _ hU (by omega), hl1]
  · intro k _
    rw [rd_loLoop half U op2 _ hU (by omega), rd_loLoop half U op vec hU hlen]
    by_cases h : k < half
    · have hUk : U (loLoop half U op vec) k = U vec k := by
        apply hU _ _ _ h
        intro j hj
        rw [rd_loLoop half U op vec hU hlen]
        have : ¬ j < half := by omega
        simp [this]
      simp [h, hUk, hop]
    · simp [h]

/-! ### split and merge -/

theorem length_split (vec : List Int) (N : Nat) (h : 2 * (N >>> 1) ≤ vec.length) :
    (split vec N).length = vec.length := by
  simp only [split, List.length_append, List.length_map, List.length_range, List.length_drop]
  omega

theorem length_merge (vec : List Int) (N : Nat) (h : 2 * (N >>> 1) ≤ vec.length) :
    (merge vec N).length = vec.length := by
  simp only [merge, List.length_append, List.length_map, List.length_range, List.length_drop]
  omega

theorem merge_split (vec : List Int) (N : Nat) (h : 2 * (N >>> 1) ≤ vec.length) :
    merge (split vec N) N = vec := by
  have hs := length_split vec N h
  apply ext_rd
  · rw [length_merge _ _ (by omega), hs]
  · intro k hk
    generalize hh : N >>> 1 = half at *
    simp only [merge, split, hh, rd_append, rd_map_range, rd_drop, List.length_append,
      List.length_map, List.length_range]
    by_cases h1 : k < 2 * half
    · by_cases h2 : k % 2 = 0
      · have h3 : k / 2 < half + half := by omega
        have h4 : k / 2 < half := by omega
        have h5 : 2 * (k / 2) = k := by omega
        simp [h1, h2, h3, h4, h5]
      · have h3 : half + k / 2 < half + half := by omega
        have h4 : ¬ half + k / 2 < half := by omega
        have h5 : 2 * (k / 2) + 1 = k := by omega
        have h6 : k / 2 < half := by omega
        simp [h1, h2, h3, h4, h5, h6]
    · have h3 : 2 * half + (k - 2 * half) = k := by omega
      have h4 : ¬ (k - 2 * half + 2 * half < half + half) := by omega
      have h5 : ¬ k < half + half := by omega
      have h6 : 2 * half + (k - (half + half)) = k := by omega
      simp [h1, h3, h5, h6]

/-! ### haar_int -/

theorem haar_predict_eq (vec : List Int) (N : Nat) (d : transDirection) :
    haar_int.predict vec N d
      = hiLoop (N >>> 1) (fun v i => rd v i)
          (match d with
            | .forward => fun a b => a - b
            | .inverse => fun a b => a + b) vec := by
  cases d <;> rfl

theorem haar_update_eq (vec : List Int) (N : Nat) (d : transDirection) :
    haar_int.update vec N d
      = loLoop (N >>> 1) (fun v i => rd v (i + (N >>> 1)) >>> 1)
          (match d with
            | .forward => fun a b => a + b
            | .inverse => fun a b => a - b) vec := by
  cases d <;> rfl

theorem haar_predict_loDet (half : Nat) : LoDet half (fun v i => rd v i) := by
  intro v w i hi h
  exact h i hi

theorem haar_update_hiDet (half : Nat) : HiDet half (fun v i => rd v (i + half) >>> 1) := by
  intro v w i _ h
  show rd v (i + half) >>> 1 = rd w (i + half) >>> 1
  rw [h (i + half) (by omega)]

theorem length_haar_predict (vec : List Int) (N : Nat) (d : transDirection)
    (h : 2 * (N >>> 1) ≤ vec.length) : (haar_int.predict vec N d).length = vec.length := by
  rw [haar_predict_eq]
  exact length_hiLoop _ _ _ _ (haar_predict_loDet _) h

theorem length_haar_update (vec : List Int) (N : Nat) (d : transDirection)
    (h : 2 * (N >>> 1) ≤ vec.length) : (haar_int.update vec N d).length = vec.length := by
  rw [haar_update_eq]
  exact length_loLoop _ _ _ _ (haar_update_hiDet _) h

theorem haar_predict_undo (vec : List Int) (N : Nat) (h : 2 * (N >>> 1) ≤ vec.length) :
    haar_int.predict (haar_int.predict vec N .forward) N .inverse = vec := by
  rw [haar_predict_eq, haar_predict_eq]
  exact hiLoop_undo _ _ _ _ _ (haar_predict_loDet _) h (fun a b => by simp)

theorem haar_update_undo (vec : List Int) (N : Nat) (h : 2 * (N >>> 1) ≤ vec.length) :
    haar_int.update (haar_int.update vec N .forward) N .inverse = vec := by
  rw [haar_update_eq, haar_update_eq]
  exact loLoop_undo _ _ _ _ _ (haar_update_hiDet _) h (fun a b => by simp)

theorem haar_step_undo (v : List Int) (N : Nat) (h : 2 * (N >>> 1) ≤ v.length) :
    haar_int.inverseStep (haar_int.forwardStep v N) N = v := by
  unfold haar_int.inverseStep haar_int.forwardStep
  have hs := length_split v N h
  rw [haar_update_undo _ _ (by rw [length_haar_predict _ _ _ (by omega)]; omega),
    haar_predict_undo _ _ (by omega), merge_split _ _ h]

/-- C2. Integer Haar round trip: for every integer array `v` of even length `N ≥ 2`
the inverse step (update inverse, predict inverse, merge) applied to the forward step
(split, predict forward, update forward) returns exactly `v`; and `[4, 6, 10, 12]`
goes to `[5, 11, 2, 2]` and back to `[4, 6, 10, 12]`. -/
theorem haar_int_round_trip :
    (∀ (v : List Int) (N : Nat), v.length = N → N % 2 = 0 → 2 ≤ N →
        haar_int.inverseStep (haar_int.forwardStep v N) N = v)
    ∧ haar_int.forwardStep [4, 6, 10, 12] 4 = [5, 11, 2, 2]
    ∧ haar_int.inverseStep [5, 11, 2, 2] 4 = [4, 6, 10, 12] := by
  refine ⟨fun v N hlen _ _ => ?_, by decide, by decide⟩
  apply haar_step_undo
  rw [Nat.shiftRight_eq_div_pow]
  omega

theorem haar_int_round_trip_witness :
    haar_int.inverseStep (haar_int.forwardStep [7, -3, 0, 12, -8, 5] 6) 6
      = [7, -3, 0, 12, -8, 5] :=
  haar_int_round_trip.1 [7, -3, 0, 12, -8, 5] 6 rfl (by decide) (by decide)

/-! ### line_int -/

theorem line_predict_eq (fp : Rounding) (vec : List Int) (N : Nat) (d : transDirection) :
    line_int.predict fp vec N d
      = hiLoop (N >>> 1) (fun v i => line_int.predictVal fp v N (N >>> 1) i)
          (match d with
            | .forward => fun a b => a - b
            | .inverse => fun a b => a + b) vec := by
  cases d <;> rfl

theorem line_update_eq (fp : Rounding) (vec : List Int) (N : Nat) (d : transDirection) :
    line_int.update fp vec N d
      = loLoop (N >>> 1) (fun v i => line_int.updateVal fp v N (N >>> 1) i)
          (match d with
            | .forward => fun a b => a + b
            | .inverse => fun a b => a - b) vec := by
  cases d <;> rfl

theorem line_predict_loDet (fp : Rounding) (N half : Nat) :
    LoDet half (fun v i => line_int.predictVal fp v N half i) := by
  intro v w i hi h
  simp only [line_int.predictVal]
  by_cases h1 : i < half - 1
  · simp only [h1, if_true]
    rw [h i hi, h (i + 1) (by omega)]
  · simp only [h1, if_false]
    rw [h 0 (by omega), h i hi, h (i - 1) (by omega)]

theorem line_update_hiDet (fp : Rounding) (N : Nat) :
    HiDet (N >>> 1) (fun v i => line_int.updateVal fp v N (N >>> 1) i) := by
  intro v w i hi h
  have hN : N >>> 1 = N / 2 := by rw [Nat.shiftRight_eq_div_pow, pow_one]
  simp only [line_int.updateVal]
  rw [h (i + N >>> 1) (by omega), h (i + N >>> 1 + 1) (by omega)]
  by_cases h1 : i = 0 ∧ N = 2
  · simp only [h1, and_self, if_true]
  · by_cases h2 : i = 0 ∧ N > 2
    · simp only [h1, h2, and_self, if_true, if_false]
    · simp only [h1, h2, if_false]
      have h3 : i ≠ 0 := by
        intro h3
        omega
      rw [h (i + N >>> 1 - 1) (by omega)]

theorem length_line_predict (fp : Rounding) (vec : List Int) (N : Nat) (d : transDirection)
    (h : 2 * (N >>> 1) ≤ vec.length) : (line_int.predict fp vec N d).length = vec.length := by
  rw [line_predict_eq]
  exact length_hiLoop _ _ _ _ (line_predict_loDet _ _ _) h

theorem length_line_update (fp : Rounding) (vec : List Int) (N : Nat) (d : transDirection)
    (h : 2 * (N >>> 1) ≤ vec.length) : (line_int.update fp vec N d).length = vec.length := by
  rw [line_update_eq]
  exact length_loLoop _ _ _ _ (line_update_hiDet _ _) h

theorem line_predict_undo (fp : Rounding) (vec : List Int) (N : Nat)
    (h : 2 * (N >>> 1) ≤ vec.length) :
    line_int.predict fp (line_int.predict fp vec N .forward) N .inverse = vec := by
  rw [line_predict_eq, line_predict_eq]
  exact hiLoop_undo _ _ _ _ _ (line_predict_loDet _ _ _) h (fun a b => by simp)

theorem line_update_undo (fp : Rounding) (vec : List Int) (N : Nat)
    (h : 2 * (N >>> 1) ≤ vec.length) :
    line_int.update fp (line_int.update fp vec N .forward) N .inverse = vec := by
  rw [line_update_eq, line_update_eq]
  exact loLoop_undo _ _ _ _ _ (line_update_hiDet _ _) h (fun a b => by simp)

theorem length_line_forwardStep (fp : Rounding) (v : List Int) (N : Nat)
    (h : 2 * (N >>> 1) ≤ v.length) : (line_int.forwardStep fp v N).length = v.length := by
  unfold line_int.forwardStep
  have hs := length_split v N h
  have hp := length_line_predict fp (split v N) N .forward (by omega)
  rw [length_line_update _ _ _ _ (by omega), hp, hs]

theorem line_step_undo (fp : Rounding) (v : List Int) (N : Nat)
    (h : 2 * (N >>> 1) ≤ v.length) :
    line_int.inverseStep fp (line_int.forwardStep fp v N) N = v := by
  unfold line_int.inverseStep line_int.forwardStep
  have hs := length_split v N h
  rw [line_update_undo _ _ _ (by rw [length_line_predict _ _ _ _ (by omega)]; omega),
    line_predict_undo _ _ _ (by omega), merge_split _ _ h]

theorem two_mul_half_pow (k : Nat) (hk : 1 ≤ k) : 2 * ((2 ^ k) >>> 1) = 2 ^ k := by
  rw [Nat.shiftRight_eq_div_pow]
  obtain ⟨m, rfl⟩ : ∃ m, k = m + 1 := ⟨k - 1, by omega⟩
  rw [pow_succ]
  omega

/-- C3. Integer line-wavelet round trip: for every integer array `v` of
power-of-two length `N = 2^k ≥ 2` and for every way `fp` of rounding the predict
and update values, the inverse step of `line_int` (update inverse, predict
inverse, merge) applied to its forward step (split, predict forward, update
forward) returns exactly `v`. -/
theorem line_int_round_trip (fp : Rounding) (v : List Int) (k : Nat) (hk : 1 ≤ k)
    (hlen : v.length = 2 ^ k) :
    line_int.inverseStep fp (line_int.forwardStep fp v (2 ^ k)) (2 ^ k) = v := by
  apply line_step_undo
  rw [two_mul_half_pow k hk, hlen]

theorem line_int_round_trip_witness :
    line_int.inverseStep exactRounding
        (line_int.forwardStep exactRounding [3, -8, 21, 4] (2 ^ 2)) (2 ^ 2) = [3, -8, 21, 4] :=
  line_int_round_trip exactRounding [3, -8, 21, 4] 2 (by decide) rfl

/-! ### ts_trans_int -/

theorem ts_predict2_eq (fp : Rounding) (vec : List Int) (N : Nat) (d : transDirection) :
    ts_trans_int.predict2 fp vec N d
      = hiLoop (N >>> 1)
          (fun v i => fp.quarterDiff (ts_trans_int.neighbours v N (N >>> 1) i).1
            (ts_trans_int.neighbours v N (N >>> 1) i).2)
          (match d with
            | .forward => fun a b => a + b
            | .inverse => fun a b => a - b) vec := by
  cases d <;> rfl

theorem ts_neighbours_loDet (v w : List Int) (N half i : Nat) (hN : 2 * half = N)
    (hi : i < half) (h : ∀ k, k < half → rd v k = rd w k) :
    ts_trans_int.neighbours v N half i = ts_trans_int.neighbours w N half i := by
  simp only [ts_trans_int.neighbours]
  rw [h 0 (by omega), h i hi, h (i - 1) (by omega)]
  by_cases h0 : N = 2
  · simp only [h0, if_true]
  · simp only [h0, if_false]
    by_cases h1 : i = 0
    · simp only [h1, if_true]
      rw [h 1 (by omega)]
    · simp only [h1, if_false]
      by_cases h2 : i < half - 1
      · simp only [h2, if_true]
        rw [h (i + 1) (by omega)]
      · simp only [h2, if_false]

theorem ts_predict2_loDet (fp : Rounding) (N : Nat) (hN : 2 * (N >>> 1) = N) :
    LoDet (N >>> 1)
      (fun v i => fp.quarterDiff (ts_trans_int.neighbours v N (N >>> 1) i).1
        (ts_trans_int.neighbours v N (N >>> 1) i).2) := by
  intro v w i hi h
  show fp.quarterDiff _ _ = fp.quarterDiff _ _
  rw [ts_neighbours_loDet v w N (N >>> 1) i hN hi h]

theorem length_ts_predict2 (fp : Rounding) (vec : List Int) (N : Nat) (d : transDirection)
    (hN : 2 * (N >>> 1) = N) (h : N ≤ vec.length) :
    (ts_trans_int.predict2 fp vec N d).length = vec.length := by
  rw [ts_predict2_eq]
  exact length_hiLoop _ _ _ _ (ts_predict2_loDet fp N hN) (by omega)

theorem ts_predict2_undo (fp : Rounding) (vec : List Int) (N : Nat)
    (hN : 2 * (N >>> 1) = N) (h : N ≤ vec.length) :
    ts_trans_int.predict2 fp (ts_trans_int.predict2 fp vec N .forward) N .inverse = vec := by
  rw [ts_predict2_eq, ts_predict2_eq]
  exact hiLoop_undo _ _ _ _ _ (ts_predict2_loDet fp N hN) (by omega) (fun a b => by simp)

theorem ts_step_undo (fp : Rounding) (v : List Int) (N : Nat)
    (hN : 2 * (N >>> 1) = N) (h : N ≤ v.length) :
    ts_trans_int.inverseStep fp (ts_trans_int.forwardStep fp v N) N = v := by
  unfold ts_trans_int.inverseStep ts_trans_int.forwardStep
  have hs := length_split v N (by omega)
  have hp := length_haar_predict (split v N) N .forward (by omega)
  have hu := length_haar_update (haar_int.predict (split v N) N .forward) N .forward (by omega)
  simp only []
  rw [ts_predict2_undo fp _ N hN (by omega), haar_update_undo _ _ (by omega),
    haar_predict_undo _ _ (by omega), merge_split _ _ (by omega)]

/-- C4. TS (extended-S) round trip: for every integer array `v` of power-of-two
length `N = 2^k ≥ 2` and for every way `fp` of rounding the interpolation value,
`ts_trans_int::inverseStep` (predict2 inverse, update inverse, predict inverse,
merge) applied to `ts_trans_int::forwardStep v` (split, predict, update, predict2)
returns exactly `v`. -/
theorem ts_trans_int_round_trip (fp : Rounding) (v : List Int) (k : Nat) (hk : 1 ≤ k)
    (hlen : v.length = 2 ^ k) :
    ts_trans_int.inverseStep fp (ts_trans_int.forwardStep fp v (2 ^ k)) (2 ^ k) = v := by
  apply ts_step_undo
  · exact two_mul_half_pow k hk
  · omega

theorem ts_trans_int_round_trip_witness :
    ts_trans_int.inverseStep exactRounding
        (ts_trans_int.forwardStep exactRounding [3, -8, 21, 4] (2 ^ 2)) (2 ^ 2)
      = [3, -8, 21, 4] :=
  ts_trans_int_round_trip exactRounding [3, -8, 21, 4] 2 (by decide) rfl

/-! ### The best basis walk -/

theorem sub_null (p : List Bool) : packnode.sub .null p = .null := by
  induction p with
  | nil => rfl
  | cons b p ih => cases b <;> simpa [packnode.sub, packnode.lhsChild, packnode.rhsChild] using ih

theorem isDecomp_leaf (k : transformKind) (n : Nat) (d : List Int) (c : Int) (m : Bool)
    (ns : List packnode) (h : IsDecomp (.node k n d c m .null .null) ns) :
    ns = [.node k n d c m .null .null] := by
  cases h with
  | self => rfl
  | children _ _ _ _ _ _ _ dl dr hl hr => cases hl

theorem isMinCost_leaf (k : transformKind) (n : Nat) (d : List Int) (c : Int) (m : Bool) :
    IsMinCost (.node k n d c m .null .null) c := by
  refine ⟨⟨_, IsDecomp.self k n d c m .null .null, by simp [sumCost, packnode.cost]⟩, ?_⟩
  intro ns h
  rw [isDecomp_leaf _ _ _ _ _ _ h]
  simp [sumCost, packnode.cost]

theorem sumCost_append (a b : List packnode) : sumCost (a ++ b) = sumCost a + sumCost b := by
  simp [sumCost]

theorem isMinCost_node (k : transformKind) (n : Nat) (d : List Int) (c : Int) (m : Bool)
    (l r : packnode) (a b : Int) (hl : IsMinCost l a) (hr : IsMinCost r b) :
    IsMinCost (.node k n d c m l r) (if c ≤ a + b then c else a + b) := by
  obtain ⟨⟨dl, hdl, hsl⟩, hml⟩ := hl
  obtain ⟨⟨dr, hdr, hsr⟩, hmr⟩ := hr
  constructor
  · by_cases h : c ≤ a + b
    · exact ⟨_, IsDecomp.self k n d c m l r, by simp [sumCost, packnode.cost, h]⟩
    · exact ⟨_, IsDecomp.children k n d c m l r dl dr hdl hdr, by
        simp [sumCost_append, hsl, hsr, h]⟩
  · intro ns h
    cases h with
    | self =>
      simp only [sumCost, List.map_cons, List.map_nil, List.sum_cons, List.sum_nil,
        packnode.cost, add_zero]
      split <;> omega
    | children _ _ _ _ _ _ _ dl2 dr2 h1 h2 =>
      have := hml _ h1
      have := hmr _ h2
      rw [sumCost_append]
      split <;> omega

theorem cost_setMark (b : Bool) (t : packnode) : (t.setMark b).cost = t.cost := by
  cases t <;> rfl

theorem sub_setMark_cons (b c : Bool) (t : packnode) (p : List Bool) :
    (t.setMark b).sub (c :: p) = t.sub (c :: p) := by
  cases t <;> cases c <;> rfl

theorem cost_sub_setMark (b : Bool) (t : packnode) (p : List Bool) :
    ((t.setMark b).sub p).cost = (t.sub p).cost := by
  cases p with
  | nil => simp [packnode.sub, cost_setMark]
  | cons c p => rw [sub_setMark_cons]

theorem isNull_eq_true (t : packnode) (h : t.isNull = true) : t = .null := by
  cases t with
  | null => rfl
  | node => simp [packnode.isNull] at h

theorem full_not_null (t : packnode) (h : t.full = true) : t.isNull = false := by
  cases t with
  | null => simp [packnode.full] at h
  | node => rfl

/-- Unfolding of the walk at a leaf. -/
theorem bestBasisWalk_leaf (k : transformKind) (n : Nat) (d : List Int) (c : Int) (m : Bool) :
    bestBasisWalk (.node k n d c m .null .null) = some (c, .node k n d c m .null .null) := by
  simp [bestBasisWalk, packnode.isNull]

/-- Unfolding of the walk at an internal node. -/
theorem bestBasisWalk_node (k : transformKind) (n : Nat) (d : List Int) (v1 : Int) (m : Bool)
    (lhs rhs lhs2 rhs2 : packnode) (l r : Int)
    (hnl : lhs.isNull = false) (hnr : rhs.isNull = false)
    (hl : bestBasisWalk lhs = some (l, lhs2)) (hr : bestBasisWalk rhs = some (r, rhs2)) :
    bestBasisWalk (.node k n d v1 m lhs rhs)
      = if v1 ≤ l + r then
          some (v1, .node k n d v1 true (lhs2.setMark false) (rhs2.setMark false))
        else some (l + r, .node k n d (l + r) m lhs2 rhs2) := by
  rw [bestBasisWalk]
  simp only [hnl, hnr, hl, hr]
  simp

/-- The walk on a full tree returns, and every node ends with the minimal cost of
its subtree, which is also what the walk returns for that node. -/
theorem bestBasisWalk_full (t : packnode) (hfull : t.full = true) :
    ∃ c t2, bestBasisWalk t = some (c, t2) ∧ t2.cost = c ∧
      ∀ p : List Bool, (t.sub p).isNull = false →
        IsMinCost (t.sub p) (t2.sub p).cost ∧
        ∃ s2, bestBasisWalk (t.sub p) = some ((t2.sub p).cost, s2) := by
  induction t with
  | null => simp [packnode.full] at hfull
  | node k n d c m l r ihl ihr =>
    by_cases hleaf : l.isNull = true ∧ r.isNull = true
    · have h1 := isNull_eq_true l hleaf.1
      have h2 := isNull_eq_true r hleaf.2
      subst h1 h2
      refine ⟨c, _, bestBasisWalk_leaf k n d c m, rfl, ?_⟩
      intro p hp
      cases p with
      | nil => exact ⟨isMinCost_leaf k n d c m, _, bestBasisWalk_leaf k n d c m⟩
      | cons b p =>
        cases b <;>
          simp [packnode.sub, packnode.lhsChild, packnode.rhsChild, sub_null,
            packnode.isNull] at hp
    · have hf : l.full = true ∧ r.full = true := by
        simp only [packnode.full, Bool.or_eq_true, Bool.and_eq_true] at hfull
        rcases hfull with h | h
        · exact absurd h hleaf
        · exact h
      obtain ⟨lc, l2, hwl, hcl, hpl⟩ := ihl hf.1
      obtain ⟨rc, r2, hwr, hcr, hpr⟩ := ihr hf.2
      have hnl := full_not_null l hf.1
      have hnr := full_not_null r hf.2
      have hw := bestBasisWalk_node k n d c m l r l2 r2 lc rc hnl hnr hwl hwr
      have hminl : IsMinCost l lc := by
        have := (hpl [] (by simpa [packnode.sub] using hnl)).1
        simpa [packnode.sub, hcl] using this
      have hminr : IsMinCost r rc := by
        have := (hpr [] (by simpa [packnode.sub] using hnr)).1
        simpa [packnode.sub, hcr] using this
      have hmin := isMinCost_node k n d c m l r lc rc hminl hminr
      by_cases hle : c ≤ lc + rc
      · simp only [hle, if_true] at hw hmin
        refine ⟨c, _, hw, rfl, ?_⟩
        intro p hp
        cases p with
        | nil => exact ⟨by simpa [packnode.sub, packnode.cost] using hmin, _, hw⟩
        | cons b p =>
          cases b
          · simp only [packnode.sub, packnode.lhsChild, cost_sub_setMark] at hp ⊢
            exact hpl p hp
          · simp only [packnode.sub, packnode.rhsChild, cost_sub_setMark] at hp ⊢
            exact hpr p hp
      · simp only [hle, if_false] at hw hmin
        refine ⟨lc + rc, _, hw, rfl, ?_⟩
        intro p hp
        cases p with
        | nil => exact ⟨by simpa [packnode.sub, packnode.cost] using hmin, _, hw⟩
        | cons b p =>
          cases b
          · simp only [packnode.sub, packnode.lhsChild] at hp ⊢
            exact hpl p hp
          · simp only [packnode.sub, packnode.rhsChild] at hp ⊢
            exact hpr p hp

/-- C5. Best-basis optimality: on a full binary tree `t` with arbitrary integer
costs, `bestBasisWalk t` returns, and for every node (reached by a path `p`) the
cost stored after the walk, which is also the value the walk returns for that
node, is the minimum over all decompositions of the node's subtree of the summed
original costs of the chosen nodes. -/
theorem best_basis_optimal (t : packnode) (hfull : t.full = true) :
    ∃ c t2, bestBasisWalk t = some (c, t2) ∧
      ∀ p : List Bool, (t.sub p).isNull = false →
        IsMinCost (t.sub p) (t2.sub p).cost ∧
        ∃ s2, bestBasisWalk (t.sub p) = some ((t2.sub p).cost, s2) := by
  obtain ⟨c, t2, hw, _, hp⟩ := bestBasisWalk_full t hfull
  exact ⟨c, t2, hw, hp⟩

theorem best_basis_optimal_witness :
    ∃ c t2,
      bestBasisWalk (.node .OriginalData 2 [5, 3] 7 false
          (.node .LowPass 1 [4] 4 true .null .null)
          (.node .HighPass 1 [-2] 2 true .null .null)) = some (c, t2) ∧
      ∀ p : List Bool,
        (packnode.sub (.node .OriginalData 2 [5, 3] 7 false
          (.node .LowPass 1 [4] 4 true .null .null)
          (.node .HighPass 1 [-2] 2 true .null .null)) p).isNull = false →
        IsMinCost (packnode.sub (.node .OriginalData 2 [5, 3] 7 false
          (.node .LowPass 1 [4] 4 true .null .null)
          (.node .HighPass 1 [-2] 2 true .null .null)) p) (t2.sub p).cost ∧
        ∃ s2, bestBasisWalk (packnode.sub (.node .OriginalData 2 [5, 3] 7 false
          (.node .LowPass 1 [4] 4 true .null .null)
          (.node .HighPass 1 [-2] 2 true .null .null)) p) = some ((t2.sub p).cost, s2) :=
  best_basis_optimal _ (by decide)

/-- C6. Selector step rule: at an internal node with own cost `v1` whose children
return the costs `l` and `r`, `bestBasisWalk` marks the node, unmarks both children
and returns `v1` with the cost unchanged when `v1 ≤ l + r` (ties included);
otherwise it stores and returns `l + r` and leaves the mark of the node as it was.
At a leaf it returns the stored cost and changes nothing.  With parent cost 1 and
children costs 2 and 2 the parent is marked, the children unmarked, and 1 is
returned. -/
theorem best_basis_step_rule :
    (∀ (k : transformKind) (n : Nat) (d : List Int) (v1 : Int) (m : Bool)
        (lhs rhs lhs2 rhs2 : packnode) (l r : Int),
        lhs.isNull = false → rhs.isNull = false →
        bestBasisWalk lhs = some (l, lhs2) → bestBasisWalk rhs = some (r, rhs2) →
        (v1 ≤ l + r →
          bestBasisWalk (.node k n d v1 m lhs rhs)
            = some (v1, .node k n d v1 true (lhs2.setMark false) (rhs2.setMark false))) ∧
        (¬ v1 ≤ l + r →
          bestBasisWalk (.node k n d v1 m lhs rhs)
            = some (l + r, .node k n d (l + r) m lhs2 rhs2)))
    ∧ (∀ (k : transformKind) (n : Nat) (d : List Int) (c : Int) (m : Bool),
        bestBasisWalk (.node k n d c m .null .null)
          = some (c, .node k n d c m .null .null))
    ∧ bestBasisWalk (.node .LowPass 8 [0, 0, 0, 0, 9, 0, 0, 0] 1 false
          (.node .LowPass 4 [9, 0, 7, 0] 2 true .null .null)
          (.node .HighPass 4 [0, 8, 0, 6] 2 true .null .null))
        = some (1, .node .LowPass 8 [0, 0, 0, 0, 9, 0, 0, 0] 1 true
          (.node .LowPass 4 [9, 0, 7, 0] 2 false .null .null)
          (.node .HighPass 4 [0, 8, 0, 6] 2 false .null .null)) := by
  refine ⟨?_, bestBasisWalk_leaf, by decide⟩
  intro k n d v1 m lhs rhs lhs2 rhs2 l r hnl hnr hl hr
  have hw := bestBasisWalk_node k n d v1 m lhs rhs lhs2 rhs2 l r hnl hnr hl hr
  constructor
  · intro h
    simpa [h] using hw
  · intro h
    simpa [h] using hw

theorem best_basis_step_rule_witness :
    bestBasisWalk (.node .OriginalData 2 [5, 3] 7 false
        (.node .LowPass 1 [4] 4 true .null .null)
        (.node .HighPass 1 [-2] 2 true .null .null))
      = some (4 + 2, .node .OriginalData 2 [5, 3] (4 + 2) false
        (.node .LowPass 1 [4] 4 true .null .null)
        (.node .HighPass 1 [-2] 2 true .null .null)) :=
  (best_basis_step_rule.1 .OriginalData 2 [5, 3] 7 false
    (.node .LowPass 1 [4] 4 true .null .null) (.node .HighPass 1 [-2] 2 true .null .null)
    (.node .LowPass 1 [4] 4 true .null .null) (.node .HighPass 1 [-2] 2 true .null .null)
    4 2 rfl rfl (by decide) (by decide)).2 (by decide)

/-! ### The validity check -/

theorem checkBestBasis_noOriginal (t : packnode) (s : CheckState)
    (ht : t.noOriginalData = true) (hs : s.foundOriginalData = false) :
    checkBestBasis t s
      = { foundOriginalData := false, foundBestBasisVal := s.foundBestBasisVal || t.anyMarked } := by
  induction t generalizing s with
  | null =>
    cases s
    simp_all [checkBestBasis, packnode.anyMarked]
  | node k n d c m l r ihl ihr =>
    simp only [packnode.noOriginalData, Bool.and_eq_true, bne_iff_ne, ne_eq] at ht
    obtain ⟨⟨hk, hl⟩, hr⟩ := ht
    cases s with
    | mk fo fb =>
      simp only at hs
      subst hs
      cases m
      · simp only [checkBestBasis, Bool.false_eq_true, if_false, Bool.not_false, if_true]
        rw [ihl _ hl rfl]
        simp only [Bool.not_false, if_true]
        rw [ihr _ hr rfl]
        simp [packnode.anyMarked, Bool.or_assoc]
      · simp only [checkBestBasis, if_true, hk, if_false, Bool.not_false]
        rw [ihl _ hl rfl]
        simp only [Bool.not_false, if_true]
        rw [ihr _ hr rfl]
        simp [packnode.anyMarked]

/-- C10. Validity check: for every tree in which only the root has kind
`OriginalData`, `bestBasisOK` returns true if and only if at least one node of the
tree is marked and the root is not marked. -/
theorem bestBasisOK_iff (t : packnode) (h : t.onlyRootOriginal = true) :
    bestBasisOK t = true ↔ (t.anyMarked = true ∧ t.mark = false) := by
  cases t with
  | null => simp [packnode.onlyRootOriginal, packnode.getKind] at h
  | node k n d c m l r =>
    simp only [packnode.onlyRootOriginal, packnode.getKind, packnode.lhsChild,
      packnode.rhsChild, Bool.and_eq_true, beq_iff_eq] at h
    obtain ⟨⟨hk, hl⟩, hr⟩ := h
    subst hk
    cases m
    · simp only [bestBasisOK, checkBestBasis, Bool.false_eq_true, if_false, Bool.not_false,
        if_true]
      rw [checkBestBasis_noOriginal l _ hl rfl]
      simp only [Bool.not_false, if_true]
      rw [checkBestBasis_noOriginal r _ hr rfl]
      simp [packnode.anyMarked, packnode.mark]
    · simp [bestBasisOK, checkBestBasis, packnode.mark]

theorem bestBasisOK_iff_witness :
    bestBasisOK (.node .OriginalData 2 [5, 3] 7 false
        (.node .LowPass 1 [4] 4 true .null .null)
        (.node .HighPass 1 [-2] 2 false .null .null)) = true ↔
      (packnode.anyMarked (.node .OriginalData 2 [5, 3] 7 false
        (.node .LowPass 1 [4] 4 true .null .null)
        (.node .HighPass 1 [-2] 2 false .null .null)) = true ∧
       packnode.mark (.node .OriginalData 2 [5, 3] 7 false
        (.node .LowPass 1 [4] 4 true .null .null)
        (.node .HighPass 1 [-2] 2 false .null .null)) = false) :=
  bestBasisOK_iff _ (by decide)

/-! ### Freshly built trees -/

theorem fresh_full (t : packnode) (h : t.fresh = true) : t.full = true := by
  induction t with
  | null => simp [packnode.fresh] at h
  | node k n d c m l r ihl ihr =>
    simp only [packnode.fresh, Bool.or_eq_true, Bool.and_eq_true] at h
    simp only [packnode.full, Bool.or_eq_true, Bool.and_eq_true]
    rcases h with h | h
    · exact Or.inl h.1
    · exact Or.inr ⟨ihl h.1.2, ihr h.2⟩

theorem fresh_not_null (t : packnode) (h : t.fresh = true) : t.isNull = false :=
  full_not_null t (fresh_full t h)

theorem newLevelAux_fresh (w : liftbase) (bound : Nat) :
    ∀ (k : transformKind) (len : Nat) (d : List Int) (c : Int) (f rev : Bool),
      len ≤ bound →
      (newLevelAux w bound (.node k len d c true .null .null) f rev).fresh = true := by
  induction bound with
  | zero =>
    intro k len d c f rev _
    simp [newLevelAux, packnode.fresh, packnode.isNull]
  | succ bound ih =>
    intro k len d c f rev hle
    by_cases hlen : len > 1
    · have h1 : len / 2 ≤ bound := by omega
      simp only [newLevelAux, hlen, if_true, packnode.new, packnode.setMark, packnode.fresh,
        packnode.mark]
      cases f <;> simp [ih _ _ _ _ _ _ h1]
    · simp [newLevelAux, hlen, packnode.fresh, packnode.isNull]

theorem packtree_new_fresh (v : List Int) (N : Nat) (w : liftbase) :
    (packtree_int.new v N w).fresh = true := by
  simp only [packtree_int.new, newLevel, packnode.new, packnode.setMark, packnode.length]
  exact newLevelAux_fresh w N _ _ _ _ _ _ (Nat.le_refl _)

theorem isNull_traverse (cc : packnode → Int) (t : packnode) :
    (costbase_int.traverse cc t).isNull = t.isNull := by
  cases t <;> rfl

theorem fresh_traverse (cc : packnode → Int) (t : packnode) :
    (costbase_int.traverse cc t).fresh = t.fresh := by
  induction t with
  | null => rfl
  | node k n d c m l r ihl ihr =>
    simp [costbase_int.traverse, packnode.fresh, ihl, ihr, isNull_traverse]

/-- The root of a tree built from at least two samples is an unmarked internal
node of kind `OriginalData` whose two subtrees are fresh. -/
theorem packtree_new_root (v : List Int) (N : Nat) (w : liftbase) (hN : 2 ≤ N) :
    ∃ l r, packtree_int.new v N w
        = .node .OriginalData N ((List.range N).map (fun i => rd v i)) 0 false l r
      ∧ l.fresh = true ∧ r.fresh = true := by
  obtain ⟨M, rfl⟩ : ∃ M, N = M + 1 := ⟨N - 1, by omega⟩
  have hlen : M + 1 > 1 := by omega
  have h1 : (M + 1) / 2 ≤ M := by omega
  simp only [packtree_int.new, newLevel, packnode.new, packnode.setMark, packnode.length,
    newLevelAux, hlen, if_true, packnode.getKind, packnode.getData, packnode.cost,
    packnode.mark]
  exact ⟨_, _, rfl, newLevelAux_fresh w M _ _ _ _ _ _ h1, by
    simpa using newLevelAux_fresh w M _ _ _ _ _ _ h1⟩

theorem kidsClear_setMark_false (t : packnode) (h : t.kidsClear = true) :
    (t.setMark false).kidsClear = true := by
  cases t with
  | null => rfl
  | node k n d c m l r =>
    simp only [packnode.kidsClear, Bool.and_eq_true] at h
    simp [packnode.setMark, packnode.kidsClear, h.1.2, h.2]

theorem mark_setMark (b : Bool) (t : packnode) (h : t.isNull = false) :
    (t.setMark b).mark = b := by
  cases t with
  | null => simp [packnode.isNull] at h
  | node => rfl

theorem isNull_setMark (b : Bool) (t : packnode) : (t.setMark b).isNull = t.isNull := by
  cases t <;> rfl

/-- The state of a fresh tree after the walk. -/
theorem bestBasisWalk_fresh (t : packnode) (hf : t.fresh = true) :
    ∃ c t2, bestBasisWalk t = some (c, t2) ∧ t2.cost = c ∧ t2.isNull = false ∧
      t2.covered = true ∧ t2.kidsClear = true ∧ t2.sumAbove = true := by
  induction t with
  | null => simp [packnode.fresh] at hf
  | node k n d c m l r ihl ihr =>
    simp only [packnode.fresh, Bool.or_eq_true, Bool.and_eq_true] at hf
    rcases hf with h | h
    · obtain ⟨⟨h1, h2⟩, hm⟩ := h
      have e1 := isNull_eq_true l h1
      have e2 := isNull_eq_true r h2
      subst e1 e2 hm
      exact ⟨c, _, bestBasisWalk_leaf k n d c true, rfl, rfl, by
        simp [packnode.covered], by simp [packnode.kidsClear, packnode.mark], by
        simp [packnode.sumAbove, packnode.isNull]⟩
    · obtain ⟨⟨hm, hl⟩, hr⟩ := h
      have hm2 : m = false := by simpa using hm
      subst hm2
      obtain ⟨lc, l2, hwl, hcl, hnl2, hcovl, hkl, hsl⟩ := ihl hl
      obtain ⟨rc, r2, hwr, hcr, hnr2, hcovr, hkr, hsr⟩ := ihr hr
      have hw := bestBasisWalk_node k n d c false l r l2 r2 lc rc (fresh_not_null l hl)
        (fresh_not_null r hr) hwl hwr
      by_cases hle : c ≤ lc + rc
      · simp only [hle, if_true] at hw
        refine ⟨c, _, hw, rfl, rfl, by simp [packnode.covered], ?_, by
          simp [packnode.sumAbove]⟩
        simp [packnode.kidsClear, mark_setMark, hnl2, hnr2, kidsClear_setMark_false, hkl, hkr]
      · simp only [hle, if_false] at hw
        refine ⟨lc + rc, _, hw, rfl, rfl, by simp [packnode.covered, hcovl, hcovr], by
          simp [packnode.kidsClear, hkl, hkr], ?_⟩
        simp [packnode.sumAbove, hcl, hcr, hsl, hsr]

theorem sub_append (t : packnode) (p q : List Bool) : t.sub (p ++ q) = (t.sub p).sub q := by
  induction p generalizing t with
  | nil => rfl
  | cons b p ih => cases b <;> simp [packnode.sub, ih]

theorem kidsClear_sub (t : packnode) (h : t.kidsClear = true) (p : List Bool) :
    (t.sub p).kidsClear = true := by
  induction p generalizing t with
  | nil => exact h
  | cons b p ih =>
    cases t with
    | null => cases b <;> simp [packnode.sub, packnode.lhsChild, packnode.rhsChild, sub_null,
        packnode.kidsClear]
    | node k n d c m l r =>
      simp only [packnode.kidsClear, Bool.and_eq_true] at h
      cases b
      · exact ih l h.1.2
      · exact ih r h.2

theorem kidsClear_children (t : packnode) (h : t.kidsClear = true) (hm : t.mark = true) :
    t.lhsChild.mark = false ∧ t.rhsChild.mark = false := by
  cases t with
  | null => simp [packnode.mark] at hm
  | node k n d c m l r =>
    simp only [packnode.mark] at hm
    subst hm
    simp only [packnode.kidsClear, Bool.and_eq_true, Bool.not_true, Bool.false_or,
      Bool.not_eq_true'] at h
    exact h.1.1

theorem covered_exists_marked (t : packnode) (h : t.covered = true) :
    ∃ p, (t.sub p).mark = true := by
  induction t with
  | null => simp [packnode.covered] at h
  | node k n d c m l r ihl _ =>
    simp only [packnode.covered, Bool.or_eq_true, Bool.and_eq_true] at h
    rcases h with h | h
    · exact ⟨[], by simpa [packnode.sub, packnode.mark] using h⟩
    · obtain ⟨p, hp⟩ := ihl h.1
      exact ⟨false :: p, by simpa [packnode.sub, packnode.lhsChild] using hp⟩

/-- The tree obtained from a fresh, cost-annotated tree by the walk. -/
theorem bestBasis_built (w : liftbase) (costCalc : packnode → Int) (v : List Int) (N : Nat) :
    ∃ t2, bestBasis (costbase_int.traverse costCalc (packtree_int.new v N w)) = some t2 ∧
      t2.covered = true ∧ t2.kidsClear = true ∧ t2.sumAbove = true := by
  have hf : (costbase_int.traverse costCalc (packtree_int.new v N w)).fresh = true := by
    rw [fresh_traverse]
    exact packtree_new_fresh v N w
  obtain ⟨c, t2, hw, _, _, h1, h2, h3⟩ := bestBasisWalk_fresh _ hf
  exact ⟨t2, by simp [bestBasis, hw], h1, h2, h3⟩

/-- C8. Degenerate case: after `bestBasis` has run once on a freshly built,
cost-annotated tree with `N ≥ 2`, the root is marked if and only if the annotated
cost of the root is at most the sum of the minimal costs of its two child
subtrees. -/
theorem root_marked_iff (w : liftbase) (costCalc : packnode → Int) (v : List Int) (N : Nat)
    (_hlen : v.length = N) (hN : 2 ≤ N) :
    ∃ t2 a b,
      bestBasis (costbase_int.traverse costCalc (packtree_int.new v N w)) = some t2 ∧
      IsMinCost (costbase_int.traverse costCalc (packtree_int.new v N w)).lhsChild a ∧
      IsMinCost (costbase_int.traverse costCalc (packtree_int.new v N w)).rhsChild b ∧
      (t2.mark = true ↔
        (costbase_int.traverse costCalc (packtree_int.new v N w)).cost ≤ a + b) := by
  obtain ⟨l, r, hroot, hl, hr⟩ := packtree_new_root v N w hN
  rw [hroot]
  simp only [costbase_int.traverse, packnode.lhsChild, packnode.rhsChild, packnode.cost]
  have hfl : (costbase_int.traverse costCalc l).fresh = true := by rw [fresh_traverse]; exact hl
  have hfr : (costbase_int.traverse costCalc r).fresh = true := by rw [fresh_traverse]; exact hr
  obtain ⟨lc, l2, hwl, hcl, hpl⟩ := bestBasisWalk_full _ (fresh_full _ hfl)
  obtain ⟨rc, r2, hwr, hcr, hpr⟩ := bestBasisWalk_full _ (fresh_full _ hfr)
  have hminl : IsMinCost (costbase_int.traverse costCalc l) lc := by
    have := (hpl [] (by simpa [packnode.sub] using fresh_not_null _ hfl)).1
    simpa [packnode.sub, hcl] using this
  have hminr : IsMinCost (costbase_int.traverse costCalc r) rc := by
    have := (hpr [] (by simpa [packnode.sub] using fresh_not_null _ hfr)).1
    simpa [packnode.sub, hcr] using this
  have hw := bestBasisWalk_node .OriginalData N ((List.range N).map (fun i => rd v i))
    (costCalc (.node .OriginalData N ((List.range N).map (fun i => rd v i)) 0 false l r))
    false _ _ l2 r2 lc rc (fresh_not_null _ hfl) (fresh_not_null _ hfr) hwl hwr
  by_cases hle : costCalc (.node .OriginalData N ((List.range N).map (fun i => rd v i)) 0
      false l r) ≤ lc + rc
  · simp only [hle, if_true] at hw
    refine ⟨.node .OriginalData N ((List.range N).map (fun i => rd v i))
      (costCalc (.node .OriginalData N ((List.range N).map (fun i => rd v i)) 0 false l r))
      true (l2.setMark false) (r2.setMark false), lc, rc, ?_, hminl, hminr, ?_⟩
    · simp [bestBasis, hw]
    · simp [packnode.mark, hle]
  · simp only [hle, if_false] at hw
    refine ⟨.node .OriginalData N ((List.range N).map (fun i => rd v i)) (lc + rc) false
      l2 r2, lc, rc, ?_, hminl, hminr, ?_⟩
    · simp [bestBasis, hw]
    · simp [packnode.mark, hle]

theorem root_marked_iff_witness :
    ∃ t2 a b,
      bestBasis (costbase_int.traverse costwidth.costCalc (packtree_int.new [0, 0, 0, 1] 4
        (line_int.wave exactRounding (fun v _ => v)))) = some t2 ∧
      IsMinCost (costbase_int.traverse costwidth.costCalc (packtree_int.new [0, 0, 0, 1] 4
        (line_int.wave exactRounding (fun v _ => v)))).lhsChild a ∧
      IsMinCost (costbase_int.traverse costwidth.costCalc (packtree_int.new [0, 0, 0, 1] 4
        (line_int.wave exactRounding (fun v _ => v)))).rhsChild b ∧
      (t2.mark = true ↔
        (costbase_int.traverse costwidth.costCalc (packtree_int.new [0, 0, 0, 1] 4
          (line_int.wave exactRounding (fun v _ => v)))).cost ≤ a + b) :=
  root_marked_iff _ _ [0, 0, 0, 1] 4 rfl (by decide)

/-- Counterexample to C9 as stated: for the samples `[0, 0, 0, 0, 0, 1, -1, -1]` (line
wavelet, bit-width cost) the root ends unmarked, its right child is marked, and a
grandchild of that marked node is still marked. -/
theorem marks_antichain_counterexample :
    ∃ t2, bestBasis (costwidth (packtree_int.new [0, 0, 0, 0, 0, 1, -1, -1] 8
        (line_int.wave exactRounding (fun v _ => v)))) = some t2 ∧
      t2.mark = false ∧ (t2.sub [true]).mark = true ∧
      (t2.sub [true, true, false]).mark = true :=
  ⟨_, rfl, by decide, by decide, by decide⟩

/-- C9 (amended). Marks after selection: after `bestBasis` has run once on a
freshly built, cost-annotated tree and the root is not marked, at least one
non-root node is marked and both children of every marked node are unmarked. -/
theorem marks_after_selection (w : liftbase) (costCalc : packnode → Int) (v : List Int)
    (N : Nat) (_hlen : v.length = N) :
    ∃ t2, bestBasis (costbase_int.traverse costCalc (packtree_int.new v N w)) = some t2 ∧
      (t2.mark = false →
        (∃ p : List Bool, p ≠ [] ∧ (t2.sub p).mark = true) ∧
        ∀ p : List Bool, (t2.sub p).mark = true →
          (t2.sub (p ++ [false])).mark = false ∧ (t2.sub (p ++ [true])).mark = false) := by
  obtain ⟨t2, hb, hc, hk, _⟩ := bestBasis_built w costCalc v N
  refine ⟨t2, hb, fun hroot => ⟨?_, ?_⟩⟩
  · obtain ⟨p, hp⟩ := covered_exists_marked t2 hc
    refine ⟨p, ?_, hp⟩
    rintro rfl
    simp [packnode.sub, hroot] at hp
  · intro p hp
    have := kidsClear_children _ (kidsClear_sub t2 hk p) hp
    simpa [sub_append, packnode.sub] using this

theorem marks_after_selection_witness :
    ∃ t2, bestBasis (costbase_int.traverse costwidth.costCalc
        (packtree_int.new [0, 0, 0, 0, 0, 1, -1, -1] 8
          (line_int.wave exactRounding (fun v _ => v)))) = some t2 ∧
      (t2.mark = false →
        (∃ p : List Bool, p ≠ [] ∧ (t2.sub p).mark = true) ∧
        ∀ p : List Bool, (t2.sub p).mark = true →
          (t2.sub (p ++ [false])).mark = false ∧ (t2.sub (p ++ [true])).mark = false) :=
  marks_after_selection _ _ [0, 0, 0, 0, 0, 1, -1, -1] 8 rfl

/-! ### The wavelet objects undo their own step -/

theorem length_haar_forwardStep (v : List Int) (N : Nat) (h : 2 * (N >>> 1) ≤ v.length) :
    (haar_int.forwardStep v N).length = v.length := by
  unfold haar_int.forwardStep
  have hs := length_split v N h
  have hp := length_haar_predict (split v N) N .forward (by omega)
  rw [length_haar_update _ _ _ (by omega), hp, hs]

theorem length_ts_forwardStep (fp : Rounding) (v : List Int) (N : Nat)
    (hN : 2 * (N >>> 1) = N) (h : N ≤ v.length) :
    (ts_trans_int.forwardStep fp v N).length = v.length := by
  unfold ts_trans_int.forwardStep
  have hs := length_split v N (by omega)
  have hp := length_haar_predict (split v N) N .forward (by omega)
  have hu := length_haar_update (haar_int.predict (split v N) N .forward) N .forward (by omega)
  simp only []
  rw [length_ts_predict2 fp _ N _ hN (by omega), hu, hp, hs]

theorem roundTrip_haar (rev : List Int → Nat → List Int) : RoundTrip (haar_int.wave rev) := by
  intro d n hd hn
  refine ⟨?_, haar_step_undo d n (by omega)⟩
  show (haar_int.forwardStep d n).length = n
  rw [length_haar_forwardStep d n (by omega), hd]

theorem roundTrip_line (fp : Rounding) (rev : List Int → Nat → List Int) :
    RoundTrip (line_int.wave fp rev) := by
  intro d n hd hn
  refine ⟨?_, line_step_undo fp d n (by omega)⟩
  show (line_int.forwardStep fp d n).length = n
  rw [length_line_forwardStep fp d n (by omega), hd]

theorem roundTrip_ts (fp : Rounding) (rev : List Int → Nat → List Int) :
    RoundTrip (ts_trans_int.wave fp rev) := by
  intro d n hd hn
  refine ⟨?_, ts_step_undo fp d n hn (by omega)⟩
  show (ts_trans_int.forwardStep fp d n).length = n
  rw [length_ts_forwardStep fp d n hn (by omega), hd]

/-! ### The tree built by newLevel -/

theorem map_rd_range (d : List Int) : (List.range d.length).map (fun i => rd d i) = d := by
  apply ext_rd
  · simp
  · intro k hk
    rw [rd_map_range]
    simp only [List.length_map, List.length_range] at hk
    simp [hk]

theorem half_pow_succ (j : Nat) : (2 ^ (j + 1)) >>> 1 = 2 ^ j := by
  rw [Nat.shiftRight_eq_div_pow, pow_succ]
  omega

theorem div_pow_succ (j : Nat) : 2 ^ (j + 1) / 2 = 2 ^ j := by
  rw [pow_succ]
  omega

theorem one_lt_pow_succ (j : Nat) : 2 ^ (j + 1) > 1 := by
  have : 0 < 2 ^ j := Nat.two_pow_pos j
  rw [pow_succ]
  omega

theorem rd_replicate_zero (n k : Nat) : rd (List.replicate n 0) k = 0 := by
  by_cases h : k < n
  · rw [rd_of_lt _ _ (by simpa using h)]
    simp
  · exact rd_of_le _ _ (by simpa using Nat.le_of_not_lt h)

/-- The state of the copy loop of the container constructor after `n` iterations. -/
theorem ofNode_run (node : packnode) (half N n : Nat) :
    forLoop n (fun i c => packcontainer_int.set c i (node.get i))
        ({ N := N, lhs := some (List.replicate half 0), rhs := some (List.replicate half 0) } :
          packcontainer_int)
      = { N := N
          lhs := some ((List.range half).map
            (fun i => if i < n ∧ i < N >>> 1 then node.get i else 0))
          rhs := some ((List.range half).map
            (fun m => if m + N >>> 1 < n then node.get (m + N >>> 1) else 0)) } := by
  induction n with
  | zero =>
    simp only [forLoop, Nat.not_lt_zero, false_and, if_false]
    congr 2
    · apply ext_rd
      · simp
      · intro k _
        rw [rd_replicate_zero, rd_map_range]
        simp
    · apply ext_rd
      · simp
      · intro k _
        rw [rd_replicate_zero, rd_map_range]
        simp
  | succ n ih =>
    simp only [forLoop]
    rw [ih]
    simp only [packcontainer_int.set]
    by_cases hn : n < N >>> 1
    · simp only [hn, if_true, Option.map_some']
      congr 2
      · apply ext_rd
        · simp [wr]
        · intro k _
          rw [rd_wr, rd_map_range, rd_map_range]
          simp only [List.length_map, List.length_range]
          by_cases hk : k < half
          · by_cases hkn : k = n
            · subst hkn
              have h1 : k < k + 1 ∧ k < N >>> 1 := by omega
              simp only [hk, and_self, if_true, h1]
            · have h0 : ¬ (k = n ∧ n < half) := fun h => hkn h.1
              simp only [h0, if_false, hk, if_true]
              by_cases h2 : k < n ∧ k < N >>> 1
              · have h3 : k < n + 1 ∧ k < N >>> 1 := by omega
                simp only [h2, h3, and_self, if_true]
              · have h3 : ¬ (k < n + 1 ∧ k < N >>> 1) := by omega
                simp only [h2, h3, if_false]
          · have h1 : ¬ (k = n ∧ n < half) := by omega
            simp only [hk, h1, if_false]
      · apply List.map_congr_left
        intro m _
        have h1 : ¬ m + N >>> 1 < n := by omega
        have h2 : ¬ m + N >>> 1 < n + 1 := by omega
        simp only [h1, h2, if_false]
    · simp only [hn, if_false, Option.map_some']
      congr 2
      · apply List.map_congr_left
        intro i _
        by_cases h2 : i < n ∧ i < N >>> 1
        · have h3 : i < n + 1 ∧ i < N >>> 1 := by omega
          simp only [h2, h3, and_self, if_true]
        · have h3 : ¬ (i < n + 1 ∧ i < N >>> 1) := by omega
          simp only [h2, h3, if_false]
      · apply ext_rd
        · simp [wr]
        · intro k _
          rw [rd_wr, rd_map_range, rd_map_range]
          simp only [List.length_map, List.length_range]
          by_cases hk : k < half
          · by_cases hkn : k = n - N >>> 1
            · have h2 : n - N >>> 1 + N >>> 1 = n := by omega
              have h4 : n - N >>> 1 < half := by omega
              subst hkn
              simp only [h4, and_self, if_true, h2, Nat.lt_succ_self]
            · have h0 : ¬ (k = n - N >>> 1 ∧ n - N >>> 1 < half) := fun h => hkn h.1
              simp only [h0, if_false, hk, if_true]
              by_cases h2 : k + N >>> 1 < n
              · have h3 : k + N >>> 1 < n + 1 := by omega
                simp only [h2, h3, if_true]
              · have h3 : ¬ k + N >>> 1 < n + 1 := by omega
                simp only [h2, h3, if_false]
          · have h1 : ¬ (k = n - N >>> 1 ∧ n - N >>> 1 < half) := by omega
            simp only [hk, h1, if_false]

/-- The container built from a node: the left half holds the first `N/2` elements
of the node and the right half the next `N/2` elements. -/
theorem ofNode_halves (node : packnode) :
    packcontainer_int.ofNode node
      = { N := node.length
          lhs := some ((List.range (node.length >>> 1)).map (fun i => node.get i))
          rhs := some ((List.range (node.length >>> 1)).map
            (fun i => node.get (i + node.length >>> 1))) } := by
  simp only [packcontainer_int.ofNode]
  rw [ofNode_run]
  have hh : node.length >>> 1 = node.length / 2 := by
    rw [Nat.shiftRight_eq_div_pow, pow_one]
  congr 2
  · apply List.map_congr_left
    intro i hi
    have hi2 : i < node.length >>> 1 := by simpa using hi
    have h1 : i < node.length ∧ i < node.length >>> 1 := by omega
    simp only [h1, and_self, if_true]
  · apply List.map_congr_left
    intro i hi
    have hi2 : i < node.length >>> 1 := by simpa using hi
    have h1 : i + node.length >>> 1 < node.length := by omega
    simp only [h1, if_true]

/-- The logical array of the container built from a node is the data of the node. -/
theorem toList_ofNode (k : transformKind) (j : Nat) (d : List Int) (c : Int) (m : Bool)
    (l r : packnode) (hd : d.length = 2 ^ (j + 1)) :
    (packcontainer_int.ofNode (.node k (2 ^ (j + 1)) d c m l r)).toList = d := by
  rw [ofNode_halves]
  simp only [packcontainer_int.toList, packnode.length,
    half_pow_succ, Option.getD_some, packnode.get, packnode.getData]
  have h2 : 2 ^ (j + 1) = 2 ^ j + 2 ^ j := by rw [pow_succ]; omega
  apply ext_rd
  · simp [hd, h2]
  · intro i hi
    simp only [List.length_append, List.length_map, List.length_range] at hi
    rw [rd_append, rd_map_range, rd_map_range]
    simp only [List.length_map, List.length_range]
    by_cases h : i < 2 ^ j
    · simp [h]
    · have h3 : i - 2 ^ j < 2 ^ j := by omega
      have h4 : i - 2 ^ j + 2 ^ j = i := by omega
      simp [h, h3, h4]

theorem N_ofNode (t : packnode) : (packcontainer_int.ofNode t).N = t.length := by
  rw [ofNode_halves]

theorem getData_newLevelAux (w : liftbase) (bound : Nat) (top : packnode) (f rev : Bool) :
    (newLevelAux w bound top f rev).getData = top.getData := by
  cases bound with
  | zero => rfl
  | succ b =>
    cases top with
    | null => rfl
    | node k len d c m l r =>
      by_cases hlen : len > 1
      · simp [newLevelAux, hlen, packnode.getData, packnode.setMark]
      · simp [newLevelAux, hlen]

theorem newLevelAux_built_len (w : liftbase) (hw : KeepsLength w) (bound : Nat) :
    ∀ (j : Nat) (k : transformKind) (d : List Int) (c : Int) (m : Bool),
      d.length = 2 ^ j → 2 ^ j ≤ bound →
      Built w j (newLevelAux w bound (.node k (2 ^ j) d c m .null .null) false false) := by
  induction bound with
  | zero =>
    intro j k d c m _ hb
    have : 0 < 2 ^ j := Nat.two_pow_pos j
    omega
  | succ b ih =>
    intro j k d c m hd hb
    cases j with
    | zero =>
      simp only [pow_zero, newLevelAux, gt_iff_lt, Nat.lt_irrefl, if_false]
      exact Built.leaf k d c m (by simpa using hd)
    | succ j =>
      have hlen := one_lt_pow_succ j
      have hF := hw d (2 ^ (j + 1)) hd (by rw [half_pow_succ, pow_succ]; omega)
      have hb2 : 2 ^ j ≤ b := by
        have : 2 ^ (j + 1) = 2 ^ j + 2 ^ j := by rw [pow_succ]; omega
        have : 0 < 2 ^ j := Nat.two_pow_pos j
        omega
      simp only [newLevelAux, hlen, if_true, Bool.false_eq_true, if_false,
        packcontainer_int.step, toList_ofNode k j d c m .null .null hd, packnode.new,
        packnode.setMark, Option.getD_some, div_pow_succ, packnode.getKind, packnode.length,
        packnode.getData, packnode.cost, packnode.mark, N_ofNode, half_pow_succ]
      refine Built.inner j k d c false _ _ hd (ih j _ _ _ _ ?_ hb2) (ih j _ _ _ _ ?_ hb2) ?_ ?_
      · rw [List.length_take, hF, pow_succ]; omega
      · rw [List.length_drop, hF, pow_succ]; omega
      · rw [getData_newLevelAux]; rfl
      · rw [getData_newLevelAux]; rfl

theorem keepsLength_of_roundTrip (w : liftbase) (hw : RoundTrip w) : KeepsLength w :=
  fun d n h1 h2 => (hw d n h1 h2).1

theorem newLevelAux_built (w : liftbase) (hw : RoundTrip w) (bound : Nat) :
    ∀ (j : Nat) (k : transformKind) (d : List Int) (c : Int) (m : Bool),
      d.length = 2 ^ j → 2 ^ j ≤ bound →
      Built w j (newLevelAux w bound (.node k (2 ^ j) d c m .null .null) false false) :=
  newLevelAux_built_len w (keepsLength_of_roundTrip w hw) bound

theorem packtree_new_built (w : liftbase) (hw : RoundTrip w) (v : List Int) (k : Nat)
    (hlen : v.length = 2 ^ k) :
    Built w k (packtree_int.new v (2 ^ k) w) ∧ (packtree_int.new v (2 ^ k) w).getData = v := by
  have hv : (List.range (2 ^ k)).map (fun i => rd v i) = v := by
    rw [← hlen]; exact map_rd_range v
  simp only [packtree_int.new, newLevel, packnode.new, packnode.setMark, packnode.length, hv]
  exact ⟨newLevelAux_built w hw _ k _ v _ _ hlen (Nat.le_refl _), by
    rw [getData_newLevelAux]; rfl⟩

theorem getData_traverse (cc : packnode → Int) (t : packnode) :
    (costbase_int.traverse cc t).getData = t.getData := by
  cases t <;> rfl

theorem built_traverse (w : liftbase) (cc : packnode → Int) (j : Nat) (t : packnode)
    (h : Built w j t) : Built w j (costbase_int.traverse cc t) := by
  induction h with
  | leaf k d c m hd => exact Built.leaf k d _ m hd
  | inner j k d c m l r hd _ _ hl hr ihl ihr =>
    simp only [costbase_int.traverse]
    exact Built.inner j k d _ m _ _ hd ihl ihr (by rw [getData_traverse]; exact hl)
      (by rw [getData_traverse]; exact hr)

theorem getData_setMark (b : Bool) (t : packnode) : (t.setMark b).getData = t.getData := by
  cases t <;> rfl

theorem built_setMark (w : liftbase) (b : Bool) (j : Nat) (t : packnode) (h : Built w j t) :
    Built w j (t.setMark b) := by
  cases h with
  | leaf k d c m hd => exact Built.leaf k d c b hd
  | inner j k d c m l r hd bl br hl hr => exact Built.inner j k d c b l r hd bl br hl hr

theorem built_not_null (w : liftbase) (j : Nat) (t : packnode) (h : Built w j t) :
    t.isNull = false := by
  cases h <;> rfl

theorem built_length (w : liftbase) (j : Nat) (t : packnode) (h : Built w j t) :
    t.length = 2 ^ j ∧ t.getData.length = 2 ^ j := by
  cases h with
  | leaf k d c m hd => exact ⟨rfl, by simpa [packnode.getData] using hd⟩
  | inner j k d c m l r hd _ _ _ _ => exact ⟨rfl, by simpa [packnode.getData] using hd⟩

/-- The walk keeps the shape and the data of a standard packet tree. -/
theorem bestBasisWalk_built (w : liftbase) (j : Nat) (t : packnode) (h : Built w j t) :
    ∃ c t2, bestBasisWalk t = some (c, t2) ∧ Built w j t2 ∧ t2.getData = t.getData := by
  induction h with
  | leaf k d c m hd =>
    exact ⟨c, _, bestBasisWalk_leaf k 1 d c m, Built.leaf k d c m hd, rfl⟩
  | inner j k d c m l r hd bl br hl hr ihl ihr =>
    obtain ⟨lc, l2, hwl, hbl, hdl⟩ := ihl
    obtain ⟨rc, r2, hwr, hbr, hdr⟩ := ihr
    have hw := bestBasisWalk_node k (2 ^ (j + 1)) d c m l r l2 r2 lc rc
      (built_not_null w j l bl) (built_not_null w j r br) hwl hwr
    by_cases hle : c ≤ lc + rc
    · simp only [hle, if_true] at hw
      exact ⟨c, _, hw, Built.inner j k d c true _ _ hd (built_setMark w false j l2 hbl)
        (built_setMark w false j r2 hbr) (by rw [getData_setMark, hdl]; exact hl)
        (by rw [getData_setMark, hdr]; exact hr), rfl⟩
    · simp only [hle, if_false] at hw
      exact ⟨lc + rc, _, hw, Built.inner j k d (lc + rc) m _ _ hd hbl hbr
        (by rw [hdl]; exact hl) (by rw [hdr]; exact hr), rfl⟩

/-! ### The inverse packet transform -/

theorem buildBestBasisList_acc (t : packnode) (acc : List packnode) :
    buildBestBasisList t acc = acc ++ buildBestBasisList t [] := by
  induction t generalizing acc with
  | null => simp [buildBestBasisList]
  | node k n d c m l r ihl ihr =>
    cases m
    · simp only [buildBestBasisList, Bool.false_eq_true, if_false]
      rw [ihr (buildBestBasisList l acc), ihl acc, ihr (buildBestBasisList l [])]
      simp
    · simp [buildBestBasisList]

theorem addAll_append (w : liftbase) (a b : List packnode) (s : List packcontainer_int) :
    invpacktree_int.addAll w (a ++ b) s
      = match invpacktree_int.addAll w a s with
        | some s2 => invpacktree_int.addAll w b s2
        | none => none := by
  induction a generalizing s with
  | nil => simp [invpacktree_int.addAll]
  | cons e a ih =>
    simp only [List.cons_append, invpacktree_int.addAll]
    cases invpacktree_int.add_elem w e s with
    | none => rfl
    | some s2 => exact ih s2

/-- Copying a container of two halves of a list back gives the list. -/
theorem copy_step (d : List Int) (n : Nat) (hd : d.length = n) :
    (List.range n).map (fun i =>
        packcontainer_int.get
          { N := n, lhs := some (d.take (n >>> 1)), rhs := some (d.drop (n >>> 1)) } i) = d := by
  apply ext_rd
  · simp [hd]
  · intro i hi
    simp only [List.length_map, List.length_range] at hi
    rw [rd_map_range]
    simp only [hi, if_true, packcontainer_int.get, Option.getD_some]
    by_cases h : i < n >>> 1
    · simp only [h, if_true]
      simp [rd, List.getD_eq_getElem?_getD, List.getElem?_take, h]
    · simp only [h, if_false, rd_drop]
      congr 1
      omega

/-- Adding an element on a ready stack whose top is longer than twice the element
pushes a new container. -/
theorem add_elem_push (w : liftbase) (e : packnode) (s : List packcontainer_int)
    (hn : e.isNull = false) (hpos : 0 < e.length) (hs : Ready s (2 * e.length)) :
    invpacktree_int.add_elem w e s = some (invpacktree_int.new_level e s) := by
  cases s with
  | nil => simp [invpacktree_int.add_elem, hn]
  | cons c rest =>
    simp only [Ready] at hs
    obtain ⟨_, h2⟩ := hs
    have h3 : ¬ c.N = e.length * 2 := by omega
    have h4 : c.N > e.length * 2 := by omega
    have h5 : e.length * 2 < c.N := h4
    simp [invpacktree_int.add_elem, hn, h3, h5]

/-- Reducing a container that holds the two halves of a forward step of `d` puts
`d` back: either as the right half of the next container, or as the left half of a
new container. -/
theorem reduceTop_pair (w : liftbase) (hw : RoundTrip w) (d : List Int) (n : Nat)
    (hd : d.length = n) (hn : 2 * (n >>> 1) = n) (x y : List Int)
    (hxy : x ++ y = w.forwardStep d n) (rest : List packcontainer_int) :
    invpacktree_int.reduceTop w { N := n, lhs := some x, rhs := some y } rest
      = match rest with
        | tos2 :: rest2 =>
          if tos2.N = n * 2 then
            invpacktree_int.reduceTop w { tos2 with rhs := some d } rest2
          else if tos2.N > n * 2 then
            some ({ N := n * 2, lhs := some d, rhs := none } :: tos2 :: rest2)
          else none
        | [] => some [{ N := n * 2, lhs := some d, rhs := none }] := by
  have hinv := (hw d n hd hn).2
  have hcopy := copy_step d n hd
  rw [invpacktree_int.reduceTop]
  simp only [Option.isSome_some, Bool.and_self, if_true, packcontainer_int.step,
    packcontainer_int.toList, Option.getD_some, hxy, hinv, hcopy, packcontainer_int.ofSize]

theorem length_node (k : transformKind) (n : Nat) (d : List Int) (c : Int) (m : Bool)
    (l r : packnode) : (packnode.node k n d c m l r).length = n := rfl

theorem getData_node (k : transformKind) (n : Nat) (d : List Int) (c : Int) (m : Bool)
    (l r : packnode) : (packnode.node k n d c m l r).getData = d := rfl

theorem isNull_node (k : transformKind) (n : Nat) (d : List Int) (c : Int) (m : Bool)
    (l r : packnode) : (packnode.node k n d c m l r).isNull = false := rfl

/-- Unfolding of `add_elem` for an element that is not null. -/
theorem add_elem_eq (w : liftbase) (e : packnode) (s : List packcontainer_int)
    (hn : e.isNull = false) :
    invpacktree_int.add_elem w e s
      = match s with
        | [] => some [{ N := e.length * 2, lhs := some e.getData, rhs := none }]
        | tos :: rest =>
          if tos.N = e.length * 2 then
            if tos.rhs.isSome then none
            else invpacktree_int.reduceTop w { tos with rhs := some e.getData } rest
          else if tos.N > e.length * 2 then
            some ({ N := e.length * 2, lhs := some e.getData, rhs := none } :: tos :: rest)
          else some (tos :: rest) := by
  cases s <;>
    simp [invpacktree_int.add_elem, hn, invpacktree_int.new_level, packcontainer_int.ofSize,
      invpacktree_int.reduce]

/-- Adding the elements collected below a node has the same effect as adding the
node itself. -/
theorem addAll_subtree (w : liftbase) (hw : RoundTrip w) (j : Nat) (t : packnode)
    (hb : Built w j t) (hc : t.covered = true) :
    ∀ s : List packcontainer_int, Ready s (2 ^ j) →
      invpacktree_int.addAll w (buildBestBasisList t []) s
        = invpacktree_int.add_elem w t s := by
  induction hb with
  | leaf k d c m hd =>
    intro s _
    have hm : m = true := by simpa [packnode.covered] using hc
    subst hm
    simp only [buildBestBasisList, if_true, List.nil_append, invpacktree_int.addAll]
    cases invpacktree_int.add_elem w _ s <;> rfl
  | inner j k d c m l r hd bl br hl hr ihl ihr =>
    intro s hs
    cases m with
    | true =>
      simp only [buildBestBasisList, if_true, List.nil_append, invpacktree_int.addAll]
      cases invpacktree_int.add_elem w _ s <;> rfl
    | false =>
      simp only [packnode.covered, Bool.false_or, Bool.and_eq_true] at hc
      have hll := (built_length w j l bl).1
      have hrl := (built_length w j r br).1
      have hpos : 0 < 2 ^ j := Nat.two_pow_pos j
      have h2 : 2 ^ (j + 1) = 2 ^ j * 2 := pow_succ 2 j
      have hs1 : Ready s (2 ^ j) := by
        cases s with
        | nil => trivial
        | cons c0 rest =>
          simp only [Ready] at hs ⊢
          exact ⟨hs.1, by omega⟩
      have hs2 : Ready s (2 * l.length) := by
        cases s with
        | nil => trivial
        | cons c0 rest =>
          simp only [Ready] at hs ⊢
          exact ⟨hs.1, by omega⟩
      have hs3 : Ready (invpacktree_int.new_level l s) (2 ^ j) := by
        simp only [invpacktree_int.new_level, packcontainer_int.ofSize, Ready]
        exact ⟨trivial, by omega⟩
      simp only [buildBestBasisList, Bool.false_eq_true, if_false]
      rw [buildBestBasisList_acc r, addAll_append, ihl hc.1 s hs1,
        add_elem_push w l s (built_not_null w j l bl) (by omega) hs2]
      simp only []
      rw [ihr hc.2 _ hs3]
      have hxy : l.getData ++ r.getData = w.forwardStep d (2 ^ (j + 1)) := by
        rw [hl, hr, List.take_append_drop]
      have hpair := reduceTop_pair w hw d (2 ^ (j + 1)) hd
        (by rw [half_pow_succ]; omega) l.getData r.getData hxy s
      rw [add_elem_eq w r _ (built_not_null w j r br), add_elem_eq w _ s (isNull_node _ _ _ _ _ _ _)]
      simp only [invpacktree_int.new_level, packcontainer_int.ofSize, hll, hrl, if_true,
        Option.isSome_none, Bool.false_eq_true, if_false, length_node, getData_node, ← h2]
      rw [hpair]
      cases s with
      | nil => rfl
      | cons c0 rest =>
        simp only [Ready] at hs
        obtain ⟨hr0, hN0⟩ := hs
        by_cases he : c0.N = 2 ^ (j + 1) * 2
        · simp [he, hr0]
        · have hgt : c0.N > 2 ^ (j + 1) * 2 := by omega
          simp [he, hgt]

/-- The inverse packet transform of the best basis list of a covered standard
tree returns the data of the root. -/
theorem invpacktree_of_built (w : liftbase) (hw : RoundTrip w) (j : Nat) (t : packnode)
    (hb : Built w j t) (hc : t.covered = true) :
    invpacktree_int.new (getBestBasisList t) w
      = some { stack := [], data := some t.getData, N := 2 ^ j } := by
  have h := addAll_subtree w hw j t hb hc [] trivial
  have hl := (built_length w j t hb).1
  rw [add_elem_eq w t [] (built_not_null w j t hb)] at h
  simp only [invpacktree_int.new, getBestBasisList, h, hl]
  simp

/-- The pipeline of `packet_calc` for a wavelet that undoes its own step. -/
theorem packet_calc_of_roundTrip (w : liftbase) (hw : RoundTrip w) (v : List Int) (k : Nat)
    (hlen : v.length = 2 ^ k) : packet_calc.invRslt w v (2 ^ k) = some v := by
  obtain ⟨hb0, hd0⟩ := packtree_new_built w hw v k hlen
  have hb1 := built_traverse w costwidth.costCalc k _ hb0
  obtain ⟨c, t2, hwalk, hb2, hd2⟩ := bestBasisWalk_built w k _ hb1
  have hf : (costbase_int.traverse costwidth.costCalc (packtree_int.new v (2 ^ k) w)).fresh
      = true := by
    rw [fresh_traverse]; exact packtree_new_fresh v (2 ^ k) w
  obtain ⟨c3, t3, hwalk3, _, _, hcov, _, _⟩ := bestBasisWalk_fresh _ hf
  rw [hwalk] at hwalk3
  have ht : t2 = t3 := by
    have := Option.some.inj hwalk3
    exact congrArg Prod.snd this
  subst ht
  have hinv := invpacktree_of_built w hw k t2 hb2 hcov
  simp only [packet_calc.invRslt, costwidth, bestBasis, hwalk, Option.map_some', hinv,
    invpacktree_int.getData, hd2, getData_traverse, hd0]

/-- C1. Wavelet packet round trip: for every integer array `v` of length `2^k`
(`k ≥ 1`), building the packet tree with an integer lifting wavelet (the Haar, line
or TS wavelet, with any rounding `fp`), annotating every node with the bit-width
cost, running `bestBasis` once, collecting the best basis list and running the
inverse packet transform of that list with the same wavelet returns exactly `v`. -/
theorem packet_round_trip (fp : Rounding) (rev : List Int → Nat → List Int) (w : liftbase)
    (hw : w = line_int.wave fp rev ∨ w = haar_int.wave rev ∨ w = ts_trans_int.wave fp rev)
    (v : List Int) (k : Nat) (_hk : 1 ≤ k) (hlen : v.length = 2 ^ k) :
    packet_calc.invRslt w v (2 ^ k) = some v := by
  apply packet_calc_of_roundTrip w ?_ v k hlen
  rcases hw with h | h | h
  · rw [h]; exact roundTrip_line fp rev
  · rw [h]; exact roundTrip_haar rev
  · rw [h]; exact roundTrip_ts fp rev

theorem packet_round_trip_witness :
    packet_calc.invRslt (line_int.wave exactRounding (fun v _ => v))
        [3, 1, -4, 1, -5, 9, 2, 6] (2 ^ 3) = some [3, 1, -4, 1, -5, 9, 2, 6] :=
  packet_round_trip exactRounding (fun v _ => v) _ (Or.inl rfl) [3, 1, -4, 1, -5, 9, 2, 6] 3
    (by decide) rfl

/-! ### The validity check before the best basis is calculated -/

theorem fresh_anyMarked (t : packnode) (h : t.fresh = true) : t.anyMarked = true := by
  induction t with
  | null => simp [packnode.fresh] at h
  | node k n d c m l r ihl _ =>
    simp only [packnode.fresh, Bool.or_eq_true, Bool.and_eq_true] at h
    rcases h with h | h
    · simp [packnode.anyMarked, h.2]
    · simp [packnode.anyMarked, ihl h.1.2]

theorem getKind_newLevelAux (w : liftbase) (bound : Nat) (top : packnode) (f rev : Bool) :
    (newLevelAux w bound top f rev).getKind = top.getKind := by
  cases bound with
  | zero => rfl
  | succ b =>
    cases top with
    | null => rfl
    | node k len d c m l r =>
      by_cases hlen : len > 1
      · simp [newLevelAux, hlen, packnode.getKind, packnode.setMark]
      · simp [newLevelAux, hlen]

theorem newLevelAux_noOriginal (w : liftbase) (bound : Nat) :
    ∀ (k : transformKind) (len : Nat) (d : List Int) (c : Int) (m f rev : Bool),
      k ≠ .OriginalData →
      (newLevelAux w bound (.node k len d c m .null .null) f rev).noOriginalData = true := by
  induction bound with
  | zero =>
    intro k len d c m f rev hk
    simp [newLevelAux, packnode.noOriginalData, hk]
  | succ bound ih =>
    intro k len d c m f rev hk
    by_cases hlen : len > 1
    · simp only [newLevelAux, hlen, if_true, packnode.new, packnode.setMark,
        packnode.noOriginalData, packnode.getKind]
      cases f <;> simp [hk, ih]
    · simp [newLevelAux, hlen, packnode.noOriginalData, hk]

/-- The root of a tree built from at least two samples, with the kinds below it. -/
theorem packtree_new_root_kinds (v : List Int) (N : Nat) (w : liftbase) (hN : 2 ≤ N) :
    ∃ l r, packtree_int.new v N w
        = .node .OriginalData N ((List.range N).map (fun i => rd v i)) 0 false l r
      ∧ l.fresh = true ∧ r.fresh = true
      ∧ l.noOriginalData = true ∧ r.noOriginalData = true := by
  obtain ⟨M, rfl⟩ : ∃ M, N = M + 1 := ⟨N - 1, by omega⟩
  have hlen : M + 1 > 1 := by omega
  have h1 : (M + 1) / 2 ≤ M := by omega
  simp only [packtree_int.new, newLevel, packnode.new, packnode.setMark, packnode.length,
    newLevelAux, hlen, if_true, packnode.getKind, packnode.getData, packnode.cost,
    packnode.mark]
  exact ⟨_, _, rfl, newLevelAux_fresh w M _ _ _ _ _ _ h1, by
    simpa using newLevelAux_fresh w M _ _ _ _ _ _ h1,
    newLevelAux_noOriginal w M _ _ _ _ _ _ _ (by decide), by
    simpa using newLevelAux_noOriginal w M .HighPass _ _ _ _ _ _ (by decide)⟩

/-- C11 (the code's behaviour). On a tree just built by the constructor from at
least two samples, on which `bestBasis` has never been called, `bestBasisOK` returns
true, not false: the constructor leaves the root unmarked and the leaves marked. -/
theorem bestBasisOK_before_bestBasis :
    (∀ (v : List Int) (N : Nat) (w : liftbase),
        bestBasisOK (packtree_int.new v (N + 2) w) = true)
    ∧ bestBasisOK (packtree_int.new [4, 6, 10, 12] 4
        (line_int.wave exactRounding (fun v _ => v))) = true := by
  refine ⟨fun v N w => ?_, by decide⟩
  obtain ⟨l, r, hroot, hl, hr, hkl, hkr⟩ := packtree_new_root_kinds v (N + 2) w (by omega)
  rw [hroot]
  simp only [bestBasisOK, checkBestBasis, Bool.false_eq_true, if_false, Bool.not_false, if_true]
  rw [checkBestBasis_noOriginal l _ hkl rfl]
  simp only [Bool.not_false, if_true]
  rw [checkBestBasis_noOriginal r _ hkr rfl]
  simp [fresh_anyMarked l hl]

/-! ### The best basis list -/

theorem getBestBasisList_eq_spec (t : packnode) : getBestBasisList t = basisListSpec t := by
  induction t with
  | null => rfl
  | node k n d c m l r ihl ihr =>
    cases m
    · simp only [getBestBasisList, buildBestBasisList, Bool.false_eq_true, if_false,
        basisListSpec]
      rw [buildBestBasisList_acc r]
      simp only [getBestBasisList] at ihl ihr
      rw [ihl, ihr]
    · simp [getBestBasisList, buildBestBasisList, basisListSpec]

/-- C12. Best-basis collection: `getBestBasisList` returns, in order, the nodes of
the depth-first left-to-right traversal that appends a marked node without
descending and otherwise visits the left subtree, then the right subtree: the list
of a marked node is the node alone, the list of an unmarked node is the list of
its left child followed by the list of its right child, and the list of an absent
child is empty; `buildBestBasisList` appends this list to the list it is given. -/
theorem best_basis_collection :
    (∀ t : packnode, getBestBasisList t = basisListSpec t)
    ∧ getBestBasisList .null = []
    ∧ (∀ (k : transformKind) (n : Nat) (d : List Int) (c : Int) (l r : packnode),
        getBestBasisList (.node k n d c true l r) = [.node k n d c true l r])
    ∧ (∀ (k : transformKind) (n : Nat) (d : List Int) (c : Int) (l r : packnode),
        getBestBasisList (.node k n d c false l r)
          = getBestBasisList l ++ getBestBasisList r)
    ∧ (∀ (t : packnode) (list : List packnode),
        buildBestBasisList t list = list ++ getBestBasisList t) := by
  refine ⟨getBestBasisList_eq_spec, rfl, ?_, ?_, ?_⟩
  · intro k n d c l r
    simp [getBestBasisList, buildBestBasisList]
  · intro k n d c l r
    rw [getBestBasisList_eq_spec, getBestBasisList_eq_spec l, getBestBasisList_eq_spec r]
    simp [basisListSpec]
  · intro t list
    exact buildBestBasisList_acc t list

/-! ### The shape of the tree -/

theorem length_newLevelAux (w : liftbase) (bound : Nat) (top : packnode) (f rev : Bool) :
    (newLevelAux w bound top f rev).length = top.length := by
  cases bound with
  | zero => rfl
  | succ b =>
    cases top with
    | null => rfl
    | node k len d c m l r =>
      by_cases hlen : len > 1
      · simp [newLevelAux, hlen, packnode.length, packnode.setMark]
      · simp [newLevelAux, hlen]

theorem newLevelAux_perfect (w : liftbase) (bound : Nat) :
    ∀ (j : Nat) (k : transformKind) (d : List Int) (c : Int) (m f rev : Bool),
      2 ^ j ≤ bound →
      Perfect j (newLevelAux w bound (.node k (2 ^ j) d c m .null .null) f rev) := by
  induction bound with
  | zero =>
    intro j k d c m f rev hb
    have : 0 < 2 ^ j := Nat.two_pow_pos j
    omega
  | succ b ih =>
    intro j k d c m f rev hb
    cases j with
    | zero =>
      simp only [pow_zero, newLevelAux, gt_iff_lt, Nat.lt_irrefl, if_false]
      exact ⟨rfl, rfl, rfl⟩
    | succ j =>
      have hlen := one_lt_pow_succ j
      have hb2 : 2 ^ j ≤ b := by
        have : 2 ^ (j + 1) = 2 ^ j + 2 ^ j := by rw [pow_succ]; omega
        have : 0 < 2 ^ j := Nat.two_pow_pos j
        omega
      simp only [newLevelAux, hlen, if_true, packnode.new, packnode.setMark, div_pow_succ,
        packnode.getKind, packnode.length, packnode.getData, packnode.cost, packnode.mark]
      refine ⟨rfl, ih j _ _ _ _ _ _ hb2, ?_⟩
      cases f
      · exact ih j _ _ _ _ _ _ hb2
      · exact ih j _ _ _ _ _ _ hb2

theorem packtree_new_perfect (v : List Int) (k : Nat) (w : liftbase) :
    Perfect k (packtree_int.new v (2 ^ k) w) := by
  simp only [packtree_int.new, newLevel, packnode.new, packnode.setMark, packnode.length]
  exact newLevelAux_perfect w _ k _ _ _ _ _ _ (Nat.le_refl _)

theorem perfect_not_null (j : Nat) (t : packnode) (h : Perfect j t) : t.isNull = false := by
  cases t with
  | null => cases j <;> simp [Perfect] at h
  | node => rfl

theorem perfect_length (j : Nat) (t : packnode) (h : Perfect j t) : t.length = 2 ^ j := by
  cases t with
  | null => cases j <;> simp [Perfect] at h
  | node k n d c m l r =>
    cases j with
    | zero => simpa [packnode.length] using h.1
    | succ j => exact h.1

theorem perfect_traverse (cc : packnode → Int) (j : Nat) (t : packnode) (h : Perfect j t) :
    Perfect j (costbase_int.traverse cc t) := by
  induction t generalizing j with
  | null => cases j <;> simp [Perfect] at h
  | node k n d c m l r ihl ihr =>
    cases j with
    | zero =>
      obtain ⟨h1, h2, h3⟩ := h
      subst h2 h3
      exact ⟨h1, rfl, rfl⟩
    | succ j => exact ⟨h.1, ihl j h.2.1, ihr j h.2.2⟩

theorem perfect_setMark (b : Bool) (j : Nat) (t : packnode) (h : Perfect j t) :
    Perfect j (t.setMark b) := by
  cases t with
  | null => cases j <;> simp [Perfect] at h
  | node k n d c m l r => cases j <;> exact h

/-- The walk keeps the shape of a perfect tree. -/
theorem bestBasisWalk_perfect (j : Nat) (t : packnode) (h : Perfect j t) :
    ∃ c t2, bestBasisWalk t = some (c, t2) ∧ Perfect j t2 := by
  induction t generalizing j with
  | null => cases j <;> simp [Perfect] at h
  | node k n d c m l r ihl ihr =>
    cases j with
    | zero =>
      obtain ⟨h1, h2, h3⟩ := h
      subst h2 h3
      exact ⟨c, _, bestBasisWalk_leaf k n d c m, h1, rfl, rfl⟩
    | succ j =>
      obtain ⟨hn, hl, hr⟩ := h
      obtain ⟨lc, l2, hwl, hpl⟩ := ihl j hl
      obtain ⟨rc, r2, hwr, hpr⟩ := ihr j hr
      have hw := bestBasisWalk_node k n d c m l r l2 r2 lc rc (perfect_not_null j l hl)
        (perfect_not_null j r hr) hwl hwr
      by_cases hle : c ≤ lc + rc
      · simp only [hle, if_true] at hw
        exact ⟨c, _, hw, hn, perfect_setMark false j l2 hpl, perfect_setMark false j r2 hpr⟩
      · simp only [hle, if_false] at hw
        exact ⟨lc + rc, _, hw, hn, hpl, hpr⟩

theorem nodesAt_perfect (k : Nat) (t : packnode) (h : Perfect k t) :
    (∀ j, j ≤ k → (t.nodesAt j).length = 2 ^ j ∧
        ∀ x ∈ t.nodesAt j, x.length = 2 ^ (k - j) ∧ (x.isLeaf = true ↔ j = k))
    ∧ (∀ j, k < j → t.nodesAt j = []) ∧ t.size = 2 ^ (k + 1) - 1 := by
  induction t generalizing k with
  | null => cases k <;> simp [Perfect] at h
  | node kd n d c m l r ihl ihr =>
    cases k with
    | zero =>
      obtain ⟨h1, h2, h3⟩ := h
      subst h1 h2 h3
      refine ⟨?_, ?_, by simp [packnode.size]⟩
      · intro j hj
        have hj0 : j = 0 := by omega
        subst hj0
        simp [packnode.nodesAt, packnode.length, packnode.isLeaf, packnode.isNull,
          packnode.lhsChild, packnode.rhsChild]
      · intro j hj
        obtain ⟨i, rfl⟩ : ∃ i, j = i + 1 := ⟨j - 1, by omega⟩
        simp [packnode.nodesAt]
    | succ k =>
      obtain ⟨hn, hl, hr⟩ := h
      obtain ⟨hl1, hl2, hl3⟩ := ihl k hl
      obtain ⟨hr1, hr2, hr3⟩ := ihr k hr
      have hpos : 0 < 2 ^ k := Nat.two_pow_pos k
      refine ⟨?_, ?_, ?_⟩
      · intro j hj
        cases j with
        | zero =>
          have hnl := perfect_not_null k l hl
          simp [packnode.nodesAt, packnode.length, hn, packnode.isLeaf, packnode.lhsChild, hnl]
        | succ j =>
          have hjk : j ≤ k := by omega
          obtain ⟨a1, a2⟩ := hl1 j hjk
          obtain ⟨b1, b2⟩ := hr1 j hjk
          refine ⟨?_, ?_⟩
          · simp only [packnode.nodesAt, List.length_append, a1, b1, pow_succ]
            omega
          · intro x hx
            simp only [packnode.nodesAt, List.mem_append] at hx
            have hsub : k + 1 - (j + 1) = k - j := by omega
            rw [hsub]
            rcases hx with hx | hx
            · exact ⟨(a2 x hx).1, by rw [(a2 x hx).2]; omega⟩
            · exact ⟨(b2 x hx).1, by rw [(b2 x hx).2]; omega⟩
      · intro j hj
        obtain ⟨i, rfl⟩ : ∃ i, j = i + 1 := ⟨j - 1, by omega⟩
        simp [packnode.nodesAt, hl2 i (by omega), hr2 i (by omega)]
      · simp only [packnode.size, hl3, hr3]
        have : 2 ^ (k + 1 + 1) = 2 ^ (k + 1) + 2 ^ (k + 1) := by rw [pow_succ]; omega
        have : 0 < 2 ^ (k + 1) := Nat.two_pow_pos (k + 1)
        omega

/-- C14. Tree shape: the packet tree built from an array of length `N = 2^k` has
exactly `k + 1` levels (the root is level 0): every level `j ≤ k` holds `2^j` nodes,
each of length `2^(k-j)`, the levels beyond `k` are empty, a node is a leaf exactly
when it is at level `k` (where its length is 1), and the total number of nodes is
`2^(k+1) - 1 = 2N - 1`. -/
theorem tree_shape (w : liftbase) (v : List Int) (k : Nat) (_hlen : v.length = 2 ^ k) :
    (∀ j, j ≤ k → ((packtree_int.new v (2 ^ k) w).nodesAt j).length = 2 ^ j ∧
        ∀ x ∈ (packtree_int.new v (2 ^ k) w).nodesAt j,
          x.length = 2 ^ (k - j) ∧ (x.isLeaf = true ↔ j = k))
    ∧ (∀ x ∈ (packtree_int.new v (2 ^ k) w).nodesAt k, x.length = 1)
    ∧ (∀ j, k < j → (packtree_int.new v (2 ^ k) w).nodesAt j = [])
    ∧ (packtree_int.new v (2 ^ k) w).size = 2 ^ (k + 1) - 1
    ∧ (packtree_int.new v (2 ^ k) w).size = 2 * 2 ^ k - 1 := by
  obtain ⟨h1, h2, h3⟩ := nodesAt_perfect k _ (packtree_new_perfect v k w)
  refine ⟨h1, ?_, h2, h3, ?_⟩
  · intro x hx
    have := ((h1 k (Nat.le_refl k)).2 x hx).1
    simpa using this
  · rw [h3, pow_succ]
    omega

theorem tree_shape_witness :
    (∀ j, j ≤ 2 → ((packtree_int.new [4, 6, 10, 12] (2 ^ 2)
          (line_int.wave exactRounding (fun v _ => v))).nodesAt j).length = 2 ^ j ∧
        ∀ x ∈ (packtree_int.new [4, 6, 10, 12] (2 ^ 2)
          (line_int.wave exactRounding (fun v _ => v))).nodesAt j,
          x.length = 2 ^ (2 - j) ∧ (x.isLeaf = true ↔ j = 2))
    ∧ (∀ x ∈ (packtree_int.new [4, 6, 10, 12] (2 ^ 2)
          (line_int.wave exactRounding (fun v _ => v))).nodesAt 2, x.length = 1)
    ∧ (∀ j, 2 < j → (packtree_int.new [4, 6, 10, 12] (2 ^ 2)
          (line_int.wave exactRounding (fun v _ => v))).nodesAt j = [])
    ∧ (packtree_int.new [4, 6, 10, 12] (2 ^ 2)
          (line_int.wave exactRounding (fun v _ => v))).size = 2 ^ (2 + 1) - 1
    ∧ (packtree_int.new [4, 6, 10, 12] (2 ^ 2)
          (line_int.wave exactRounding (fun v _ => v))).size = 2 * 2 ^ 2 - 1 :=
  tree_shape _ [4, 6, 10, 12] 2 rfl

/-! ### The best basis list is a partition -/

theorem getBestBasisList_paths (t : packnode) :
    getBestBasisList t = (t.basisPaths).map (fun p => t.sub p) := by
  rw [getBestBasisList_eq_spec]
  induction t with
  | null => rfl
  | node k n d c m l r ihl ihr =>
    cases m
    · simp only [basisListSpec, Bool.false_eq_true, if_false, packnode.basisPaths,
        List.map_append, List.map_map, ihl, ihr]
      rfl
    · simp [basisListSpec, packnode.basisPaths, packnode.sub]

theorem basisPaths_pairwise (t : packnode) :
    (t.basisPaths).Pairwise (fun p q => ¬ p <+: q ∧ ¬ q <+: p) := by
  induction t with
  | null => simp [packnode.basisPaths]
  | node k n d c m l r ihl ihr =>
    cases m
    · simp only [packnode.basisPaths, Bool.false_eq_true, if_false]
      rw [List.pairwise_append]
      refine ⟨?_, ?_, ?_⟩
      · rw [List.pairwise_map]
        exact ihl.imp (fun h => by simpa using h)
      · rw [List.pairwise_map]
        exact ihr.imp (fun h => by simpa using h)
      · intro a ha b hb
        simp only [List.mem_map] at ha hb
        obtain ⟨a2, _, rfl⟩ := ha
        obtain ⟨b2, _, rfl⟩ := hb
        simp
    · simp [packnode.basisPaths]

theorem sub_cons_false_node (k : transformKind) (n : Nat) (d : List Int) (c : Int)
    (m : Bool) (l r : packnode) (p : List Bool) :
    (packnode.node k n d c m l r).sub (false :: p) = l.sub p := rfl

theorem sub_cons_true_node (k : transformKind) (n : Nat) (d : List Int) (c : Int)
    (m : Bool) (l r : packnode) (p : List Bool) :
    (packnode.node k n d c m l r).sub (true :: p) = r.sub p := rfl

theorem covered_not_null (t : packnode) (h : t.covered = true) : t.isNull = false := by
  cases t with
  | null => simp [packnode.covered] at h
  | node => rfl

/-- In a covered tree every leaf lies under, or is, exactly one collected node. -/
theorem basisPaths_cover (t : packnode) (h : t.covered = true) (q : List Bool)
    (hq : (t.sub q).isLeaf = true) :
    ∃ p, (p ∈ t.basisPaths ∧ p <+: q) ∧ ∀ p2, p2 ∈ t.basisPaths ∧ p2 <+: q → p2 = p := by
  induction t generalizing q with
  | null => simp [packnode.covered] at h
  | node k n d c m l r ihl ihr =>
    cases m
    · simp only [packnode.covered, Bool.false_or, Bool.and_eq_true] at h
      have hnl := covered_not_null l h.1
      cases q with
      | nil =>
        have hno : (packnode.node k n d c false l r).isLeaf = false := by
          simp only [packnode.isLeaf, packnode.lhsChild, hnl]
          simp
        change (packnode.node k n d c false l r).isLeaf = true at hq
        rw [hno] at hq
        exact absurd hq (by decide)
      | cons b q =>
        cases b
        · rw [sub_cons_false_node] at hq
          obtain ⟨p, ⟨hp1, hp2⟩, hp3⟩ := ihl h.1 q hq
          refine ⟨false :: p, ⟨?_, by simpa using hp2⟩, ?_⟩
          · simp [packnode.basisPaths, hp1]
          · rintro p2 ⟨h1, h2⟩
            simp only [packnode.basisPaths, Bool.false_eq_true, if_false, List.mem_append,
              List.mem_map] at h1
            rcases h1 with ⟨a, ha, rfl⟩ | ⟨a, ha, rfl⟩
            · have : a <+: q := by simpa using h2
              rw [hp3 a ⟨ha, this⟩]
            · simp at h2
        · rw [sub_cons_true_node] at hq
          obtain ⟨p, ⟨hp1, hp2⟩, hp3⟩ := ihr h.2 q hq
          refine ⟨true :: p, ⟨?_, by simpa using hp2⟩, ?_⟩
          · simp [packnode.basisPaths, hp1]
          · rintro p2 ⟨h1, h2⟩
            simp only [packnode.basisPaths, Bool.false_eq_true, if_false, List.mem_append,
              List.mem_map] at h1
            rcases h1 with ⟨a, ha, rfl⟩ | ⟨a, ha, rfl⟩
            · simp at h2
            · have : a <+: q := by simpa using h2
              rw [hp3 a ⟨ha, this⟩]
    · refine ⟨[], ⟨by simp [packnode.basisPaths], List.nil_prefix⟩, ?_⟩
      rintro p2 ⟨h1, _⟩
      simpa [packnode.basisPaths] using h1

/-- In a covered perfect tree the lengths of the collected nodes add up to the
length of the root. -/
theorem basisList_length_sum (j : Nat) (t : packnode) (hp : Perfect j t)
    (hc : t.covered = true) :
    ((basisListSpec t).map packnode.length).sum = 2 ^ j := by
  induction t generalizing j with
  | null => simp [packnode.covered] at hc
  | node k n d c m l r ihl ihr =>
    cases m
    · simp only [packnode.covered, Bool.false_or, Bool.and_eq_true] at hc
      cases j with
      | zero =>
        obtain ⟨_, h2, _⟩ := hp
        subst h2
        simp [packnode.covered] at hc
      | succ j =>
        obtain ⟨_, hl, hr⟩ := hp
        simp only [basisListSpec, Bool.false_eq_true, if_false, List.map_append,
          List.sum_append, ihl j hl hc.1, ihr j hr hc.2, pow_succ]
        omega
    · have := perfect_length j _ hp
      simpa [basisListSpec] using this

/-- The tree after the walk on a fresh, cost-annotated tree of `2^k` samples. -/
theorem bestBasis_perfect (w : liftbase) (costCalc : packnode → Int) (v : List Int) (k : Nat) :
    ∃ t2, bestBasis (costbase_int.traverse costCalc (packtree_int.new v (2 ^ k) w)) = some t2 ∧
      t2.covered = true ∧ Perfect k t2 := by
  obtain ⟨t2, hb, hc, _, _⟩ := bestBasis_built w costCalc v (2 ^ k)
  obtain ⟨c3, t3, hw3, hp3⟩ := bestBasisWalk_perfect k _
    (perfect_traverse costCalc k _ (packtree_new_perfect v k w))
  have ht : t3 = t2 := by
    simp only [bestBasis, hw3, Option.map_some', Option.some.injEq] at hb
    exact hb
  subst ht
  exact ⟨t3, hb, hc, hp3⟩

/-- C13. The best-basis list is a partition of the signal: for a tree built from
`N = 2^k` samples, after `bestBasis`, the list returned by `getBestBasisList` holds
the nodes at the paths `basisPaths`; no two of these paths are a prefix of one
another (the nodes are pairwise neither ancestor nor descendant), every leaf of the
tree lies under, or is, exactly one of them, and the lengths of the nodes of the
list add up to exactly `N`. -/
theorem best_basis_partition (w : liftbase) (costCalc : packnode → Int) (v : List Int)
    (k : Nat) (_hlen : v.length = 2 ^ k) :
    ∃ t2, bestBasis (costbase_int.traverse costCalc (packtree_int.new v (2 ^ k) w)) = some t2 ∧
      getBestBasisList t2 = (t2.basisPaths).map (fun p => t2.sub p) ∧
      (t2.basisPaths).Pairwise (fun p q => ¬ p <+: q ∧ ¬ q <+: p) ∧
      (∀ q : List Bool, (t2.sub q).isLeaf = true →
        ∃ p, (p ∈ t2.basisPaths ∧ p <+: q) ∧
          ∀ p2, p2 ∈ t2.basisPaths ∧ p2 <+: q → p2 = p) ∧
      ((getBestBasisList t2).map packnode.length).sum = 2 ^ k := by
  obtain ⟨t2, hb, hc, hp⟩ := bestBasis_perfect w costCalc v k
  refine ⟨t2, hb, getBestBasisList_paths t2, basisPaths_pairwise t2,
    fun q hq => basisPaths_cover t2 hc q hq, ?_⟩
  rw [getBestBasisList_eq_spec]
  exact basisList_length_sum k t2 hp hc

theorem best_basis_partition_witness :
    ∃ t2, bestBasis (costbase_int.traverse costwidth.costCalc
        (packtree_int.new [0, 0, 0, 0, 0, 1, -1, -1] (2 ^ 3)
          (line_int.wave exactRounding (fun v _ => v)))) = some t2 ∧
      getBestBasisList t2 = (t2.basisPaths).map (fun p => t2.sub p) ∧
      (t2.basisPaths).Pairwise (fun p q => ¬ p <+: q ∧ ¬ q <+: p) ∧
      (∀ q : List Bool, (t2.sub q).isLeaf = true →
        ∃ p, (p ∈ t2.basisPaths ∧ p <+: q) ∧
          ∀ p2, p2 ∈ t2.basisPaths ∧ p2 <+: q → p2 = p) ∧
      ((getBestBasisList t2).map packnode.length).sum = 2 ^ 3 :=
  best_basis_partition _ _ [0, 0, 0, 0, 0, 1, -1, -1] 3 rfl

/-! ### Children are the two halves of one transform step -/

theorem packtree_new_built_len (w : liftbase) (hw : KeepsLength w) (v : List Int) (k : Nat)
    (hlen : v.length = 2 ^ k) :
    Built w k (packtree_int.new v (2 ^ k) w) ∧ (packtree_int.new v (2 ^ k) w).getData = v := by
  have hv : (List.range (2 ^ k)).map (fun i => rd v i) = v := by
    rw [← hlen]; exact map_rd_range v
  simp only [packtree_int.new, newLevel, packnode.new, packnode.setMark, packnode.length, hv]
  exact ⟨newLevelAux_built_len w hw _ k _ v _ _ hlen (Nat.le_refl _), by
    rw [getData_newLevelAux]; rfl⟩

theorem getKind_node (k : transformKind) (n : Nat) (d : List Int) (c : Int) (m : Bool)
    (l r : packnode) : (packnode.node k n d c m l r).getKind = k := rfl

theorem newLevelAux_stdKinds (w : liftbase) (bound : Nat) :
    ∀ (k : transformKind) (len : Nat) (d : List Int) (c : Int) (m f rev : Bool),
      (newLevelAux w bound (.node k len d c m .null .null) f rev).stdKinds = true := by
  induction bound with
  | zero =>
    intro k len d c m f rev
    simp [newLevelAux, packnode.stdKinds, packnode.isNull]
  | succ bound ih =>
    intro k len d c m f rev
    by_cases hlen : len > 1
    · simp only [newLevelAux, hlen, if_true, packnode.new, packnode.setMark,
        packnode.stdKinds, getKind_newLevelAux, getKind_node]
      cases f <;> simp [getKind_newLevelAux, getKind_node, ih]
    · simp [newLevelAux, hlen, packnode.stdKinds, packnode.isNull]

theorem stdKinds_sub (t : packnode) (h : t.stdKinds = true) (p : List Bool) :
    (t.sub p).stdKinds = true := by
  induction p generalizing t with
  | nil => exact h
  | cons b p ih =>
    cases t with
    | null =>
      cases b <;> simp [packnode.sub, packnode.lhsChild, packnode.rhsChild, sub_null,
        packnode.stdKinds]
    | node k n d c m l r =>
      simp only [packnode.stdKinds, Bool.and_eq_true] at h
      cases b
      · exact ih l h.1.2
      · exact ih r h.2

theorem stdKinds_children (t : packnode) (h : t.stdKinds = true)
    (hint : t.isInternal = true) :
    t.lhsChild.getKind = .LowPass ∧ t.rhsChild.getKind = .HighPass := by
  cases t with
  | null => simp [packnode.isInternal, packnode.isNull] at hint
  | node k n d c m l r =>
    simp only [packnode.isInternal, packnode.lhsChild, packnode.rhsChild, Bool.and_eq_true,
      Bool.not_eq_true'] at hint
    simp only [packnode.stdKinds, Bool.and_eq_true, Bool.or_eq_true, beq_iff_eq, hint.1.2,
      hint.2, Bool.false_eq_true, false_or] at h
    exact ⟨h.1.1.1, h.1.1.2⟩

theorem built_sub (w : liftbase) (j : Nat) (t : packnode) (h : Built w j t) (p : List Bool)
    (hint : (t.sub p).isInternal = true) : ∃ i, Built w (i + 1) (t.sub p) := by
  induction p generalizing t j with
  | nil =>
    cases h with
    | leaf k d c m hd => simp [packnode.sub, packnode.isInternal, packnode.lhsChild,
        packnode.isNull] at hint
    | inner j k d c m l r hd bl br hl hr =>
      exact ⟨j, Built.inner j k d c m l r hd bl br hl hr⟩
  | cons b p ih =>
    cases h with
    | leaf k d c m hd =>
      cases b <;> simp [packnode.sub, packnode.lhsChild, packnode.rhsChild, sub_null,
        packnode.isInternal, packnode.isNull] at hint
    | inner j k d c m l r hd bl br hl hr =>
      cases b
      · exact ih j l bl hint
      · exact ih j r br hint

theorem built_children (w : liftbase) (i : Nat) (x : packnode) (h : Built w (i + 1) x) :
    x.getData.length = x.length ∧
    x.lhsChild.length = x.length / 2 ∧
    x.lhsChild.getData = (w.forwardStep x.getData x.length).take (x.length / 2) ∧
    x.rhsChild.length = x.length / 2 ∧
    x.rhsChild.getData = (w.forwardStep x.getData x.length).drop (x.length / 2) := by
  cases h with
  | inner j k d c m l r hd bl br hl hr =>
    simp only [packnode.getData, packnode.length, packnode.lhsChild, packnode.rhsChild,
      div_pow_succ]
    exact ⟨hd, (built_length w i l bl).1, hl, (built_length w i r br).1, hr⟩

/-- C15. Children are the two halves of one transform step: in the standard tree
built from `2^k` samples with a wavelet whose step keeps the length, the root holds
the input array with kind `OriginalData`, and for every internal node with data `d`
of length `n` the left child has kind `LowPass`, length `n/2` and the first `n/2`
entries of `forwardStep d` as data, and the right child has kind `HighPass`, length
`n/2` and the last `n/2` entries of `forwardStep d` as data. -/
theorem children_are_step_halves (w : liftbase) (hw : KeepsLength w) (v : List Int) (k : Nat)
    (hlen : v.length = 2 ^ k) :
    (packtree_int.new v (2 ^ k) w).getData = v ∧
    (packtree_int.new v (2 ^ k) w).getKind = .OriginalData ∧
    ∀ (p : List Bool) (x : packnode), x = (packtree_int.new v (2 ^ k) w).sub p →
      x.isInternal = true →
      x.getData.length = x.length ∧
      x.lhsChild.getKind = .LowPass ∧ x.lhsChild.length = x.length / 2 ∧
      x.lhsChild.getData = (w.forwardStep x.getData x.length).take (x.length / 2) ∧
      x.rhsChild.getKind = .HighPass ∧ x.rhsChild.length = x.length / 2 ∧
      x.rhsChild.getData = (w.forwardStep x.getData x.length).drop (x.length / 2) := by
  obtain ⟨hb, hd⟩ := packtree_new_built_len w hw v k hlen
  have hk : (packtree_int.new v (2 ^ k) w).stdKinds = true := by
    simp only [packtree_int.new, newLevel, packnode.new, packnode.setMark, packnode.length]
    exact newLevelAux_stdKinds w _ _ _ _ _ _ _ _
  have hroot : (packtree_int.new v (2 ^ k) w).getKind = .OriginalData := by
    simp only [packtree_int.new, newLevel, packnode.new, packnode.setMark, packnode.length]
    rw [getKind_newLevelAux]
    rfl
  refine ⟨hd, hroot, ?_⟩
  intro p x hx hint
  subst hx
  obtain ⟨i, hbx⟩ := built_sub w k _ hb p hint
  obtain ⟨h1, h2, h3, h4, h5⟩ := built_children w i _ hbx
  obtain ⟨h6, h7⟩ := stdKinds_children _ (stdKinds_sub _ hk p) hint
  exact ⟨h1, h6, h2, h3, h7, h4, h5⟩

theorem children_are_step_halves_witness :
    (packtree_int.new [4, 6, 10, 12] (2 ^ 2)
        (line_int.wave exactRounding (fun v _ => v))).getData = [4, 6, 10, 12] ∧
    (packtree_int.new [4, 6, 10, 12] (2 ^ 2)
        (line_int.wave exactRounding (fun v _ => v))).getKind = .OriginalData ∧
    ∀ (p : List Bool) (x : packnode),
      x = (packtree_int.new [4, 6, 10, 12] (2 ^ 2)
        (line_int.wave exactRounding (fun v _ => v))).sub p →
      x.isInternal = true →
      x.getData.length = x.length ∧
      x.lhsChild.getKind = .LowPass ∧ x.lhsChild.length = x.length / 2 ∧
      x.lhsChild.getData
        = ((line_int.wave exactRounding (fun v _ => v)).forwardStep x.getData x.length).take
            (x.length / 2) ∧
      x.rhsChild.getKind = .HighPass ∧ x.rhsChild.length = x.length / 2 ∧
      x.rhsChild.getData
        = ((line_int.wave exactRounding (fun v _ => v)).forwardStep x.getData x.length).drop
            (x.length / 2) :=
  children_are_step_halves _
    (keepsLength_of_roundTrip _ (roundTrip_line exactRounding (fun v _ => v)))
    [4, 6, 10, 12] 2 rfl

/-! ### Cost annotation -/

theorem sub_traverse (cc : packnode → Int) (t : packnode) (p : List Bool) :
    (costbase_int.traverse cc t).sub p = costbase_int.traverse cc (t.sub p) := by
  induction p generalizing t with
  | nil => rfl
  | cons b p ih =>
    cases t with
    | null =>
      cases b <;> simp [costbase_int.traverse, packnode.sub, packnode.lhsChild,
        packnode.rhsChild, sub_null]
    | node k n d c m l r =>
      cases b
      · exact ih l
      · exact ih r

/-- C16. Cost annotation: after the traversal of a cost object, every node of the
tree (at any path `p`, root and leaves included) has the value of `costCalc` on that
node as its cost, while its kind, length, data and mark are unchanged and its
children are the annotated children, so that the tree has the same nodes as before;
with `costwidth` the stored cost is `vecWidth` of the node's data and length. -/
theorem cost_annotation (cc : packnode → Int) (t : packnode) (p : List Bool)
    (k : transformKind) (n : Nat) (d : List Int) (c : Int) (m : Bool) (l r : packnode)
    (h : t.sub p = .node k n d c m l r) :
    (costbase_int.traverse cc t).sub p
      = .node k n d (cc (.node k n d c m l r)) m (costbase_int.traverse cc l)
          (costbase_int.traverse cc r)
    ∧ ((costwidth t).sub p).cost = (support.vecWidth d n : Int)
    ∧ (∀ q : List Bool, ((costbase_int.traverse cc t).sub q).isNull = (t.sub q).isNull)
    ∧ (∀ q : List Bool, ((costbase_int.traverse cc t).sub q).getData = (t.sub q).getData
        ∧ ((costbase_int.traverse cc t).sub q).length = (t.sub q).length
        ∧ ((costbase_int.traverse cc t).sub q).getKind = (t.sub q).getKind
        ∧ ((costbase_int.traverse cc t).sub q).mark = (t.sub q).mark) := by
  refine ⟨?_, ?_, ?_, ?_⟩
  · rw [sub_traverse, h]
    rfl
  · rw [costwidth, sub_traverse, h]
    rfl
  · intro q
    rw [sub_traverse, isNull_traverse]
  · intro q
    rw [sub_traverse]
    cases t.sub q <;> exact ⟨rfl, rfl, rfl, rfl⟩

theorem cost_annotation_witness :
    (costbase_int.traverse costwidth.costCalc
        (.node .OriginalData 2 [5, 3] 0 false
          (.node .LowPass 1 [4] 0 true .null .null)
          (.node .HighPass 1 [-2] 0 true .null .null))).sub [true]
      = .node .HighPass 1 [-2]
          (costwidth.costCalc (.node .HighPass 1 [-2] 0 true .null .null)) true
          (costbase_int.traverse costwidth.costCalc .null)
          (costbase_int.traverse costwidth.costCalc .null)
    ∧ ((costwidth (.node .OriginalData 2 [5, 3] 0 false
          (.node .LowPass 1 [4] 0 true .null .null)
          (.node .HighPass 1 [-2] 0 true .null .null))).sub [true]).cost
        = (support.vecWidth [-2] 1 : Int) :=
  let h := cost_annotation costwidth.costCalc
    (.node .OriginalData 2 [5, 3] 0 false
      (.node .LowPass 1 [4] 0 true .null .null)
      (.node .HighPass 1 [-2] 0 true .null .null)) [true]
    .HighPass 1 [-2] 0 true .null .null rfl
  ⟨h.1, h.2.1⟩

/-! ### The inverse packet transform on lists that are not a basis -/

/-- An element that is too long for the container on top of the stack is skipped:
`add_elem` leaves the stack as it is and the constructor goes on. -/
theorem add_elem_short_top (w : liftbase) (elem : packnode) (tos : packcontainer_int)
    (rest : List packcontainer_int) (hn : elem.isNull = false)
    (hlt : tos.N < elem.length * 2) :
    invpacktree_int.add_elem w elem (tos :: rest) = some (tos :: rest) := by
  have h1 : ¬ tos.N = elem.length * 2 := by omega
  have h2 : ¬ tos.N > elem.length * 2 := by omega
  simp [invpacktree_int.add_elem, hn, h1, h2]

/-- C17 (the code's behaviour). When `add_elem` receives an element of length 2
while the container on top of the stack has length 2 (smaller than `2 * 2`), the
stack is returned unchanged and nothing aborts; the constructor then consumes the
next element and returns data: for the elements `[5]`, `[1, 2]`, `[2]` it returns
`[4, 6]`, the inverse step of `[5, 2]`. -/
theorem add_elem_too_long_continues :
    invpacktree_int.add_elem (line_int.wave exactRounding (fun v _ => v))
        (packnode.new [1, 2] 2 .HighPass)
        (invpacktree_int.new_level (packnode.new [5] 1 .LowPass) [])
      = some (invpacktree_int.new_level (packnode.new [5] 1 .LowPass) [])
    ∧ invpacktree_int.new
        [packnode.new [5] 1 .LowPass, packnode.new [1, 2] 2 .HighPass,
          packnode.new [2] 1 .HighPass]
        (line_int.wave exactRounding (fun v _ => v))
      = some { stack := [], data := some [4, 6], N := 2 } := by
  constructor <;> decide

/-- The state of the stack after the whole best basis list of a covered standard
tree has been consumed: one container, its left half the data of the root. -/
theorem addAll_of_built (w : liftbase) (hw : RoundTrip w) (j : Nat) (t : packnode)
    (hb : Built w j t) (hc : t.covered = true) :
    invpacktree_int.addAll w (getBestBasisList t) []
      = some [{ N := 2 ^ j * 2, lhs := some t.getData, rhs := none }] := by
  have h := addAll_subtree w hw j t hb hc [] trivial
  rw [add_elem_eq w t [] (built_not_null w j t hb)] at h
  simp only [getBestBasisList, h, (built_length w j t hb).1]

/-- The tree after the walk on a fresh, cost-annotated standard tree. -/
theorem bestBasis_standard (w : liftbase) (hw : RoundTrip w) (costCalc : packnode → Int)
    (v : List Int) (k : Nat) (hlen : v.length = 2 ^ k) :
    ∃ t2, bestBasis (costbase_int.traverse costCalc (packtree_int.new v (2 ^ k) w)) = some t2 ∧
      t2.covered = true ∧ Built w k t2 ∧ t2.getData = v := by
  obtain ⟨hb0, hd0⟩ := packtree_new_built w hw v k hlen
  have hb1 := built_traverse w costCalc k _ hb0
  obtain ⟨c, t2, hwalk, hb2, hd2⟩ := bestBasisWalk_built w k _ hb1
  obtain ⟨t3, hb3, hc3, _, _⟩ := bestBasis_built w costCalc v (2 ^ k)
  have ht : t2 = t3 := by
    simp only [bestBasis, hwalk, Option.map_some', Option.some.injEq] at hb3
    exact hb3
  subst ht
  exact ⟨t2, hb3, hc3, hb2, by rw [hd2, getData_traverse, hd0]⟩

theorem roundTrip_of_wavelet (fp : Rounding) (rev : List Int → Nat → List Int) (w : liftbase)
    (hw : w = line_int.wave fp rev ∨ w = haar_int.wave rev ∨ w = ts_trans_int.wave fp rev) :
    RoundTrip w := by
  rcases hw with h | h | h
  · rw [h]; exact roundTrip_line fp rev
  · rw [h]; exact roundTrip_haar rev
  · rw [h]; exact roundTrip_ts fp rev

/-- C18. Final state of the inverse transform: after all elements of the best basis
list of a tree built from `N = 2^k` samples (any cost function; Haar, line or TS
wavelet) have been consumed, exactly one container is on the stack, its left half
is the reconstructed data `v` of `N` elements and its right half is absent; the
constructor returns this left half through `getData` and leaves the stack empty.
This includes the case where the root is marked and the list is just the root. -/
theorem inverse_final_state (fp : Rounding) (rev : List Int → Nat → List Int) (w : liftbase)
    (hw : w = line_int.wave fp rev ∨ w = haar_int.wave rev ∨ w = ts_trans_int.wave fp rev)
    (costCalc : packnode → Int) (v : List Int) (k : Nat) (hlen : v.length = 2 ^ k) :
    ∃ t2, bestBasis (costbase_int.traverse costCalc (packtree_int.new v (2 ^ k) w)) = some t2 ∧
      invpacktree_int.addAll w (getBestBasisList t2) []
        = some [{ N := 2 ^ k * 2, lhs := some v, rhs := none }] ∧
      (∃ inv, invpacktree_int.new (getBestBasisList t2) w = some inv ∧
        inv.getData = some v ∧ inv.N = 2 ^ k ∧ inv.stack = []) ∧
      (t2.mark = true → getBestBasisList t2 = [t2]) := by
  have hrt := roundTrip_of_wavelet fp rev w hw
  obtain ⟨t2, hb, hc, hbt, hd⟩ := bestBasis_standard w hrt costCalc v k hlen
  refine ⟨t2, hb, ?_, ?_, ?_⟩
  · rw [addAll_of_built w hrt k t2 hbt hc, hd]
  · refine ⟨_, invpacktree_of_built w hrt k t2 hbt hc, ?_, rfl, rfl⟩
    simp [invpacktree_int.getData, hd]
  · intro hm
    cases t2 with
    | null => simp [packnode.mark] at hm
    | node k2 n d c m l r =>
      simp only [packnode.mark] at hm
      subst hm
      simp [getBestBasisList, buildBestBasisList]

theorem inverse_final_state_witness :
    ∃ t2, bestBasis (costbase_int.traverse costwidth.costCalc
        (packtree_int.new [0, 0, 2, 2] (2 ^ 2)
          (line_int.wave exactRounding (fun v _ => v)))) = some t2 ∧
      invpacktree_int.addAll (line_int.wave exactRounding (fun v _ => v))
          (getBestBasisList t2) []
        = some [{ N := 2 ^ 2 * 2, lhs := some [0, 0, 2, 2], rhs := none }] ∧
      (∃ inv, invpacktree_int.new (getBestBasisList t2)
          (line_int.wave exactRounding (fun v _ => v)) = some inv ∧
        inv.getData = some [0, 0, 2, 2] ∧ inv.N = 2 ^ 2 ∧ inv.stack = []) ∧
      (t2.mark = true → getBestBasisList t2 = [t2]) :=
  inverse_final_state exactRounding (fun v _ => v) _ (Or.inl rfl) costwidth.costCalc
    [0, 0, 2, 2] 2 rfl

/-- Counterexample to C19 as stated: the best basis list of the tree of
`[0, 0, 2, 2]` (line wavelet, bit-width cost) has three elements of lengths 2, 1, 1;
without its last element the loop ends with two containers on the stack, the top one
holding an unpaired element, and the constructor still returns data (the single
element `[-1]`) instead of failing. -/
theorem malformed_list_counterexample :
    ∃ t2, bestBasis (costwidth (packtree_int.new [0, 0, 2, 2] 4
        (line_int.wave exactRounding (fun v _ => v)))) = some t2 ∧
      (getBestBasisList t2).map packnode.length = [2, 1, 1] ∧
      invpacktree_int.addAll (line_int.wave exactRounding (fun v _ => v))
          (getBestBasisList t2).dropLast []
        = some [{ N := 2, lhs := some [-1], rhs := none },
                { N := 4, lhs := some [0, 2], rhs := none }] ∧
      invpacktree_int.new (getBestBasisList t2).dropLast
          (line_int.wave exactRounding (fun v _ => v))
        = some { stack := [{ N := 4, lhs := some [0, 2], rhs := none }],
                 data := some [-1], N := 1 } :=
  ⟨_, rfl, by decide, by decide, by decide⟩

/-- C19 (amended). No check at the end: whenever the loop over the list ends
without a failed assertion and with a container `tos` on top of the stack, the
constructor returns the left half of `tos` as data and half the length of `tos` as
`N`, whatever else is on the stack and whether or not the list was a basis. -/
theorem no_check_at_end (w : liftbase) (list : List packnode) (tos : packcontainer_int)
    (rest : List packcontainer_int)
    (h : invpacktree_int.addAll w list [] = some (tos :: rest)) :
    invpacktree_int.new list w = some { stack := rest, data := tos.lhs, N := tos.N / 2 }
    ∧ (invpacktree_int.new list w).map invpacktree_int.getData = some tos.lhs := by
  simp [invpacktree_int.new, h, invpacktree_int.getData]

theorem no_check_at_end_witness :
    invpacktree_int.new [packnode.new [0, 2] 2 .LowPass, packnode.new [-1] 1 .LowPass]
        (line_int.wave exactRounding (fun v _ => v))
      = some { stack := [{ N := 4, lhs := some [0, 2], rhs := none }],
               data := ({ N := 2, lhs := some [-1], rhs := none } : packcontainer_int).lhs,
               N := ({ N := 2, lhs := some [-1], rhs := none } : packcontainer_int).N / 2 }
    ∧ (invpacktree_int.new [packnode.new [0, 2] 2 .LowPass, packnode.new [-1] 1 .LowPass]
        (line_int.wave exactRounding (fun v _ => v))).map invpacktree_int.getData
      = some ({ N := 2, lhs := some [-1], rhs := none } : packcontainer_int).lhs :=
  no_check_at_end (line_int.wave exactRounding (fun v _ => v))
    [packnode.new [0, 2] 2 .LowPass, packnode.new [-1] 1 .LowPass]
    { N := 2, lhs := some [-1], rhs := none }
    [{ N := 4, lhs := some [0, 2], rhs := none }] (by decide)

/-! ### The index map of the container -/

theorem half_eq_div (n : Nat) : n >>> 1 = n / 2 := by
  rw [Nat.shiftRight_eq_div_pow, pow_one]

theorem get_ofNode (node : packnode) (i : Nat) (hi : i < 2 * (node.length >>> 1)) :
    (packcontainer_int.ofNode node).get i = node.get i := by
  rw [ofNode_halves]
  simp only [packcontainer_int.get, Option.getD_some, rd_map_range]
  by_cases h : i < node.length >>> 1
  · simp [h]
  · have h2 : i - node.length >>> 1 < node.length >>> 1 := by omega
    have h3 : i - node.length >>> 1 + node.length >>> 1 = i := by omega
    simp [h, h2, h3]

theorem take_eq_map_rd (d : List Int) (n : Nat) (h : n ≤ d.length) :
    d.take n = (List.range n).map (fun i => rd d i) := by
  apply ext_rd
  · simp [h]
  · intro k hk
    simp only [List.length_take] at hk
    have hk2 : k < n := by omega
    rw [rd_map_range]
    simp [hk2, rd, List.getD_eq_getElem?_getD, List.getElem?_take]

theorem drop_eq_map_rd (d : List Int) (n : Nat) (h : d.length = n + n) :
    d.drop n = (List.range n).map (fun i => rd d (i + n)) := by
  apply ext_rd
  · simp [h]
  · intro k hk
    simp only [List.length_drop] at hk
    have hk2 : k < n := by omega
    rw [rd_map_range, rd_drop]
    simp [hk2, Nat.add_comm]

/-- C20. Packet container index map: a logical index `i < N/2` refers to position
`i` of the left half and, for even `N`, an index `N/2 ≤ i < N` refers to position
`i - N/2` of the right half, which is below `N/2`; the assigning operator writes to
the same positions; and right after construction from a node of even length `N`,
`container[i] = node[i]` for every `i < N`, the left half being `node[0..N/2)` and
the right half `node[N/2..N)`. -/
theorem container_index_map :
    (∀ (c : packcontainer_int) (i : Nat), i < c.N / 2 →
        c.get i = rd (c.lhs.getD []) i ∧
        ∀ x, c.set i x = { c with lhs := c.lhs.map (fun l => wr l i x) })
    ∧ (∀ (c : packcontainer_int) (i : Nat), c.N % 2 = 0 → c.N / 2 ≤ i → i < c.N →
        i - c.N / 2 < c.N / 2 ∧
        c.get i = rd (c.rhs.getD []) (i - c.N / 2) ∧
        ∀ x, c.set i x = { c with rhs := c.rhs.map (fun r => wr r (i - c.N / 2) x) })
    ∧ (∀ (node : packnode) (i : Nat), node.length % 2 = 0 → i < node.length →
        (packcontainer_int.ofNode node).get i = node.get i)
    ∧ (∀ (node : packnode), node.length % 2 = 0 → node.getData.length = node.length →
        (packcontainer_int.ofNode node).N = node.length ∧
        (packcontainer_int.ofNode node).lhs = some (node.getData.take (node.length / 2)) ∧
        (packcontainer_int.ofNode node).rhs = some (node.getData.drop (node.length / 2))) := by
  refine ⟨?_, ?_, ?_, ?_⟩
  · intro c i hi
    have h : i < c.N >>> 1 := by rw [half_eq_div]; exact hi
    exact ⟨by simp [packcontainer_int.get, h], fun x => by simp [packcontainer_int.set, h]⟩
  · intro c i hev hle hlt
    have h : ¬ i < c.N / 2 := by omega
    refine ⟨by omega, ?_, fun x => ?_⟩
    · simp [packcontainer_int.get, h, half_eq_div]
    · simp [packcontainer_int.set, h, half_eq_div]
  · intro node i hev hi
    apply get_ofNode
    rw [half_eq_div]
    omega
  · intro node hev hd
    rw [ofNode_halves, half_eq_div]
    refine ⟨rfl, ?_, ?_⟩
    · simp only [packnode.get]
      rw [take_eq_map_rd _ _ (by omega)]
    · simp only [packnode.get]
      rw [drop_eq_map_rd _ _ (by omega)]

theorem container_index_map_witness :
    (packcontainer_int.ofNode (packnode.new [4, 6, 10, 12] 4 .LowPass)).get 3
      = (packnode.new [4, 6, 10, 12] 4 .LowPass).get 3
    ∧ (packcontainer_int.ofNode (packnode.new [4, 6, 10, 12] 4 .LowPass)).lhs
      = some ((packnode.new [4, 6, 10, 12] 4 .LowPass).getData.take
          ((packnode.new [4, 6, 10, 12] 4 .LowPass).length / 2))
    ∧ (3 - (packcontainer_int.ofNode (packnode.new [4, 6, 10, 12] 4 .LowPass)).N / 2
        < (packcontainer_int.ofNode (packnode.new [4, 6, 10, 12] 4 .LowPass)).N / 2) :=
  ⟨container_index_map.2.2.1 (packnode.new [4, 6, 10, 12] 4 .LowPass) 3 (by decide)
      (by decide),
    (container_index_map.2.2.2 (packnode.new [4, 6, 10, 12] 4 .LowPass) (by decide) rfl).2.1,
    (container_index_map.2.1 (packcontainer_int.ofNode (packnode.new [4, 6, 10, 12] 4 .LowPass))
      3 (by decide) (by decide) (by decide)).1⟩

/-! ## Boundary cases of the line and TS wavelets -/

/-- C21. Boundary extrapolation: in `line_int` and in `ts_trans_int` the point
extrapolated after the end is `2 * y2 - y1` (`new_n_plus1`) and the point
extrapolated before the start is `2 * y1 - y2` (`new_n_minus1`), that is twice
the nearest value minus the next nearest one.  For `N ≥ 4` the line predict value
at the last index `i = half - 1` is the rounded mean of `s[i]` and
`2 * s[i] - s[i-1]`; the line update value at index 0 uses `2 * d[0] - d[1]`, and
the TS interpolation uses `2 * s[0] - s[1]` at index 0 and
`2 * s[half-1] - s[half-2]` at the last index. -/
theorem boundary_extrapolation (fp : Rounding) (vec : List Int) (N : Nat) (hN : 4 ≤ N) :
    (∀ y1 y2 : Int, line_int.new_n_plus1 y1 y2 = 2 * y2 - y1
        ∧ line_int.new_n_minus1 y1 y2 = 2 * y1 - y2
        ∧ ts_trans_int.new_n_plus1 y1 y2 = 2 * y2 - y1
        ∧ ts_trans_int.new_n_minus1 y1 y2 = 2 * y1 - y2)
    ∧ line_int.predictVal fp vec N (N >>> 1) (N >>> 1 - 1)
        = fp.halfSum (rd vec (N >>> 1 - 1))
            (2 * rd vec (N >>> 1 - 1) - rd vec (N >>> 1 - 2))
    ∧ line_int.updateVal fp vec N (N >>> 1) 0
        = fp.quarterSum (2 * rd vec (N >>> 1) - rd vec (N >>> 1 + 1)) (rd vec (N >>> 1))
    ∧ (ts_trans_int.neighbours vec N (N >>> 1) 0).1 = 2 * rd vec 0 - rd vec 1
    ∧ (ts_trans_int.neighbours vec N (N >>> 1) (N >>> 1 - 1)).2
        = 2 * rd vec (N >>> 1 - 1) - rd vec (N >>> 1 - 2) := by
  have hh : N >>> 1 = N / 2 := half_eq_div N
  have h2 : 2 ≤ N / 2 := by omega
  have hN2 : N ≠ 2 := by omega
  refine ⟨fun y1 y2 => ⟨rfl, rfl, rfl, rfl⟩, ?_, ?_, ?_, ?_⟩
  · rw [hh]
    have e : N / 2 - 1 - 1 = N / 2 - 2 := by omega
    simp [line_int.predictVal, line_int.new_n_plus1, hN2, e]
  · rw [hh]
    have : N > 2 := by omega
    simp [line_int.updateVal, line_int.new_n_minus1, hN2, this]
  · simp [ts_trans_int.neighbours, ts_trans_int.new_n_minus1, hN2]
  · rw [hh]
    have e : N / 2 - 1 - 1 = N / 2 - 2 := by omega
    have h0 : N / 2 - 1 ≠ 0 := by omega
    simp [ts_trans_int.neighbours, ts_trans_int.new_n_plus1, hN2, h0, e]

/-- Witness for C21: the array `[1, 2, 4, 8]` with `N = 4`. -/
theorem boundary_extrapolation_witness :
    4 ≤ 4
    ∧ line_int.predictVal exactRounding [1, 2, 4, 8] 4 (4 >>> 1) (4 >>> 1 - 1)
        = exactRounding.halfSum (rd [1, 2, 4, 8] (4 >>> 1 - 1))
            (2 * rd [1, 2, 4, 8] (4 >>> 1 - 1) - rd [1, 2, 4, 8] (4 >>> 1 - 2)) :=
  ⟨by decide, (boundary_extrapolation exactRounding [1, 2, 4, 8] 4 (by decide)).2.1⟩

/-- C22. Line predict degenerates to Haar at `N = 2`: on every 2-element array
`[a, b]` the forward predict of `line_int` leaves `a` and replaces `b` by
`b - a` (the predicted value is the single even element `a`), which is exactly
the result of the forward predict of `haar_int`. -/
theorem line_predict_is_haar_at_two (fp : Rounding) (a b : Int) :
    line_int.predict fp [a, b] 2 .forward = [a, b - a]
    ∧ haar_int.predict [a, b] 2 .forward = [a, b - a]
    ∧ line_int.predictVal fp [a, b] 2 (2 >>> 1) 0 = a := by
  have h : 2 >>> 1 = 1 := by decide
  refine ⟨?_, ?_, ?_⟩
  · simp [line_int.predict, line_int.predictVal, forLoop, h, rd, wr]
  · simp [haar_int.predict, forLoop, h, rd, wr]
  · simp [line_int.predictVal, h, rd]

/-- C30. TS equals Haar at `N = 2`: when the interpolation expression of two equal
operands is 0 (as it is for the C++ expression, `(int)(0/4.0 + 0.5) = 0`), the
forward step of `ts_trans_int` on a 2-element array is the forward step of
`haar_int`, and likewise for the inverse step. -/
theorem ts_is_haar_at_two (fp : Rounding) (hfp : ∀ x, fp.quarterDiff x x = 0)
    (a b : Int) :
    ts_trans_int.forwardStep fp [a, b] 2 = haar_int.forwardStep [a, b] 2
    ∧ ts_trans_int.inverseStep fp [a, b] 2 = haar_int.inverseStep [a, b] 2
    ∧ ts_trans_int.predict2 fp [a, b] 2 .forward = [a, b]
    ∧ ts_trans_int.predict2 fp [a, b] 2 .inverse = [a, b] := by
  have h : 2 >>> 1 = 1 := by decide
  have p2 : ∀ (d : transDirection) (x y : Int),
      ts_trans_int.predict2 fp [x, y] 2 d = [x, y] := by
    intro d x y
    cases d <;>
      simp [ts_trans_int.predict2, ts_trans_int.neighbours, forLoop, h, rd, wr, hfp]
  have hu : ∀ (d : transDirection) (x y : Int),
      (haar_int.update [x, y] 2 d).length = 2 := by
    intro d x y
    cases d <;> simp [haar_int.update, forLoop, h, wr]
  refine ⟨?_, ?_, p2 _ _ _, p2 _ _ _⟩
  · have hs : split [a, b] 2 = [a, b] := by
      simp [split, h, rd, List.range_succ]
    have hp : haar_int.predict [a, b] 2 .forward = [a, b - a] := by
      simp [haar_int.predict, forLoop, h, rd, wr]
    have hq : haar_int.update [a, b - a] 2 .forward = [a + (b - a) >>> 1, b - a] := by
      simp [haar_int.update, forLoop, h, rd, wr]
    simp only [ts_trans_int.forwardStep, haar_int.forwardStep, hs, hp, hq, p2]
  · simp only [ts_trans_int.inverseStep, haar_int.inverseStep, p2]

/-- Witness for C30: the exactly evaluated expressions and the array `[5, 2]`. -/
theorem ts_is_haar_at_two_witness :
    (∀ x, exactRounding.quarterDiff x x = 0)
    ∧ ts_trans_int.forwardStep exactRounding [5, 2] 2 = haar_int.forwardStep [5, 2] 2 :=
  ⟨fun x => by show Int.tdiv (x - x + 2) 4 = 0; rw [sub_self]; decide,
   (ts_is_haar_at_two exactRounding
      (fun x => by show Int.tdiv (x - x + 2) 4 = 0; rw [sub_self]; decide) 5 2).1⟩

/-! ## Values of one integer Haar step -/

theorem rd_split (vec : List Int) (N k : Nat) :
    rd (split vec N) k
      = if k < N >>> 1 then rd vec (2 * k)
        else if k < 2 * (N >>> 1) then rd vec (2 * (k - N >>> 1) + 1)
        else rd vec k := by
  generalize hh : N >>> 1 = half at *
  simp only [split, hh, rd_append, rd_map_range, rd_drop, List.length_append,
    List.length_map, List.length_range]
  by_cases h1 : k < half
  · have h2 : k < half + half := by omega
    simp [h1, h2]
  · by_cases h2 : k < 2 * half
    · have h3 : k < half + half := by omega
      have h4 : k - half < half := by omega
      simp [h1, h2, h3, h4]
    · have h3 : ¬ k < half + half := by omega
      have h4 : 2 * half + (k - (half + half)) = k := by omega
      simp [h1, h2, h3, h4]

theorem rd_haar_update (vec : List Int) (N i : Nat) (d : transDirection)
    (h : 2 * (N >>> 1) ≤ vec.length) (hi : i < N >>> 1) :
    rd (haar_int.update vec N d) i
      = match d with
        | .forward => rd vec i + rd vec (i + N >>> 1) >>> 1
        | .inverse => rd vec i - rd vec (i + N >>> 1) >>> 1 := by
  rw [haar_update_eq, rd_loLoop _ _ _ _ (haar_update_hiDet _) h]
  cases d <;> simp [hi]

theorem rd_haar_forwardStep (v : List Int) (N i : Nat) (h : 2 * (N >>> 1) ≤ v.length)
    (hi : i < N >>> 1) :
    rd (haar_int.forwardStep v N) (i + N >>> 1) = rd v (2 * i + 1) - rd v (2 * i)
    ∧ rd (haar_int.forwardStep v N) i
        = rd v (2 * i) + (rd v (2 * i + 1) - rd v (2 * i)) >>> 1 := by
  have hs := length_split v N h
  have hp : ∀ k, rd (haar_int.predict (split v N) N .forward) k
      = if N >>> 1 ≤ k ∧ k < N >>> 1 + N >>> 1
        then rd (split v N) k - rd (split v N) (k - N >>> 1) else rd (split v N) k := by
    intro k
    rw [haar_predict_eq, rd_hiLoop _ _ _ _ (haar_predict_loDet _) (by omega)]
  have hpl := length_haar_predict (split v N) N .forward (by omega)
  have hu : ∀ k, rd (haar_int.forwardStep v N) k
      = if k < N >>> 1
        then rd (haar_int.predict (split v N) N .forward) k
          + rd (haar_int.predict (split v N) N .forward) (k + N >>> 1) >>> 1
        else rd (haar_int.predict (split v N) N .forward) k := by
    intro k
    unfold haar_int.forwardStep
    rw [haar_update_eq, rd_loLoop _ _ _ _ (haar_update_hiDet _) (by omega)]
  have hd : rd (haar_int.predict (split v N) N .forward) (i + N >>> 1)
      = rd v (2 * i + 1) - rd v (2 * i) := by
    rw [hp, rd_split, rd_split]
    have h1 : N >>> 1 ≤ i + N >>> 1 ∧ i + N >>> 1 < N >>> 1 + N >>> 1 := by omega
    have h2 : ¬ i + N >>> 1 < N >>> 1 := by omega
    have h3 : i + N >>> 1 < 2 * (N >>> 1) := by omega
    have h4 : i + N >>> 1 - N >>> 1 = i := by omega
    simp [h1, h2, h3, h4, hi]
  have hl : rd (haar_int.predict (split v N) N .forward) i = rd v (2 * i) := by
    rw [hp, rd_split]
    have h1 : ¬ (N >>> 1 ≤ i ∧ i < N >>> 1 + N >>> 1) := by omega
    simp [h1, hi]
  refine ⟨?_, ?_⟩
  · rw [hu]
    have h2 : ¬ i + N >>> 1 < N >>> 1 := by omega
    simp only [h2, if_false]
    exact hd
  · rw [hu]
    simp only [hi, if_true]
    rw [hl, hd]

theorem shiftRight_one_div (x : Int) : x >>> 1 = x / 2 := by
  cases x with
  | ofNat m =>
    have h := Int.shiftRight_coe_nat m 1
    rw [Nat.cast_one] at h
    rw [Int.ofNat_eq_coe, h, Nat.shiftRight_eq_div_pow, pow_one]
    omega
  | negSucc m =>
    have h := Int.shiftRight_negSucc m 1
    rw [Nat.cast_one] at h
    rw [h, Nat.shiftRight_eq_div_pow, pow_one, Int.negSucc_eq, Int.negSucc_eq]
    omega

theorem floor_half (x : Int) : ⌊(x : ℚ) / 2⌋ = x / 2 := by
  have h := Rat.floor_intCast_div_natCast x 2
  simpa using h

theorem shiftRight_one_floor (x : Int) : x >>> 1 = ⌊(x : ℚ) / 2⌋ := by
  rw [shiftRight_one_div, floor_half]

/-- C28. Integer Haar (S-transform) step values: for every integer array `v` of
even length `N = 2m` and every `i < m`, after the forward step of `haar_int` the
upper half holds `d_i = v[2i+1] - v[2i]` and the lower half holds
`v[2i] + floor(d_i / 2)`, which equals `floor((v[2i] + v[2i+1]) / 2)`; the floor
is the rational floor, also for negative differences. -/
theorem haar_step_values (v : List Int) (N i : Nat) (hlen : v.length = N)
    (heven : N % 2 = 0) (hi : i < N / 2) :
    rd (haar_int.forwardStep v N) (i + N / 2) = rd v (2 * i + 1) - rd v (2 * i)
    ∧ rd (haar_int.forwardStep v N) i
        = rd v (2 * i) + ⌊((rd v (2 * i + 1) - rd v (2 * i) : Int) : ℚ) / 2⌋
    ∧ rd (haar_int.forwardStep v N) i
        = ⌊((rd v (2 * i) + rd v (2 * i + 1) : Int) : ℚ) / 2⌋ := by
  have hh : N >>> 1 = N / 2 := half_eq_div N
  have h := rd_haar_forwardStep v N i (by rw [hh]; omega) (by rw [hh]; exact hi)
  rw [hh] at h
  refine ⟨h.1, ?_, ?_⟩
  · rw [h.2, shiftRight_one_floor]
  · rw [h.2, shiftRight_one_div, floor_half]
    omega

/-- Witness for C28: the array `[7, -3, 0, 12]`, a negative difference at
`i = 0`. -/
theorem haar_step_values_witness :
    rd (haar_int.forwardStep [7, -3, 0, 12] 4) (0 + 4 / 2)
        = rd [7, -3, 0, 12] (2 * 0 + 1) - rd [7, -3, 0, 12] (2 * 0)
    ∧ rd (haar_int.forwardStep [7, -3, 0, 12] 4) 0
        = ⌊((rd [7, -3, 0, 12] (2 * 0) + rd [7, -3, 0, 12] (2 * 0 + 1) : Int) : ℚ) / 2⌋ :=
  ⟨(haar_step_values [7, -3, 0, 12] 4 0 rfl (by decide) (by decide)).1,
   (haar_step_values [7, -3, 0, 12] 4 0 rfl (by decide) (by decide)).2.2⟩

/-! ## Rounding of the halves -/

theorem float32_round_small (x : Int) (h : x.natAbs < 2 ^ 24) : float32.round x = x := by
  unfold float32.round
  simp only [h, if_true]

theorem floatRounding_eq_exact (a b : Int) (ha : a.natAbs < 2 ^ 24) (hb : b.natAbs < 2 ^ 24) :
    ((a + b).natAbs < 2 ^ 24 → floatRounding.halfSum a b = exactRounding.halfSum a b
        ∧ floatRounding.quarterSum a b = exactRounding.quarterSum a b)
    ∧ ((a - b).natAbs < 2 ^ 24 → floatRounding.quarterDiff a b = exactRounding.quarterDiff a b)
    ∧ floatRounding.halfOf a = exactRounding.halfOf a := by
  refine ⟨fun hs => ⟨?_, ?_⟩, fun hd => ?_, ?_⟩
  · show Int.tdiv (float32.round (float32.round a + float32.round b) + 1) 2
        = Int.tdiv (a + b + 1) 2
    rw [float32_round_small a ha, float32_round_small b hb, float32_round_small _ hs]
  · show Int.tdiv (float32.round (float32.round a + float32.round b) + 2) 4
        = Int.tdiv (a + b + 2) 4
    rw [float32_round_small a ha, float32_round_small b hb, float32_round_small _ hs]
  · show Int.tdiv (float32.round (float32.round a - float32.round b) + 2) 4
        = Int.tdiv (a - b + 2) 4
    rw [float32_round_small a ha, float32_round_small b hb, float32_round_small _ hd]
  · show Int.tdiv (float32.round a + 1) 2 = Int.tdiv (a + 1) 2
    rw [float32_round_small a ha]

/-- C23 (counterexample). The halving of `line_int` is not a floor.  With the even
elements 0 and 1 (non-negative operands) the predicted value
`(int)(((float)0 + (float)1)/2.0 + 0.5)` is 1, whereas `floor((0 + 1)/2) = 0`;
with the even elements -1 and -1 it is `(int)(-1.0 + 0.5) = 0`, whereas
`floor(-2/2) = -1` and also `floor(-2/2 + 1/2) = -1`. -/
theorem line_halving_not_floor :
    line_int.predictVal floatRounding [0, 1, 0, 0] 4 (4 >>> 1) 0 = 1
    ∧ ⌊(((0 : Int) : ℚ) + ((1 : Int) : ℚ)) / 2⌋ = 0
    ∧ line_int.predictVal floatRounding [-1, -1, 0, 0] 4 (4 >>> 1) 0 = 0
    ∧ ⌊(((-1 : Int) : ℚ) + ((-1 : Int) : ℚ)) / 2⌋ = -1
    ∧ ⌊(((-1 : Int) : ℚ) + ((-1 : Int) : ℚ)) / 2 + 1 / 2⌋ = -1 := by
  refine ⟨by decide, ?_, by decide, ?_, ?_⟩
  · rw [Int.floor_eq_iff]; norm_num
  · rw [Int.floor_eq_iff]; norm_num
  · rw [Int.floor_eq_iff]; norm_num

theorem tdiv_two_floor (x : Int) (hx : -1 ≤ x) :
    Int.tdiv (x + 1) 2 = ⌊(x : ℚ) / 2 + 1 / 2⌋ := by
  have e : (x : ℚ) / 2 + 1 / 2 = ((x + 1 : Int) : ℚ) / 2 := by push_cast; ring
  rw [e, floor_half, Int.tdiv_eq_ediv (by omega) (by decide)]

theorem tdiv_four_floor (x : Int) (hx : -2 ≤ x) :
    Int.tdiv (x + 2) 4 = ⌊(x : ℚ) / 4 + 1 / 2⌋ := by
  have e : (x : ℚ) / 4 + 1 / 2 = ((x + 2 : Int) : ℚ) / ((4 : Nat) : ℚ) := by
    push_cast; ring
  rw [e, Rat.floor_intCast_div_natCast, Int.tdiv_eq_ediv (by omega) (by decide)]
  rfl

/-- C23 (amended). The halving of `haar_int::update`, which `ts_trans_int` uses as
well, is an arithmetic right shift and is the floor of the half for negative as
well as non-negative operands.  The halves of `line_int` are not floors of the
half: the expressions `(int)(x/2.0 + 0.5)` and `(int)(x/4.0 + 0.5)`, evaluated as
in the source on operands converted to `float`, add one half before the
conversion to `int`; when the operands and their sum `x` are below `2^24` in
magnitude (so that the conversions to `float` and the `float` sum are exact) and
`x ≥ -1` (`x ≥ -2` in the update), the value is `floor(x/2 + 1/2)`
(`floor(x/4 + 1/2)`), the half rounded to the nearest integer.  The bound on the
magnitudes is needed: for the operands 16777217 and 0 the source computes
8388608, not `floor(16777217/2 + 1/2) = 8388609`. -/
theorem halving_semantics :
    (∀ (vec : List Int) (N i : Nat), 2 * (N >>> 1) ≤ vec.length → i < N >>> 1 →
        rd (haar_int.update vec N .forward) i
            = rd vec i + ⌊(rd vec (i + N >>> 1) : ℚ) / 2⌋
        ∧ rd (haar_int.update vec N .inverse) i
            = rd vec i - ⌊(rd vec (i + N >>> 1) : ℚ) / 2⌋)
    ∧ (∀ (vec : List Int) (N half i : Nat), i < half - 1 →
        (rd vec i).natAbs < 2 ^ 24 → (rd vec (i + 1)).natAbs < 2 ^ 24 →
        (rd vec i + rd vec (i + 1)).natAbs < 2 ^ 24 →
        -1 ≤ rd vec i + rd vec (i + 1) →
        line_int.predictVal floatRounding vec N half i
            = ⌊((rd vec i : ℚ) + (rd vec (i + 1) : ℚ)) / 2 + 1 / 2⌋)
    ∧ (∀ (vec : List Int) (N half i : Nat), 0 < i →
        (rd vec (i + half - 1)).natAbs < 2 ^ 24 → (rd vec (i + half)).natAbs < 2 ^ 24 →
        (rd vec (i + half - 1) + rd vec (i + half)).natAbs < 2 ^ 24 →
        -2 ≤ rd vec (i + half - 1) + rd vec (i + half) →
        line_int.updateVal floatRounding vec N half i
            = ⌊((rd vec (i + half - 1) : ℚ) + (rd vec (i + half) : ℚ)) / 4 + 1 / 2⌋)
    ∧ (∀ a b : Int, a.natAbs < 2 ^ 24 → b.natAbs < 2 ^ 24 → (a + b).natAbs < 2 ^ 24 →
        -1 ≤ a + b →
        floatRounding.halfSum a b = ⌊((a : ℚ) + (b : ℚ)) / 2 + 1 / 2⌋)
    ∧ (∀ a : Int, a.natAbs < 2 ^ 24 → -1 ≤ a →
        floatRounding.halfOf a = ⌊(a : ℚ) / 2 + 1 / 2⌋)
    ∧ (∀ a b : Int, a.natAbs < 2 ^ 24 → b.natAbs < 2 ^ 24 → (a + b).natAbs < 2 ^ 24 →
        -2 ≤ a + b →
        floatRounding.quarterSum a b = ⌊((a : ℚ) + (b : ℚ)) / 4 + 1 / 2⌋)
    ∧ (floatRounding.halfSum 16777217 0 = 8388608
        ∧ ⌊(((16777217 : Int) : ℚ) + ((0 : Int) : ℚ)) / 2 + 1 / 2⌋ = 8388609) := by
  have hs : ∀ a b : Int, a.natAbs < 2 ^ 24 → b.natAbs < 2 ^ 24 → (a + b).natAbs < 2 ^ 24 →
      -1 ≤ a + b →
      floatRounding.halfSum a b = ⌊((a : ℚ) + (b : ℚ)) / 2 + 1 / 2⌋ := by
    intro a b ha hb hab h
    rw [((floatRounding_eq_exact a b ha hb).1 hab).1]
    have := tdiv_two_floor (a + b) h
    rw [Int.cast_add] at this
    exact this
  have hq : ∀ a b : Int, a.natAbs < 2 ^ 24 → b.natAbs < 2 ^ 24 → (a + b).natAbs < 2 ^ 24 →
      -2 ≤ a + b →
      floatRounding.quarterSum a b = ⌊((a : ℚ) + (b : ℚ)) / 4 + 1 / 2⌋ := by
    intro a b ha hb hab h
    rw [((floatRounding_eq_exact a b ha hb).1 hab).2]
    have := tdiv_four_floor (a + b) h
    rw [Int.cast_add] at this
    exact this
  refine ⟨fun vec N i h hi => ⟨?_, ?_⟩, fun vec N half i hi ha hb hab h => ?_,
    fun vec N half i hi ha hb hab h => ?_, hs, fun a ha h => ?_, hq, by decide, ?_⟩
  · rw [rd_haar_update vec N i .forward h hi, shiftRight_one_floor]
  · rw [rd_haar_update vec N i .inverse h hi, shiftRight_one_floor]
  · rw [← hs _ _ ha hb hab h]
    simp [line_int.predictVal, hi]
  · rw [← hq _ _ ha hb hab h]
    have h0 : i ≠ 0 := by omega
    simp [line_int.updateVal, h0]
  · rw [(floatRounding_eq_exact a a ha ha).2.2]
    exact tdiv_two_floor a h
  · rw [Int.floor_eq_iff]; norm_num

/-- Witness for C23 (amended): the arrays `[4, 9, -7, 3]` (Haar update with a
negative operand) and `[0, 1, 0, 0]` (line predict). -/
theorem halving_semantics_witness :
    (2 * (4 >>> 1) ≤ [4, 9, -7, 3].length ∧ 0 < 4 >>> 1
      ∧ rd (haar_int.update [4, 9, -7, 3] 4 .forward) 0
          = rd [4, 9, -7, 3] 0 + ⌊(rd [4, 9, -7, 3] (0 + 4 >>> 1) : ℚ) / 2⌋)
    ∧ (0 < 2 - 1 ∧ (rd [0, 1, 0, 0] 0).natAbs < 2 ^ 24
      ∧ (rd [0, 1, 0, 0] (0 + 1)).natAbs < 2 ^ 24
      ∧ (rd [0, 1, 0, 0] 0 + rd [0, 1, 0, 0] (0 + 1)).natAbs < 2 ^ 24
      ∧ -1 ≤ rd [0, 1, 0, 0] 0 + rd [0, 1, 0, 0] (0 + 1)
      ∧ line_int.predictVal floatRounding [0, 1, 0, 0] 4 2 0
          = ⌊((rd [0, 1, 0, 0] 0 : ℚ) + (rd [0, 1, 0, 0] (0 + 1) : ℚ)) / 2 + 1 / 2⌋) :=
  ⟨⟨by decide, by decide,
      (halving_semantics.1 [4, 9, -7, 3] 4 0 (by decide) (by decide)).1⟩,
   ⟨by decide, by decide, by decide, by decide, by decide,
      halving_semantics.2.1 [0, 1, 0, 0] 4 2 0 (by decide) (by decide) (by decide) (by decide)
        (by decide)⟩⟩

/-! ## The bit width estimate and the documented TS interpolation -/

/-- C26. The bit-width estimate is not the minimal sign and magnitude width: for
the one-element array `[3]` the function `vecWidth` returns 4, and `valWidth`
gives 4 bits to 3, to -3 and to 4 alike, although the magnitude 3 is written with
two binary digits (`3 < 2^2`), so that a sign bit and two digits, 3 bits, are
enough for 3 and for -3. -/
theorem vecWidth_not_minimal :
    support.vecWidth [3] 1 = 4
    ∧ support.valWidth 3 = 4
    ∧ support.valWidth (-3) = 4
    ∧ support.valWidth 4 = 4
    ∧ (3 : Int).natAbs < 2 ^ 2
    ∧ (-3 : Int).natAbs < 2 ^ 2
    ∧ 2 ^ 2 ≤ (4 : Int).natAbs ∧ (4 : Int).natAbs < 2 ^ 3 := by
  decide

/-- C29. The TS interpolation step does not follow its documented equation on
`[0, 0, 0, 0, 3, 3, 0, 0]` (`N = 8`, interior index `i = 1`): after the Haar part
the lower half is `s = [0, 0, 3, 0]` and `d1[1] = 0`; the documented term
`floor((s[0] - s[2])/4.0 + 0.5) = floor(-0.25)` is -1, so the documented
coefficient is -1, whereas `predict2` leaves `d[1] = 0`, because the conversion to
`int` truncates -0.25 to 0. -/
theorem ts_predict2_not_documented_floor :
    rd (haar_int.forwardStep [0, 0, 0, 0, 3, 3, 0, 0] 8) 0 = 0
    ∧ rd (haar_int.forwardStep [0, 0, 0, 0, 3, 3, 0, 0] 8) 2 = 3
    ∧ rd (haar_int.forwardStep [0, 0, 0, 0, 3, 3, 0, 0] 8) (1 + 8 / 2) = 0
    ∧ ts_trans_int.documentedTerm 0 3 = -1
    ∧ exactRounding.quarterDiff 0 3 = 0
    ∧ rd (ts_trans_int.forwardStep exactRounding [0, 0, 0, 0, 3, 3, 0, 0] 8) (1 + 8 / 2) = 0
    ∧ rd (ts_trans_int.forwardStep exactRounding [0, 0, 0, 0, 3, 3, 0, 0] 8) (1 + 8 / 2)
        ≠ rd (haar_int.forwardStep [0, 0, 0, 0, 3, 3, 0, 0] 8) (1 + 8 / 2)
            + ts_trans_int.documentedTerm
                (rd (haar_int.forwardStep [0, 0, 0, 0, 3, 3, 0, 0] 8) 0)
                (rd (haar_int.forwardStep [0, 0, 0, 0, 3, 3, 0, 0] 8) 2) := by
  have hd : ts_trans_int.documentedTerm 0 3 = -1 := by
    unfold ts_trans_int.documentedTerm
    rw [Int.floor_eq_iff]; norm_num
  have h0 : rd (haar_int.forwardStep [0, 0, 0, 0, 3, 3, 0, 0] 8) 0 = 0 := by decide
  have h2 : rd (haar_int.forwardStep [0, 0, 0, 0, 3, 3, 0, 0] 8) 2 = 3 := by decide
  have h5 : rd (haar_int.forwardStep [0, 0, 0, 0, 3, 3, 0, 0] 8) (1 + 8 / 2) = 0 := by decide
  have ht : rd (ts_trans_int.forwardStep exactRounding [0, 0, 0, 0, 3, 3, 0, 0] 8) (1 + 8 / 2)
      = 0 := by decide
  refine ⟨h0, h2, h5, hd, by decide, ht, ?_⟩
  rw [ht, h5, h0, h2, hd]
  decide

/-! ## The delta transform -/

theorem delta_forward_run (v : List Int) (n : Nat) :
    (forLoop n (fun k (s : List Int × Int) =>
        (wr s.1 (k + 1) (rd s.1 (k + 1) - s.2), rd s.1 (k + 1))) (v, rd v 0)).1.length
      = v.length
    ∧ (forLoop n (fun k (s : List Int × Int) =>
        (wr s.1 (k + 1) (rd s.1 (k + 1) - s.2), rd s.1 (k + 1))) (v, rd v 0)).2 = rd v n
    ∧ ∀ k, rd (forLoop n (fun k (s : List Int × Int) =>
        (wr s.1 (k + 1) (rd s.1 (k + 1) - s.2), rd s.1 (k + 1))) (v, rd v 0)).1 k
      = if 1 ≤ k ∧ k ≤ n ∧ k < v.length then rd v k - rd v (k - 1) else rd v k := by
  induction n with
  | zero =>
    refine ⟨rfl, rfl, fun k => ?_⟩
    have : ¬ (1 ≤ k ∧ k ≤ 0 ∧ k < v.length) := by omega
    simp only [forLoop]
    rw [if_neg this]
  | succ n ih =>
    obtain ⟨ihl, ihr, ihk⟩ := ih
    have hn1 : ¬ (1 ≤ n + 1 ∧ n + 1 ≤ n ∧ n + 1 < v.length) := by omega
    refine ⟨by simp [forLoop, length_wr, ihl], ?_, fun k => ?_⟩
    · simp only [forLoop]
      rw [ihk (n + 1)]
      simp [hn1]
    · simp only [forLoop]
      rw [rd_wr, ihl, ihr, ihk (n + 1), ihk k]
      simp only [hn1, if_false]
      by_cases hk : k = n + 1
      · subst hk
        by_cases hlt : n + 1 < v.length
        · have h1 : 1 ≤ n + 1 ∧ n + 1 ≤ n + 1 ∧ n + 1 < v.length := by omega
          simp [hlt, h1]
        · have h1 : ¬ (1 ≤ n + 1 ∧ n + 1 ≤ n + 1 ∧ n + 1 < v.length) := by omega
          simp [hlt, h1, hn1]
      · have h1 : ¬ (k = n + 1 ∧ n + 1 < v.length) := fun h => hk h.1
        simp only [h1, if_false]
        by_cases h2 : 1 ≤ k ∧ k ≤ n ∧ k < v.length
        · have h3 : 1 ≤ k ∧ k ≤ n + 1 ∧ k < v.length := by omega
          simp [h2, h3]
        · have h3 : ¬ (1 ≤ k ∧ k ≤ n + 1 ∧ k < v.length) := by omega
          simp [h2, h3]

theorem delta_inverse_run (v f : List Int) (hl : f.length = v.length)
    (h0 : rd f 0 = rd v 0)
    (hf : ∀ k, 1 ≤ k → k < v.length → rd f k = rd v k - rd v (k - 1)) (n : Nat)
    (hn : n + 1 ≤ v.length) :
    (forLoop n (fun k vec => wr vec (k + 1) (rd vec (k + 1) + rd vec (k + 1 - 1))) f).length
      = v.length
    ∧ ∀ k, rd (forLoop n (fun k vec =>
        wr vec (k + 1) (rd vec (k + 1) + rd vec (k + 1 - 1))) f) k
      = if k ≤ n then rd v k else rd f k := by
  induction n with
  | zero =>
    refine ⟨hl, fun k => ?_⟩
    by_cases hk : k ≤ 0
    · have : k = 0 := by omega
      subst this
      simp [forLoop, h0]
    · simp [forLoop, hk]
  | succ n ih =>
    obtain ⟨ihl, ihk⟩ := ih (by omega)
    refine ⟨by simp only [forLoop, length_wr]; exact ihl, fun k => ?_⟩
    simp only [forLoop]
    rw [rd_wr, ihl, ihk (n + 1), ihk (n + 1 - 1), ihk k]
    have h1 : ¬ n + 1 ≤ n := by omega
    have h2 : n + 1 - 1 ≤ n := by omega
    have h3 : n + 1 - 1 = n := by omega
    simp only [h1, h2, if_false, if_true]
    by_cases hk : k = n + 1
    · subst hk
      have h4 : n + 1 = n + 1 ∧ n + 1 < v.length := ⟨rfl, by omega⟩
      rw [hf (n + 1) (by omega) (by omega), h3]
      simp [h4]
    · have h4 : ¬ (k = n + 1 ∧ n + 1 < v.length) := fun h => hk h.1
      simp only [h4, if_false]
      by_cases h5 : k ≤ n
      · have h6 : k ≤ n + 1 := by omega
        simp [h5, h6]
      · have h6 : ¬ k ≤ n + 1 := by omega
        simp [h5, h6]

theorem delta_forward_spec (v : List Int) :
    (delta_trans.forward v v.length).length = v.length
    ∧ ∀ k, rd (delta_trans.forward v v.length) k
        = if 1 ≤ k ∧ k < v.length then rd v k - rd v (k - 1) else rd v k := by
  unfold delta_trans.forward
  by_cases hpos : v.length > 0
  · simp only [hpos, if_true]
    obtain ⟨hl, _, hk⟩ := delta_forward_run v (v.length - 1)
    refine ⟨hl, fun k => ?_⟩
    rw [hk k]
    by_cases h1 : 1 ≤ k ∧ k < v.length
    · have h2 : 1 ≤ k ∧ k ≤ v.length - 1 ∧ k < v.length := by omega
      simp [h1, h2]
    · have h2 : ¬ (1 ≤ k ∧ k ≤ v.length - 1 ∧ k < v.length) := by omega
      simp [h1, h2]
  · rw [if_neg hpos]
    refine ⟨rfl, fun k => ?_⟩
    have : ¬ (1 ≤ k ∧ k < v.length) := by omega
    rw [if_neg this]

/-- C27. Delta transform round trip: for every integer array `v` of any length
(0 and 1 included) `delta_trans::inverse` applied to `delta_trans::forward` of `v`
returns exactly `v`; the forward transform keeps the length and `v[0]` and
replaces every `v[i]`, `i ≥ 1`, by `v[i] - v[i-1]` computed from the original
values. -/
theorem delta_round_trip (v : List Int) :
    delta_trans.inverse (delta_trans.forward v v.length) v.length = v
    ∧ (delta_trans.forward v v.length).length = v.length
    ∧ rd (delta_trans.forward v v.length) 0 = rd v 0
    ∧ ∀ i, 1 ≤ i → i < v.length →
        rd (delta_trans.forward v v.length) i = rd v i - rd v (i - 1) := by
  obtain ⟨hl, hk⟩ := delta_forward_spec v
  have h0 : rd (delta_trans.forward v v.length) 0 = rd v 0 := by
    rw [hk 0]; simp
  have hf : ∀ i, 1 ≤ i → i < v.length →
      rd (delta_trans.forward v v.length) i = rd v i - rd v (i - 1) := by
    intro i h1 h2
    rw [hk i]
    simp [h1, h2]
  refine ⟨?_, hl, h0, hf⟩
  unfold delta_trans.inverse
  by_cases hpos : v.length > 0
  · simp only [hpos, if_true]
    obtain ⟨il, ik⟩ := delta_inverse_run v _ hl h0 hf (v.length - 1) (by omega)
    apply ext_rd _ _ il
    intro k hkl
    rw [il] at hkl
    rw [ik k]
    have : k ≤ v.length - 1 := by omega
    simp [this]
  · simp only [hpos, if_false]
    have : v = [] := List.length_eq_zero.mp (by omega)
    subst this
    rfl

/-- Witness for C27: the array `[5, 3, 9, -2]`, whose differences are
`[5, -2, 6, -11]`. -/
theorem delta_round_trip_witness :
    delta_trans.inverse (delta_trans.forward [5, 3, 9, -2] 4) 4 = [5, 3, 9, -2]
    ∧ delta_trans.forward [5, 3, 9, -2] 4 = [5, -2, 6, -11]
    ∧ rd (delta_trans.forward [5, 3, 9, -2] 4) 2 = rd [5, 3, 9, -2] 2 - rd [5, 3, 9, -2] (2 - 1) :=
  ⟨(delta_round_trip [5, 3, 9, -2]).1, by decide,
   (delta_round_trip [5, 3, 9, -2]).2.2.2 2 (by decide) (by decide)⟩

/-! ## Filter placement by tree position -/

theorem ofNode_congr (x y : packnode) (hl : x.length = y.length)
    (hd : x.getData = y.getData) :
    packcontainer_int.ofNode x = packcontainer_int.ofNode y := by
  rw [ofNode_halves, ofNode_halves]
  simp only [packnode.get, hl, hd]

theorem newLevelAux_stepTree (w : liftbase) (f : Bool) (bound : Nat) :
    ∀ (k : transformKind) (len : Nat) (d : List Int) (c : Int) (m rev : Bool),
      StepTree w f rev (newLevelAux w bound (.node k len d c m .null .null) f rev) := by
  induction bound with
  | zero =>
    intro k len d c m rev
    exact Or.inl ⟨rfl, rfl⟩
  | succ b ih =>
    intro k len d c m rev
    by_cases hlen : len > 1
    · have hstep : (if rev = true
            then (packcontainer_int.ofNode (.node k len d c m .null .null)).step
              w.forwardStepRev len
            else (packcontainer_int.ofNode (.node k len d c m .null .null)).step
              w.forwardStep len)
          = (packcontainer_int.ofNode (.node k len d c m .null .null)).step
              (stepOf w rev) len := by
        cases rev <;> rfl
      simp only [newLevelAux, hlen, if_true, hstep, packnode.new, packnode.setMark,
        packnode.getKind, packnode.length, packnode.getData, packnode.cost, packnode.mark]
      refine Or.inr ⟨?_, ?_, ?_, ?_⟩
      · rw [getData_newLevelAux, getData_node]
        rw [ofNode_congr (.node k len d c false _ _) (.node k len d c m .null .null) rfl rfl]
      · have e : ∀ t1 t2 : packnode, (if f = true then t1 else t2).getData
            = if f = true then t1.getData else t2.getData := by
          intro t1 t2; cases f <;> rfl
        rw [e, getData_newLevelAux, getData_newLevelAux, getData_node, ite_self]
        rw [ofNode_congr (.node k len d c false _ _) (.node k len d c m .null .null) rfl rfl]
      · exact ih _ _ _ _ _ _
      · cases f
        · exact ih _ _ _ _ _ _
        · exact ih _ _ _ _ _ _
    · simp only [newLevelAux, hlen, if_false]
      exact Or.inl ⟨rfl, rfl⟩

theorem reverseAt_cons (f rev b : Bool) (p : List Bool) :
    reverseAt f rev (b :: p) = reverseAt f (f && b) p := by
  cases p with
  | nil => rfl
  | cons c q =>
    cases h : (c :: q).getLast? with
    | none => simp at h
    | some x => simp only [reverseAt, List.getLast?_cons_cons, h]

theorem isInternal_sub_null (p : List Bool) : (packnode.sub .null p).isInternal = false := by
  rw [sub_null]; rfl

theorem stepTree_sub (w : liftbase) (f : Bool) :
    ∀ (p : List Bool) (rev : Bool) (t : packnode), StepTree w f rev t →
      (t.sub p).isInternal = true →
      (t.sub p).lhsChild.getData
          = (((packcontainer_int.ofNode (t.sub p)).step
              (stepOf w (reverseAt f rev p)) (t.sub p).length).lhs).getD []
      ∧ (t.sub p).rhsChild.getData
          = (((packcontainer_int.ofNode (t.sub p)).step
              (stepOf w (reverseAt f rev p)) (t.sub p).length).rhs).getD [] := by
  intro p
  induction p with
  | nil =>
    intro rev t ht hint
    cases t with
    | null => exact absurd hint (by decide)
    | node k n d c m l r =>
      rcases ht with ⟨hl, hr⟩ | ⟨h1, h2, _, _⟩
      · subst hl; subst hr
        simp [packnode.sub, packnode.isInternal, packnode.lhsChild, packnode.isNull] at hint
      · exact ⟨h1, h2⟩
  | cons b p ih =>
    intro rev t ht hint
    cases t with
    | null =>
      rw [isInternal_sub_null] at hint
      exact absurd hint (by decide)
    | node k n d c m l r =>
      rcases ht with ⟨hl, hr⟩ | ⟨_, _, h3, h4⟩
      · subst hl; subst hr
        cases b <;>
          · simp only [packnode.sub, packnode.lhsChild, packnode.rhsChild] at hint
            rw [isInternal_sub_null] at hint
            exact absurd hint (by decide)
      · rw [reverseAt_cons]
        cases b
        · have e : (f && false) = false := by cases f <;> rfl
          rw [e]
          exact ih false l h3 hint
        · have e : (f && true) = f := by cases f <;> rfl
          rw [e]
          exact ih f r h4 hint

theorem stepOf_reverseAt (w : liftbase) (f : Bool) (p : List Bool) :
    stepOf w (reverseAt f false p)
      = if (f && (p.getLast? == some true)) = true then w.forwardStepRev
        else w.forwardStep := by
  unfold reverseAt stepOf
  cases h : p.getLast? with
  | none => simp
  | some b => cases b <;> cases f <;> simp

/-- C24. Filter placement by tree position: in the tree that `newLevel` builds
below a root, the children of every internal node hold the two halves of a step
run on the container of that node; this step is the reversed-filter step
`forwardStepRev` exactly when `freqCalc` is set and the node is a right child
(its path ends with a step to the right), and the standard `forwardStep` for the
root, for every left child, and for every node when `freqCalc` is not set. -/
theorem filter_placement (w : liftbase) (freqCalc : Bool) (k : transformKind) (n : Nat)
    (d : List Int) (c : Int) (m : Bool) (p : List Bool) (x : packnode)
    (hx : x = (newLevel w (.node k n d c m .null .null) freqCalc false).sub p)
    (hint : x.isInternal = true) :
    x.lhsChild.getData
        = (((packcontainer_int.ofNode x).step
            (if (freqCalc && (p.getLast? == some true)) = true then w.forwardStepRev
             else w.forwardStep) x.length).lhs).getD []
    ∧ x.rhsChild.getData
        = (((packcontainer_int.ofNode x).step
            (if (freqCalc && (p.getLast? == some true)) = true then w.forwardStepRev
             else w.forwardStep) x.length).rhs).getD [] := by
  subst hx
  rw [← stepOf_reverseAt]
  exact stepTree_sub w freqCalc p false _ (newLevelAux_stepTree w freqCalc _ _ _ _ _ _ _) hint

/-- Witness for C24: the Haar tree over `[1, 2, 3, 4]` built with `freqCalc` set
and a reversed step that exchanges the halves; the right child of the root is an
internal node. -/
theorem filter_placement_witness :
    ((newLevel (haar_int.wave (fun v n =>
          (haar_int.forwardStep v n).drop (n / 2) ++ (haar_int.forwardStep v n).take (n / 2)))
        (.node .OriginalData 4 [1, 2, 3, 4] 0 true .null .null) true false).sub
          [true]).isInternal = true
    ∧ ((newLevel (haar_int.wave (fun v n =>
          (haar_int.forwardStep v n).drop (n / 2) ++ (haar_int.forwardStep v n).take (n / 2)))
        (.node .OriginalData 4 [1, 2, 3, 4] 0 true .null .null) true false).sub
          [true]).lhsChild.getData
      = (((packcontainer_int.ofNode ((newLevel (haar_int.wave (fun v n =>
          (haar_int.forwardStep v n).drop (n / 2) ++ (haar_int.forwardStep v n).take (n / 2)))
        (.node .OriginalData 4 [1, 2, 3, 4] 0 true .null .null) true false).sub [true])).step
          (if (true && ([true].getLast? == some true)) = true
            then (haar_int.wave (fun v n =>
              (haar_int.forwardStep v n).drop (n / 2)
                ++ (haar_int.forwardStep v n).take (n / 2))).forwardStepRev
            else (haar_int.wave (fun v n =>
              (haar_int.forwardStep v n).drop (n / 2)
                ++ (haar_int.forwardStep v n).take (n / 2))).forwardStep)
          ((newLevel (haar_int.wave (fun v n =>
          (haar_int.forwardStep v n).drop (n / 2) ++ (haar_int.forwardStep v n).take (n / 2)))
        (.node .OriginalData 4 [1, 2, 3, 4] 0 true .null .null) true false).sub
          [true]).length).lhs).getD [] :=
  ⟨by decide,
   (filter_placement _ true .OriginalData 4 [1, 2, 3, 4] 0 true [true] _ rfl (by decide)).1⟩

/-! ## The classic Haar step and its reversed form -/

theorem nearestPower2_loop (val : Nat) (hval : val ≤ 2 ^ 31) :
    ∀ (bound e : Nat), 32 ≤ e + bound → (e = 0 ∨ 2 ^ (e - 1) < val) →
      ∃ w, support.nearestPower2Width_.loop val bound (2 ^ e, e + 1) = (2 ^ w, w + 1)
        ∧ val ≤ 2 ^ w ∧ ∀ w2, val ≤ 2 ^ w2 → w ≤ w2 := by
  have least : ∀ e : Nat, (e = 0 ∨ 2 ^ (e - 1) < val) → ∀ w2, val ≤ 2 ^ w2 → e ≤ w2 := by
    intro e he w2 hw2
    rcases he with he | he
    · omega
    · by_contra hlt
      have h1 : w2 ≤ e - 1 := by omega
      have h2 : 2 ^ w2 ≤ 2 ^ (e - 1) := Nat.pow_le_pow_right (by decide) h1
      omega
  have big : ∀ e : Nat, 31 ≤ e → val ≤ 2 ^ e := by
    intro e he
    have : 2 ^ 31 ≤ 2 ^ e := Nat.pow_le_pow_right (by decide) he
    omega
  intro bound
  induction bound with
  | zero =>
    intro e hb he
    exact ⟨e, rfl, big e (by omega), least e he⟩
  | succ b ih =>
    intro e hb he
    by_cases hc : 2 ^ e < val ∧ e + 1 < 32
    · have hstep : support.nearestPower2Width_.loop val (b + 1) (2 ^ e, e + 1)
          = support.nearestPower2Width_.loop val b (2 ^ (e + 1), e + 1 + 1) := by
        simp only [support.nearestPower2Width_.loop, hc, and_self, if_true,
          Nat.shiftLeft_eq, pow_succ, pow_zero, Nat.one_mul]
      rw [hstep]
      exact ih (e + 1) (by omega) (Or.inr (by simpa using hc.1))
    · have hstep : support.nearestPower2Width_.loop val (b + 1) (2 ^ e, e + 1)
          = (2 ^ e, e + 1) := by
        simp only [support.nearestPower2Width_.loop, hc, if_false]
      refine ⟨e, hstep, ?_, least e he⟩
      by_cases h1 : 2 ^ e < val
      · exact big e (by omega)
      · omega

theorem valWidth_natAbs (v : Int) :
    support.valWidth v = 1 + support.nearestPower2Width_ v.natAbs := by
  unfold support.valWidth
  by_cases h : v < 0
  · have : (-v).toNat = v.natAbs := by omega
    simp only [h, if_true, this]
  · have : v.toNat = v.natAbs := by omega
    simp only [h, if_false, this]

theorem vecWidth_run (vec : List Int) (n : Nat) :
    forLoop n (fun i totalWidth => totalWidth + support.valWidth (rd vec i)) 0
      = ((List.range n).map (fun i => support.valWidth (rd vec i))).sum := by
  induction n with
  | zero => rfl
  | succ n ih =>
    simp only [forLoop, ih, List.range_succ, List.map_append, List.sum_append, List.map_cons,
      List.map_nil, List.sum_cons, List.sum_nil, Nat.add_zero]

theorem vecWidth_eq_sum (a : List Int) :
    support.vecWidth a a.length = (a.map support.valWidth).sum := by
  unfold support.vecWidth
  rw [vecWidth_run]
  congr 1
  apply List.ext_getElem
  · simp
  · intro i h1 h2
    simp only [List.length_map, List.length_range] at h1
    simp [rd_of_lt a i h1]

/-- C40. What `valWidth` computes: `valWidth 0 = 1`, `valWidth (-v) = valWidth v`,
and for `1 ≤ |v| ≤ 2^31` the value is `2 + w` with `w` the least natural number
such that `2^w ≥ |v|` (so 1, 2, 3, 4 get 2, 3, 4, 4 bits); `vecWidth` is the sum
of `valWidth` over the elements and is additive over the concatenation of
arrays. -/
theorem valWidth_formula :
    support.valWidth 0 = 1
    ∧ (∀ v : Int, support.valWidth (-v) = support.valWidth v)
    ∧ (∀ v : Int, 1 ≤ v.natAbs → v.natAbs ≤ 2 ^ 31 →
        ∃ w, support.valWidth v = 2 + w ∧ v.natAbs ≤ 2 ^ w
          ∧ ∀ w2, v.natAbs ≤ 2 ^ w2 → w ≤ w2)
    ∧ support.valWidth 1 = 2 ∧ support.valWidth 2 = 3
    ∧ support.valWidth 3 = 4 ∧ support.valWidth 4 = 4
    ∧ (∀ (vec : List Int) (N : Nat),
        support.vecWidth vec N
          = ((List.range N).map (fun i => support.valWidth (rd vec i))).sum)
    ∧ (∀ a : List Int, support.vecWidth a a.length = (a.map support.valWidth).sum)
    ∧ (∀ a b : List Int,
        support.vecWidth (a ++ b) (a.length + b.length)
          = support.vecWidth a a.length + support.vecWidth b b.length) := by
  refine ⟨by decide, fun v => ?_, fun v h1 h2 => ?_, by decide, by decide, by decide,
    by decide, fun vec N => vecWidth_run vec N, vecWidth_eq_sum, fun a b => ?_⟩
  · rw [valWidth_natAbs, valWidth_natAbs, Int.natAbs_neg]
  · obtain ⟨w, hw, hle, hleast⟩ := nearestPower2_loop v.natAbs h2 32 0 (by decide) (Or.inl rfl)
    refine ⟨w, ?_, hle, hleast⟩
    rw [valWidth_natAbs]
    have hpos : v.natAbs > 0 := by omega
    simp only [support.nearestPower2Width_, hpos, if_true]
    have hw2 : support.nearestPower2Width_.loop v.natAbs 32 (1, 1) = (2 ^ w, w + 1) := hw
    rw [hw2]
    omega
  · have h := vecWidth_eq_sum (a ++ b)
    rw [List.length_append] at h
    rw [h, vecWidth_eq_sum, vecWidth_eq_sum, List.map_append, List.sum_append]

/-- Witness for C40: the value 5, for which `w = 3` and the width is 5. -/
theorem valWidth_formula_witness :
    1 ≤ (5 : Int).natAbs ∧ (5 : Int).natAbs ≤ 2 ^ 31
    ∧ ∃ w, support.valWidth 5 = 2 + w ∧ (5 : Int).natAbs ≤ 2 ^ w
        ∧ ∀ w2, (5 : Int).natAbs ≤ 2 ^ w2 → w ≤ w2 :=
  ⟨by decide, by decide, valWidth_formula.2.2.1 5 (by decide) (by decide)⟩

/-! ## Round trip of the classic Haar step and of its reversed form -/

theorem cleanTree_true_mark (t : packnode) (p : List Bool) :
    ((cleanTree t true).sub p).mark = false := by
  induction p generalizing t with
  | nil =>
    cases t with
    | null => rfl
    | node k n d c m l r => cases m <;> rfl
  | cons b p ih =>
    cases t with
    | null => simp only [cleanTree]; rw [sub_null]; rfl
    | node k n d c m l r =>
      cases b
      · exact ih l
      · exact ih r

theorem cleanTree_node_false (k : transformKind) (n : Nat) (d : List Int) (c : Int)
    (m : Bool) (l r : packnode) :
    cleanTree (.node k n d c m l r) false = .node k n d c m (cleanTree l m) (cleanTree r m) := by
  cases m <;> rfl

theorem cleanTree_below_marked (t : packnode) (p q : List Bool)
    (hm : ((cleanTree t false).sub p).mark = true) (hq : q ≠ []) :
    ((cleanTree t false).sub (p ++ q)).mark = false := by
  induction p generalizing t with
  | nil =>
    cases t with
    | null => exact absurd hm (by decide)
    | node k n d c m l r =>
      rw [cleanTree_node_false] at hm ⊢
      have hmt : m = true := hm
      subst hmt
      cases q with
      | nil => exact absurd rfl hq
      | cons b q =>
        cases b
        · exact cleanTree_true_mark l q
        · exact cleanTree_true_mark r q
  | cons b p ih =>
    cases t with
    | null =>
      simp only [cleanTree] at hm
      rw [sub_null] at hm
      exact absurd hm (by decide)
    | node k n d c m l r =>
      rw [cleanTree_node_false] at hm ⊢
      cases m
      · cases b
        · exact ih l hm
        · exact ih r hm
      · cases b
        · have := cleanTree_true_mark l p
          rw [sub_cons_false_node] at hm
          rw [this] at hm
          exact absurd hm (by decide)
        · have := cleanTree_true_mark r p
          rw [sub_cons_true_node] at hm
          rw [this] at hm
          exact absurd hm (by decide)

theorem cleanTree_keeps_unmarked (t : packnode) (removeMark : Bool) (p : List Bool)
    (h : (t.sub p).mark = false) : ((cleanTree t removeMark).sub p).mark = false := by
  induction p generalizing t removeMark with
  | nil =>
    cases t with
    | null => rfl
    | node k n d c m l r =>
      have hm : m = false := h
      subst hm
      cases removeMark <;> rfl
  | cons b p ih =>
    cases t with
    | null => simp only [cleanTree]; rw [sub_null]; rfl
    | node k n d c m l r =>
      cases removeMark <;> cases m <;> cases b <;>
        first
        | exact ih l _ h
        | exact ih r _ h

theorem basisPaths_cleanTree (t : packnode) :
    (cleanTree t false).basisPaths = t.basisPaths := by
  induction t with
  | null => rfl
  | node k n d c m l r ihl ihr =>
    rw [cleanTree_node_false]
    cases m
    · simp only [packnode.basisPaths, Bool.false_eq_true, if_false, ihl, ihr]
    · rfl

theorem cleanTree_own (t : packnode) :
    (cleanTree t false).getKind = t.getKind ∧ (cleanTree t false).length = t.length
    ∧ (cleanTree t false).getData = t.getData ∧ (cleanTree t false).cost = t.cost
    ∧ (cleanTree t false).mark = t.mark := by
  cases t with
  | null => exact ⟨rfl, rfl, rfl, rfl, rfl⟩
  | node k n d c m l r =>
    rw [cleanTree_node_false]
    exact ⟨rfl, rfl, rfl, rfl, rfl⟩

theorem basisListSpec_cleanTree (t : packnode) :
    basisListSpec (cleanTree t false) = (basisListSpec t).map (fun x => cleanTree x false) := by
  induction t with
  | null => rfl
  | node k n d c m l r ihl ihr =>
    cases m
    · rw [cleanTree_node_false]
      simp only [basisListSpec, Bool.false_eq_true, if_false, ihl, ihr, List.map_append]
    · rw [cleanTree_node_false]
      simp only [basisListSpec, if_true, List.map_cons, List.map_nil, cleanTree_node_false]

/-- C33. `cleanTree` normalises the marks without changing the basis: for every
tree, after `cleanTree(root, false)` no marked node has a marked proper
descendant, every node that was unmarked stays unmarked, and `getBestBasisList`
returns the same list as before: the same paths, in the same order, and each
listed node with its kind, length, data, cost and mark unchanged (only marks
inside its subtree are cleared). -/
theorem cleanTree_normalises (t : packnode) :
    (∀ p q : List Bool, ((cleanTree t false).sub p).mark = true → q ≠ [] →
        ((cleanTree t false).sub (p ++ q)).mark = false)
    ∧ (∀ p : List Bool, (t.sub p).mark = false → ((cleanTree t false).sub p).mark = false)
    ∧ (cleanTree t false).basisPaths = t.basisPaths
    ∧ getBestBasisList (cleanTree t false)
        = (getBestBasisList t).map (fun x => cleanTree x false)
    ∧ (getBestBasisList (cleanTree t false)).map
          (fun x => (x.getKind, x.length, x.getData, x.cost, x.mark))
        = (getBestBasisList t).map
          (fun x => (x.getKind, x.length, x.getData, x.cost, x.mark)) := by
  have hl : getBestBasisList (cleanTree t false)
      = (getBestBasisList t).map (fun x => cleanTree x false) := by
    rw [getBestBasisList_eq_spec, getBestBasisList_eq_spec, basisListSpec_cleanTree]
  refine ⟨fun p q => cleanTree_below_marked t p q,
    fun p => cleanTree_keeps_unmarked t false p, basisPaths_cleanTree t, hl, ?_⟩
  rw [hl, List.map_map]
  apply List.map_congr_left
  intro x _
  obtain ⟨h1, h2, h3, h4, h5⟩ := cleanTree_own x
  simp only [Function.comp, h1, h2, h3, h4, h5]

/-- Witness for C33: a marked root above a marked left child. -/
theorem cleanTree_normalises_witness :
    ((cleanTree (.node .OriginalData 2 [1, 2] 3 true
        (.node .LowPass 1 [1] 2 true .null .null)
        (.node .HighPass 1 [1] 2 false .null .null)) false).sub []).mark = true
    ∧ [false] ≠ []
    ∧ ((cleanTree (.node .OriginalData 2 [1, 2] 3 true
        (.node .LowPass 1 [1] 2 true .null .null)
        (.node .HighPass 1 [1] 2 false .null .null)) false).sub ([] ++ [false])).mark = false :=
  ⟨by decide, by decide,
   (cleanTree_normalises (.node .OriginalData 2 [1, 2] 3 true
        (.node .LowPass 1 [1] 2 true .null .null)
        (.node .HighPass 1 [1] 2 false .null .null))).1 [] [false] (by decide) (by decide)⟩

/-! ## The marks right after construction -/

theorem fresh_sub_mark (t : packnode) (hf : t.fresh = true) (p : List Bool)
    (hn : (t.sub p).isNull = false) :
    (t.sub p).mark = true ↔ (t.sub p).isLeaf = true := by
  induction p generalizing t with
  | nil =>
    cases t with
    | null => exact absurd hn (by decide)
    | node k n d c m l r =>
      simp only [packnode.fresh, Bool.or_eq_true, Bool.and_eq_true, Bool.not_eq_true'] at hf
      rcases hf with ⟨⟨hl, hr⟩, hm⟩ | ⟨⟨hm, hl⟩, hr⟩
      · have el := isNull_eq_true l hl
        have er := isNull_eq_true r hr
        subst el; subst er; subst hm
        exact ⟨fun _ => rfl, fun _ => rfl⟩
      · have hnl := fresh_not_null l hl
        subst hm
        cases l with
        | null => exact absurd hnl (by decide)
        | node k2 n2 d2 c2 m2 l2 r2 =>
          exact ⟨fun h => by simp [packnode.sub, packnode.mark] at h,
            fun h => by
              simp [packnode.sub, packnode.isLeaf, packnode.isNull, packnode.lhsChild] at h⟩
  | cons b p ih =>
    cases t with
    | null =>
      rw [sub_null] at hn
      exact absurd hn (by decide)
    | node k n d c m l r =>
      simp only [packnode.fresh, Bool.or_eq_true, Bool.and_eq_true, Bool.not_eq_true'] at hf
      rcases hf with ⟨⟨hl, hr⟩, _⟩ | ⟨⟨_, hl⟩, hr⟩
      · have el := isNull_eq_true l hl
        have er := isNull_eq_true r hr
        subst el; subst er
        cases b <;>
          · simp only [packnode.sub, packnode.lhsChild, packnode.rhsChild] at hn
            rw [sub_null] at hn
            exact absurd hn (by decide)
      · cases b
        · exact ih l hl hn
        · exact ih r hr hn

theorem basisListSpec_fresh_perfect (j : Nat) :
    ∀ t : packnode, Perfect j t → t.fresh = true → basisListSpec t = t.nodesAt j := by
  induction j with
  | zero =>
    intro t hp hf
    cases t with
    | null => simp [Perfect] at hp
    | node k n d c m l r =>
      obtain ⟨_, hl, hr⟩ := hp
      subst hl; subst hr
      have hm : m = true := by
        simpa [packnode.fresh, packnode.isNull] using hf
      subst hm
      rfl
  | succ j ih =>
    intro t hp hf
    cases t with
    | null => simp [Perfect] at hp
    | node k n d c m l r =>
      obtain ⟨_, hl, hr⟩ := hp
      have nl := perfect_not_null j l hl
      simp only [packnode.fresh, nl, Bool.false_and, Bool.false_or, Bool.and_eq_true,
        Bool.not_eq_true'] at hf
      obtain ⟨⟨hm, fl⟩, fr⟩ := hf
      subst hm
      simp only [basisListSpec, Bool.false_eq_true, if_false, packnode.nodesAt,
        ih l hl fl, ih r hr fr]

/-- C34. Initial marks: right after the constructor of `packtree_int` for
`N = 2^k` a node is marked if and only if it is a leaf; consequently
`getBestBasisList` called before `bestBasis` returns the nodes of depth `k`, that
is the `N` leaves, each of length 1, from left to right. -/
theorem initial_marks (w : liftbase) (v : List Int) (k : Nat) :
    (∀ p : List Bool, ((packtree_int.new v (2 ^ k) w).sub p).isNull = false →
        (((packtree_int.new v (2 ^ k) w).sub p).mark = true
          ↔ ((packtree_int.new v (2 ^ k) w).sub p).isLeaf = true))
    ∧ getBestBasisList (packtree_int.new v (2 ^ k) w) = (packtree_int.new v (2 ^ k) w).nodesAt k
    ∧ (getBestBasisList (packtree_int.new v (2 ^ k) w)).length = 2 ^ k
    ∧ ∀ x ∈ getBestBasisList (packtree_int.new v (2 ^ k) w),
        x.length = 1 ∧ x.isLeaf = true ∧ x.mark = true := by
  have hf := packtree_new_fresh v (2 ^ k) w
  have hp := packtree_new_perfect v k w
  have hl : getBestBasisList (packtree_int.new v (2 ^ k) w)
      = (packtree_int.new v (2 ^ k) w).nodesAt k := by
    rw [getBestBasisList_eq_spec]
    exact basisListSpec_fresh_perfect k _ hp hf
  obtain ⟨hn, _, _⟩ := nodesAt_perfect k _ hp
  obtain ⟨hcount, hx⟩ := hn k (Nat.le_refl _)
  refine ⟨fun p => fresh_sub_mark _ hf p, hl, by rw [hl]; exact hcount, ?_⟩
  intro x hmem
  have hmem2 := hmem
  rw [hl] at hmem
  obtain ⟨h1, h2⟩ := hx x hmem
  refine ⟨by simpa using h1, h2.2 rfl, ?_⟩
  rw [getBestBasisList_paths, List.mem_map] at hmem2
  obtain ⟨p, _, hpx⟩ := hmem2
  subst hpx
  have hnn : ((packtree_int.new v (2 ^ k) w).sub p).isNull = false := by
    have := h2.2 rfl
    simp only [packnode.isLeaf, Bool.and_eq_true, Bool.not_eq_true'] at this
    exact this.1.1
  exact (fresh_sub_mark _ hf p hnn).2 (h2.2 rfl)

/-- Witness for C34: the Haar tree over `[4, 6, 10, 12]`; the root is not
marked and its left-most grandchild is. -/
theorem initial_marks_witness :
    ((packtree_int.new [4, 6, 10, 12] (2 ^ 2) (haar_int.wave haar_int.forwardStep)).sub
        [false, false]).isNull = false
    ∧ (((packtree_int.new [4, 6, 10, 12] (2 ^ 2) (haar_int.wave haar_int.forwardStep)).sub
        [false, false]).mark = true
      ↔ ((packtree_int.new [4, 6, 10, 12] (2 ^ 2) (haar_int.wave haar_int.forwardStep)).sub
        [false, false]).isLeaf = true) :=
  ⟨by decide,
   (initial_marks (haar_int.wave haar_int.forwardStep) [4, 6, 10, 12] 2).1 [false, false]
     (by decide)⟩

/-! ## A second run of bestBasis -/

theorem settled_not_null (t : packnode) (h : t.settled = true) : t.isNull = false := by
  cases t with
  | null => simp [packnode.settled] at h
  | node => rfl

theorem settled_setMark (b : Bool) (t : packnode) : (t.setMark b).settled = t.settled := by
  cases t <;> rfl

theorem isInternal_node (k : transformKind) (n : Nat) (d : List Int) (c : Int) (m : Bool)
    (l r : packnode) :
    (packnode.node k n d c m l r).isInternal = (!l.isNull && !r.isNull) := rfl

/-- After the walk on a full tree every node with children costs no more than its
children together. -/
theorem bestBasisWalk_settled (t : packnode) (hfull : t.full = true) :
    ∃ c t2, bestBasisWalk t = some (c, t2) ∧ t2.cost = c ∧ t2.settled = true
      ∧ t2.getKind = t.getKind ∧ t2.isInternal = t.isInternal := by
  induction t with
  | null => simp [packnode.full] at hfull
  | node k n d c m l r ihl ihr =>
    by_cases hleaf : l.isNull = true ∧ r.isNull = true
    · have h1 := isNull_eq_true l hleaf.1
      have h2 := isNull_eq_true r hleaf.2
      subst h1 h2
      exact ⟨c, _, bestBasisWalk_leaf k n d c m, rfl, rfl, rfl, rfl⟩
    · have hf : l.full = true ∧ r.full = true := by
        simp only [packnode.full, Bool.or_eq_true, Bool.and_eq_true] at hfull
        rcases hfull with h | h
        · exact absurd h hleaf
        · exact h
      obtain ⟨lc, l2, hwl, hcl, hsl, _, _⟩ := ihl hf.1
      obtain ⟨rc, r2, hwr, hcr, hsr, _, _⟩ := ihr hf.2
      have hnl := full_not_null l hf.1
      have hnr := full_not_null r hf.2
      have hnl2 := settled_not_null l2 hsl
      have hnr2 := settled_not_null r2 hsr
      have hw := bestBasisWalk_node k n d c m l r l2 r2 lc rc hnl hnr hwl hwr
      by_cases hle : c ≤ lc + rc
      · simp only [hle, if_true] at hw
        refine ⟨c, _, hw, rfl, ?_, rfl, ?_⟩
        · simp [packnode.settled, isNull_setMark, hnl2, hnr2, cost_setMark, hcl, hcr, hle,
            settled_setMark, hsl, hsr]
        · simp [isInternal_node, isNull_setMark, hnl2, hnr2, hnl, hnr]
      · simp only [hle, if_false] at hw
        refine ⟨lc + rc, _, hw, rfl, ?_, rfl, ?_⟩
        · simp [packnode.settled, hnl2, hnr2, hcl, hcr, hsl, hsr]
        · simp [isInternal_node, hnl2, hnr2, hnl, hnr]

/-- The walk on a tree in which no node costs more than its children together:
the costs stay, every node with children is marked and then unmarked by its
parent, so that only the root ends marked. -/
theorem bestBasisWalk_of_settled (t : packnode) (hs : t.settled = true) :
    ∃ t3, bestBasisWalk t = some (t.cost, t3) ∧ t3.isNull = false
      ∧ t3.getKind = t.getKind
      ∧ (∀ p : List Bool, (t3.sub p).cost = (t.sub p).cost)
      ∧ (t.isInternal = true → t3.mark = true)
      ∧ (∀ p : List Bool, p ≠ [] → (t3.sub p).mark = false) := by
  induction t with
  | null => simp [packnode.settled] at hs
  | node k n d c m l r ihl ihr =>
    by_cases hleaf : l.isNull = true ∧ r.isNull = true
    · have h1 := isNull_eq_true l hleaf.1
      have h2 := isNull_eq_true r hleaf.2
      subst h1 h2
      refine ⟨_, bestBasisWalk_leaf k n d c m, rfl, rfl, fun p => rfl, ?_, ?_⟩
      · intro h
        simp [isInternal_node, packnode.isNull] at h
      · intro p hp
        cases p with
        | nil => exact absurd rfl hp
        | cons b p =>
          cases b <;>
            · simp only [packnode.sub, packnode.lhsChild, packnode.rhsChild]
              rw [sub_null]; rfl
    · simp only [packnode.settled, Bool.or_eq_true, Bool.and_eq_true, Bool.not_eq_true',
        decide_eq_true_eq] at hs
      rcases hs with h | h
      · exact absurd h hleaf
      · obtain ⟨⟨⟨⟨hnl, hnr⟩, hle⟩, hsl⟩, hsr⟩ := h
        obtain ⟨l3, hwl, hnl3, _, hcl, _, hml⟩ := ihl hsl
        obtain ⟨r3, hwr, hnr3, _, hcr, _, hmr⟩ := ihr hsr
        have hw := bestBasisWalk_node k n d c m l r l3 r3 l.cost r.cost hnl hnr hwl hwr
        simp only [hle, if_true] at hw
        refine ⟨_, hw, rfl, rfl, ?_, fun _ => rfl, ?_⟩
        · intro p
          cases p with
          | nil => rfl
          | cons b p =>
            cases b
            · simp only [packnode.sub, packnode.lhsChild, cost_sub_setMark]
              exact hcl p
            · simp only [packnode.sub, packnode.rhsChild, cost_sub_setMark]
              exact hcr p
        · intro p hp
          cases p with
          | nil => exact absurd rfl hp
          | cons b p =>
            cases p with
            | nil =>
              cases b
              · simp only [packnode.sub, packnode.lhsChild]
                exact mark_setMark false l3 hnl3
              · simp only [packnode.sub, packnode.rhsChild]
                exact mark_setMark false r3 hnr3
            | cons b2 p =>
              cases b
              · simp only [sub_cons_false_node]
                rw [sub_setMark_cons]
                exact hml (b2 :: p) (by simp)
              · simp only [sub_cons_true_node]
                rw [sub_setMark_cons]
                exact hmr (b2 :: p) (by simp)

theorem bestBasisOK_marked_original (t : packnode) (hk : t.getKind = .OriginalData)
    (hm : t.mark = true) : bestBasisOK t = false := by
  cases t with
  | null => exact absurd hm (by decide)
  | node k n d c m l r =>
    have e1 : k = .OriginalData := hk
    have e2 : m = true := hm
    subst e1; subst e2
    simp [bestBasisOK, checkBestBasis]

theorem getBestBasisList_marked (t : packnode) (hm : t.mark = true) :
    getBestBasisList t = [t] := by
  cases t with
  | null => exact absurd hm (by decide)
  | node k n d c m l r =>
    have e2 : m = true := hm
    subst e2
    simp [getBestBasisList, buildBestBasisList]

/-- C37. `bestBasis` is not idempotent on marks: on the cost-annotated tree of an
array of `N ≥ 2` samples a second run of `bestBasis` returns the same cost and
leaves the stored cost of every node unchanged, but afterwards the root is marked
whatever the costs are (and no other node is), so that `bestBasisOK` returns
false and `getBestBasisList` returns only the root. -/
theorem bestBasis_twice (w : liftbase) (costCalc : packnode → Int) (v : List Int) (N : Nat)
    (hN : 2 ≤ N) :
    ∃ c t2 t3,
      bestBasisWalk (costbase_int.traverse costCalc (packtree_int.new v N w)) = some (c, t2)
      ∧ bestBasisWalk t2 = some (c, t3)
      ∧ bestBasis t2 = some t3
      ∧ (∀ p : List Bool, (t3.sub p).cost = (t2.sub p).cost)
      ∧ t3.mark = true
      ∧ (∀ p : List Bool, p ≠ [] → (t3.sub p).mark = false)
      ∧ bestBasisOK t3 = false
      ∧ getBestBasisList t3 = [t3] := by
  obtain ⟨l, r, hroot, hl, hr⟩ := packtree_new_root v N w hN
  have hfresh : (costbase_int.traverse costCalc (packtree_int.new v N w)).fresh = true := by
    rw [fresh_traverse]; exact packtree_new_fresh v N w
  obtain ⟨c, t2, hw, hc, hs, hk, hi⟩ := bestBasisWalk_settled _ (fresh_full _ hfresh)
  obtain ⟨t3, hw3, _, hk3, hcost, hmark, hrest⟩ := bestBasisWalk_of_settled t2 hs
  have hkind : t2.getKind = .OriginalData := by
    rw [hk, hroot]; rfl
  have hint : t2.isInternal = true := by
    rw [hi, hroot]
    have h1 := fresh_not_null l hl
    have h2 := fresh_not_null r hr
    simp [costbase_int.traverse, isInternal_node, isNull_traverse, h1, h2]
  rw [hc] at hw3
  have hm3 := hmark hint
  refine ⟨c, t2, t3, hw, hw3, ?_, hcost, hm3, hrest, ?_, getBestBasisList_marked t3 hm3⟩
  · simp [bestBasis, hw3]
  · exact bestBasisOK_marked_original t3 (by rw [hk3, hkind]) hm3

/-- Witness for C37: the Haar tree over `[4, 6, 10, 12]` with the bit-width
cost. -/
theorem bestBasis_twice_witness :
    2 ≤ 4 ∧
    ∃ c t2 t3,
      bestBasisWalk (costbase_int.traverse costwidth.costCalc
          (packtree_int.new [4, 6, 10, 12] 4 (haar_int.wave haar_int.forwardStep)))
        = some (c, t2)
      ∧ bestBasisWalk t2 = some (c, t3)
      ∧ bestBasis t2 = some t3
      ∧ (∀ p : List Bool, (t3.sub p).cost = (t2.sub p).cost)
      ∧ t3.mark = true
      ∧ (∀ p : List Bool, p ≠ [] → (t3.sub p).mark = false)
      ∧ bestBasisOK t3 = false
      ∧ getBestBasisList t3 = [t3] :=
  ⟨by decide,
   bestBasis_twice (haar_int.wave haar_int.forwardStep) costwidth.costCalc [4, 6, 10, 12] 4
     (by decide)⟩

/-! ## The decomposition chosen by the walk -/

theorem isDecomp_pos (t : packnode) (ns : List packnode) (h : IsDecomp t ns) :
    1 ≤ ns.length := by
  induction h with
  | self => simp
  | children k n d c m l r dl dr _ _ ihl _ =>
    rw [List.length_append]; omega

theorem sumCost_singleton (t : packnode) : sumCost [t] = t.cost := by
  simp [sumCost]

theorem sameOwn_refl (x : packnode) : sameOwn x x := ⟨rfl, rfl, rfl, rfl⟩

theorem sumCost_of_sameOwn (xs ys : List packnode) (h : List.Forall₂ sameOwn xs ys) :
    sumCost xs = sumCost ys := by
  induction h with
  | nil => rfl
  | cons hxy _ ih =>
    simp only [sumCost, List.map_cons, List.sum_cons] at ih ⊢
    rw [ih, hxy.2.2.2]

/-- The walk on a fresh tree chooses, through the marks it leaves, a decomposition
of the original tree whose nodes keep their own fields, whose summed cost is the
returned minimum and which has the fewest nodes among the decompositions of that
cost. -/
theorem bestBasisWalk_choice (t : packnode) (hf : t.fresh = true) :
    ∃ c t2, bestBasisWalk t = some (c, t2) ∧ t2.cost = c
      ∧ IsDecomp t (t2.basisPaths.map (fun p => t.sub p))
      ∧ List.Forall₂ sameOwn (basisListSpec t2) (t2.basisPaths.map (fun p => t.sub p))
      ∧ sumCost (t2.basisPaths.map (fun p => t.sub p)) = c
      ∧ (∀ ns, IsDecomp t ns → c ≤ sumCost ns)
      ∧ (∀ ns, IsDecomp t ns → sumCost ns = c → t2.basisPaths.length ≤ ns.length) := by
  induction t with
  | null => simp [packnode.fresh] at hf
  | node k n d c m l r ihl ihr =>
    simp only [packnode.fresh, Bool.or_eq_true, Bool.and_eq_true] at hf
    rcases hf with h | h
    · obtain ⟨⟨h1, h2⟩, hm⟩ := h
      have e1 := isNull_eq_true l h1
      have e2 := isNull_eq_true r h2
      subst e1 e2 hm
      refine ⟨c, _, bestBasisWalk_leaf k n d c true, rfl, ?_, ?_, ?_, ?_, ?_⟩
      · exact IsDecomp.self k n d c true .null .null
      · exact List.Forall₂.cons (sameOwn_refl _) List.Forall₂.nil
      · exact sumCost_singleton _
      · intro ns hns
        cases hns with
        | self => rw [sumCost_singleton]; exact Int.le_refl _
        | children _ _ _ _ _ _ _ dl dr hl hr => cases hl
      · intro ns hns _
        exact isDecomp_pos _ ns hns
    · obtain ⟨⟨hm, hl⟩, hr⟩ := h
      have hm2 : m = false := by simpa using hm
      subst hm2
      obtain ⟨lc, l2, hwl, hcl, hdl, hol, hsl, hminl, hcntl⟩ := ihl hl
      obtain ⟨rc, r2, hwr, hcr, hdr, hor, hsr, hminr, hcntr⟩ := ihr hr
      have hw := bestBasisWalk_node k n d c false l r l2 r2 lc rc (fresh_not_null l hl)
        (fresh_not_null r hr) hwl hwr
      by_cases hle : c ≤ lc + rc
      · simp only [hle, if_true] at hw
        refine ⟨c, _, hw, rfl, ?_, ?_, ?_, ?_, ?_⟩
        · exact IsDecomp.self k n d c false l r
        · exact List.Forall₂.cons ⟨rfl, rfl, rfl, rfl⟩ List.Forall₂.nil
        · exact sumCost_singleton _
        · intro ns hns
          cases hns with
          | self => rw [sumCost_singleton]; exact Int.le_refl _
          | children _ _ _ _ _ _ _ dl dr h1 h2 =>
            rw [sumCost_append]
            have a := hminl dl h1
            have b := hminr dr h2
            omega
        · intro ns hns _
          exact isDecomp_pos _ ns hns
      · simp only [hle, if_false] at hw
        have hpaths : (packnode.node k n d (lc + rc) false l2 r2).basisPaths.map
              (fun p => (packnode.node k n d c false l r).sub p)
            = l2.basisPaths.map (fun p => l.sub p) ++ r2.basisPaths.map (fun p => r.sub p) := by
          simp only [packnode.basisPaths, Bool.false_eq_true, if_false, List.map_append,
            List.map_map]
          rfl
        refine ⟨lc + rc, _, hw, rfl, ?_, ?_, ?_, ?_, ?_⟩
        · rw [hpaths]
          exact IsDecomp.children k n d c false l r _ _ hdl hdr
        · rw [hpaths]
          simp only [basisListSpec, Bool.false_eq_true, if_false]
          exact List.rel_append hol hor
        · rw [hpaths, sumCost_append, hsl, hsr]
        · intro ns hns
          cases hns with
          | self => rw [sumCost_singleton]; exact Int.le_of_lt (Int.lt_of_not_ge hle)
          | children _ _ _ _ _ _ _ dl dr h1 h2 =>
            rw [sumCost_append]
            have a := hminl dl h1
            have b := hminr dr h2
            omega
        · intro ns hns hsum
          cases hns with
          | self =>
            rw [sumCost_singleton] at hsum
            have : c = lc + rc := hsum
            omega
          | children _ _ _ _ _ _ _ dl dr h1 h2 =>
            rw [sumCost_append] at hsum
            have a := hminl dl h1
            have b := hminr dr h2
            have c1 := hcntl dl h1 (by omega)
            have c2 := hcntr dr h2 (by omega)
            simp only [packnode.basisPaths, Bool.false_eq_true, if_false, List.length_append,
              List.length_map]
            omega

/-- C32. Fewest segments among the cheapest: after `bestBasis` on a freshly built,
cost-annotated tree the collected best-basis list is, position by position, a
decomposition of the tree whose summed original cost is the minimal achievable
cost, and it has the smallest number of elements among all decompositions of the
tree whose summed original cost equals that minimum. -/
theorem fewest_segments (w : liftbase) (costCalc : packnode → Int) (v : List Int) (N : Nat) :
    ∃ c t2,
      bestBasisWalk (costbase_int.traverse costCalc (packtree_int.new v N w)) = some (c, t2)
      ∧ bestBasis (costbase_int.traverse costCalc (packtree_int.new v N w)) = some t2
      ∧ IsMinCost (costbase_int.traverse costCalc (packtree_int.new v N w)) c
      ∧ getBestBasisList t2 = t2.basisPaths.map (fun p => t2.sub p)
      ∧ IsDecomp (costbase_int.traverse costCalc (packtree_int.new v N w))
          (t2.basisPaths.map
            (fun p => (costbase_int.traverse costCalc (packtree_int.new v N w)).sub p))
      ∧ List.Forall₂ sameOwn (getBestBasisList t2)
          (t2.basisPaths.map
            (fun p => (costbase_int.traverse costCalc (packtree_int.new v N w)).sub p))
      ∧ sumCost (t2.basisPaths.map
            (fun p => (costbase_int.traverse costCalc (packtree_int.new v N w)).sub p)) = c
      ∧ ∀ ns, IsDecomp (costbase_int.traverse costCalc (packtree_int.new v N w)) ns →
          sumCost ns = c → (getBestBasisList t2).length ≤ ns.length := by
  have hfresh : (costbase_int.traverse costCalc (packtree_int.new v N w)).fresh = true := by
    rw [fresh_traverse]; exact packtree_new_fresh v N w
  obtain ⟨c, t2, hw, _, hd, ho, hs, hmin, hcnt⟩ := bestBasisWalk_choice _ hfresh
  refine ⟨c, t2, hw, by simp [bestBasis, hw], ⟨⟨_, hd, hs⟩, hmin⟩,
    getBestBasisList_paths t2, hd, ?_, hs, ?_⟩
  · rw [getBestBasisList_eq_spec]; exact ho
  · intro ns hns hsum
    rw [getBestBasisList_paths, List.length_map]
    exact hcnt ns hns hsum

/-- Witness for C32: the Haar tree over `[0, 0]` with the bit-width cost.  The
root costs 2 and so do its two children together; the list is the root alone,
one element, against the two elements of the other decomposition of cost 2. -/
theorem fewest_segments_witness :
    IsDecomp (costbase_int.traverse costwidth.costCalc
        (packtree_int.new [0, 0] 2 (haar_int.wave haar_int.forwardStep)))
      [.node .LowPass 1 [0] 1 true .null .null, .node .HighPass 1 [0] 1 true .null .null]
    ∧ sumCost
        [.node .LowPass 1 [0] 1 true .null .null, .node .HighPass 1 [0] 1 true .null .null] = 2
    ∧ ∃ t2, bestBasisWalk (costbase_int.traverse costwidth.costCalc
          (packtree_int.new [0, 0] 2 (haar_int.wave haar_int.forwardStep))) = some (2, t2)
      ∧ (getBestBasisList t2).length
          ≤ [packnode.node .LowPass 1 [0] 1 true .null .null,
              packnode.node .HighPass 1 [0] 1 true .null .null].length := by
  have hT : costbase_int.traverse costwidth.costCalc
        (packtree_int.new [0, 0] 2 (haar_int.wave haar_int.forwardStep))
      = .node .OriginalData 2 [0, 0] 2 false (.node .LowPass 1 [0] 1 true .null .null)
          (.node .HighPass 1 [0] 1 true .null .null) := by decide
  have hd : IsDecomp (costbase_int.traverse costwidth.costCalc
        (packtree_int.new [0, 0] 2 (haar_int.wave haar_int.forwardStep)))
      [.node .LowPass 1 [0] 1 true .null .null, .node .HighPass 1 [0] 1 true .null .null] := by
    rw [hT]
    exact IsDecomp.children _ _ _ _ _ _ _ _ _ (IsDecomp.self _ _ _ _ _ _ _)
      (IsDecomp.self _ _ _ _ _ _ _)
  have hs : sumCost
      [.node .LowPass 1 [0] 1 true .null .null, .node .HighPass 1 [0] 1 true .null .null]
        = 2 := by decide
  obtain ⟨c, t2, hw, _, _, _, _, _, _, hcnt⟩ :=
    fewest_segments (haar_int.wave haar_int.forwardStep) costwidth.costCalc [0, 0] 2
  have h0 : bestBasisWalk (costbase_int.traverse costwidth.costCalc
        (packtree_int.new [0, 0] 2 (haar_int.wave haar_int.forwardStep)))
      = some (2, .node .OriginalData 2 [0, 0] 2 true (.node .LowPass 1 [0] 1 false .null .null)
          (.node .HighPass 1 [0] 1 false .null .null)) := by decide
  have hc : c = 2 := by
    rw [h0] at hw
    injection hw with hw
    injection hw with h1 _
    exact h1.symm
  subst hc
  exact ⟨hd, hs, t2, hw, hcnt _ hd hs⟩

theorem costwidth_sub (t : packnode) (p : List Bool) :
    ((costwidth t).sub p).cost
      = (support.vecWidth ((costwidth t).sub p).getData ((costwidth t).sub p).length : Int) := by
  induction p generalizing t with
  | nil =>
    cases t with
    | null => rfl
    | node k n d c m l r => rfl
  | cons b p ih =>
    cases t with
    | null =>
      have : costwidth .null = .null := rfl
      rw [this, sub_null]; rfl
    | node k n d c m l r =>
      cases b
      · exact ih l
      · exact ih r

theorem calcPacketWidth_run (xs : List packnode) (a : Nat) :
    xs.foldl (fun totalWidth node =>
        totalWidth + support.vecWidth node.getData node.length) a
      = a + (xs.map (fun x => support.vecWidth x.getData x.length)).sum := by
  induction xs generalizing a with
  | nil => simp
  | cons x xs ih =>
    simp only [List.foldl_cons, ih, List.map_cons, List.sum_cons]
    omega

theorem calcPacketWidth_of_sameOwn (xs ys : List packnode) (h : List.Forall₂ sameOwn xs ys)
    (hy : ∀ y ∈ ys, y.cost = (support.vecWidth y.getData y.length : Int)) :
    (calcPacketWidth xs : Int) = sumCost ys := by
  have e : calcPacketWidth xs
      = (xs.map (fun x => support.vecWidth x.getData x.length)).sum := by
    have := calcPacketWidth_run xs 0
    simpa [calcPacketWidth] using this
  rw [e]
  clear e
  induction h with
  | nil => rfl
  | @cons x y xs ys hxy _ ih =>
    have h1 := hy y (List.mem_cons_self _ _)
    have h2 := ih (fun z hz => hy z (List.mem_cons_of_mem _ hz))
    simp only [sumCost, List.map_cons, List.sum_cons, Nat.cast_add] at h2 ⊢
    rw [h2, h1, hxy.2.1, hxy.2.2.1]

/-- C36. The collected list attains the optimum: after `bestBasis` on a freshly
built, cost-annotated tree the sum of the stored costs of the nodes of
`getBestBasisList` equals the value returned by `bestBasisWalk` on the root, which
is the stored cost of the root and the minimal cost; each listed node still has
its originally annotated cost (and its kind, length and data); with the bit-width
cost this sum is the value of `calcPacketWidth` on the list. -/
theorem list_attains_optimum (w : liftbase) (v : List Int) (N : Nat) :
    (∀ costCalc : packnode → Int, ∃ c t2,
      bestBasisWalk (costbase_int.traverse costCalc (packtree_int.new v N w)) = some (c, t2)
      ∧ t2.cost = c
      ∧ sumCost (getBestBasisList t2) = c
      ∧ IsMinCost (costbase_int.traverse costCalc (packtree_int.new v N w)) c
      ∧ List.Forall₂ sameOwn (getBestBasisList t2)
          (t2.basisPaths.map
            (fun p => (costbase_int.traverse costCalc (packtree_int.new v N w)).sub p)))
    ∧ ∃ c t2,
      bestBasisWalk (costwidth (packtree_int.new v N w)) = some (c, t2)
      ∧ t2.cost = c
      ∧ sumCost (getBestBasisList t2) = c
      ∧ (calcPacketWidth (getBestBasisList t2) : Int) = c := by
  have main : ∀ costCalc : packnode → Int, ∃ c t2,
      bestBasisWalk (costbase_int.traverse costCalc (packtree_int.new v N w)) = some (c, t2)
      ∧ t2.cost = c
      ∧ sumCost (getBestBasisList t2) = c
      ∧ IsMinCost (costbase_int.traverse costCalc (packtree_int.new v N w)) c
      ∧ List.Forall₂ sameOwn (getBestBasisList t2)
          (t2.basisPaths.map
            (fun p => (costbase_int.traverse costCalc (packtree_int.new v N w)).sub p)) := by
    intro costCalc
    have hfresh : (costbase_int.traverse costCalc (packtree_int.new v N w)).fresh = true := by
      rw [fresh_traverse]; exact packtree_new_fresh v N w
    obtain ⟨c, t2, hw, hc, hd, ho, hs, hmin, _⟩ := bestBasisWalk_choice _ hfresh
    have ho2 : List.Forall₂ sameOwn (getBestBasisList t2)
        (t2.basisPaths.map
          (fun p => (costbase_int.traverse costCalc (packtree_int.new v N w)).sub p)) := by
      rw [getBestBasisList_eq_spec]; exact ho
    exact ⟨c, t2, hw, hc, by rw [sumCost_of_sameOwn _ _ ho2, hs], ⟨⟨_, hd, hs⟩, hmin⟩, ho2⟩
  refine ⟨main, ?_⟩
  obtain ⟨c, t2, hw, hc, hsum, _, ho⟩ := main costwidth.costCalc
  refine ⟨c, t2, hw, hc, hsum, ?_⟩
  rw [calcPacketWidth_of_sameOwn _ _ ho, ← sumCost_of_sameOwn _ _ ho, hsum]
  intro y hy
  rw [List.mem_map] at hy
  obtain ⟨p, _, hp⟩ := hy
  subst hp
  exact costwidth_sub _ p

/-! ## Termination of reduce -/

theorem reduceTop_eq (w : liftbase) (tos : packcontainer_int)
    (rest : List packcontainer_int) (hb : (tos.lhs.isSome && tos.rhs.isSome) = true) :
    invpacktree_int.reduceTop w tos rest
      = match rest with
        | tos2 :: rest2 =>
          if tos2.N = tos.N * 2 then
            invpacktree_int.reduceTop w
              { tos2 with rhs := some ((List.range tos.N).map
                  (fun i => (tos.step w.inverseStep tos.N).get i)) } rest2
          else if tos2.N > tos.N * 2 then
            some ({ N := tos.N * 2, lhs := some ((List.range tos.N).map
                  (fun i => (tos.step w.inverseStep tos.N).get i)), rhs := none }
              :: tos2 :: rest2)
          else none
        | [] =>
          some [{ N := tos.N * 2, lhs := some ((List.range tos.N).map
                  (fun i => (tos.step w.inverseStep tos.N).get i)), rhs := none }] := by
  rw [invpacktree_int.reduceTop]
  simp only [hb, if_true]
  cases rest <;> rfl

theorem reduceTop_abort (w : liftbase) (tos : packcontainer_int)
    (rest : List packcontainer_int) (hb : ¬ (tos.lhs.isSome && tos.rhs.isSome) = true) :
    invpacktree_int.reduceTop w tos rest = none := by
  rw [invpacktree_int.reduceTop]
  simp only [hb, if_false]
  rfl

theorem reduceRun_cons (w : liftbase) (fuel : Nat) (tos : packcontainer_int)
    (stack : List packcontainer_int) :
    invpacktree_int.reduceRun w (fuel + 1) (tos :: stack)
      = if tos.lhs.isSome && tos.rhs.isSome then
          match stack with
          | tos2 :: rest =>
            if tos2.N = tos.N * 2 then
              match invpacktree_int.reduceRun w fuel
                ({ tos2 with rhs := some ((List.range tos.N).map
                  (fun i => (tos.step w.inverseStep tos.N).get i)) } :: rest) with
              | .outOfFuel => .outOfFuel
              | .aborted calls => .aborted (calls + 1)
              | .returned calls stack => .returned (calls + 1) stack
            else if tos2.N > tos.N * 2 then
              .returned 0 ({ N := tos.N * 2, lhs := some ((List.range tos.N).map
                  (fun i => (tos.step w.inverseStep tos.N).get i)), rhs := none }
                :: tos2 :: rest)
            else .aborted 0
          | [] =>
            .returned 0 [{ N := tos.N * 2, lhs := some ((List.range tos.N).map
                  (fun i => (tos.step w.inverseStep tos.N).get i)), rhs := none }]
        else .aborted 0 := by
  rw [invpacktree_int.reduceRun]
  rfl

theorem reduceRun_spec (w : liftbase) :
    ∀ (fuel : Nat) (s : List packcontainer_int), s.length ≤ fuel →
      match invpacktree_int.reduceRun w fuel s with
      | .outOfFuel => False
      | .aborted c => c ≤ s.length - 1 ∧ invpacktree_int.reduce w s = none
      | .returned c s2 =>
        c + 1 ≤ s.length ∧ s2.length + c = s.length ∧ 1 ≤ s2.length
          ∧ invpacktree_int.reduce w s = some s2 := by
  intro fuel
  induction fuel with
  | zero =>
    intro s hs
    cases s with
    | nil => exact ⟨Nat.le_refl _, rfl⟩
    | cons c s => simp at hs
  | succ fuel ih =>
    intro s hs
    cases s with
    | nil => exact ⟨Nat.le_refl _, rfl⟩
    | cons tos stack =>
      rw [reduceRun_cons]
      have hred : invpacktree_int.reduce w (tos :: stack)
          = invpacktree_int.reduceTop w tos stack := rfl
      rw [hred]
      by_cases hb : (tos.lhs.isSome && tos.rhs.isSome) = true
      · rw [reduceTop_eq w tos stack hb, if_pos hb]
        cases stack with
        | nil => exact ⟨Nat.le_refl _, rfl, Nat.le_refl _, rfl⟩
        | cons tos2 rest =>
          by_cases h1 : tos2.N = tos.N * 2
          · have hrec := ih ({ tos2 with rhs := some ((List.range tos.N).map
                (fun i => (tos.step w.inverseStep tos.N).get i)) } :: rest)
              (by simp only [List.length_cons] at hs ⊢; omega)
            have hred2 : invpacktree_int.reduce w ({ tos2 with rhs := some ((List.range tos.N).map
                (fun i => (tos.step w.inverseStep tos.N).get i)) } :: rest)
                = invpacktree_int.reduceTop w { tos2 with rhs := some ((List.range tos.N).map
                (fun i => (tos.step w.inverseStep tos.N).get i)) } rest := rfl
            rw [hred2] at hrec
            simp only [if_pos h1]
            revert hrec
            cases invpacktree_int.reduceRun w fuel ({ tos2 with rhs := some ((List.range tos.N).map
                (fun i => (tos.step w.inverseStep tos.N).get i)) } :: rest) with
            | outOfFuel => intro h; exact h
            | aborted c =>
              intro h
              simp only [List.length_cons] at h ⊢
              exact ⟨by omega, h.2⟩
            | returned c s2 =>
              intro h
              simp only [List.length_cons] at h ⊢
              exact ⟨by omega, by omega, h.2.2.1, h.2.2.2⟩
          · by_cases h2 : tos2.N > tos.N * 2
            · simp only [if_neg h1, if_pos h2]
              simp
            · simp only [if_neg h1, if_neg h2]
              simp
      · rw [reduceTop_abort w tos stack hb, if_neg hb]
        exact ⟨Nat.zero_le _, rfl⟩

/-- C39. `reduce` terminates: run with a bound on the recursion depth that is at
least the number of containers on the stack, `reduce` never exhausts the bound;
it makes fewer recursive calls than there are containers, because every call pops
one container before it may recurse and pushes one only when it does not recurse
(`depth after + calls = depth before`); when it returns, the stack is non-empty
and no deeper than before, and is the stack computed by `reduce`; otherwise an
assertion has failed. -/
theorem reduce_terminates (w : liftbase) (s : List packcontainer_int) (fuel : Nat)
    (hf : s.length ≤ fuel) :
    invpacktree_int.reduceRun w fuel s ≠ .outOfFuel
    ∧ (∀ c, invpacktree_int.reduceRun w fuel s = .aborted c →
        c ≤ s.length - 1 ∧ invpacktree_int.reduce w s = none)
    ∧ (∀ c s2, invpacktree_int.reduceRun w fuel s = .returned c s2 →
        c + 1 ≤ s.length ∧ s2.length + c = s.length ∧ 1 ≤ s2.length
          ∧ s2.length ≤ s.length ∧ invpacktree_int.reduce w s = some s2) := by
  have h := reduceRun_spec w fuel s hf
  refine ⟨?_, ?_, ?_⟩
  · intro e
    rw [e] at h
    exact h
  · intro c e
    rw [e] at h
    exact h
  · intro c s2 e
    rw [e] at h
    exact ⟨h.1, h.2.1, h.2.2.1, by omega, h.2.2.2⟩

/-- Witness for C39: a stack of two containers on which `reduce` recurses once
and leaves a single container of length 8. -/
theorem reduce_terminates_witness :
    [({ N := 2, lhs := some [5], rhs := some [2] } : packcontainer_int),
      { N := 4, lhs := some [1, 2], rhs := none }].length ≤ 2
    ∧ invpacktree_int.reduceRun (haar_int.wave haar_int.forwardStep) 2
        [{ N := 2, lhs := some [5], rhs := some [2] },
          { N := 4, lhs := some [1, 2], rhs := none }] ≠ .outOfFuel
    ∧ invpacktree_int.reduceRun (haar_int.wave haar_int.forwardStep) 2
        [{ N := 2, lhs := some [5], rhs := some [2] },
          { N := 4, lhs := some [1, 2], rhs := none }]
      = .returned 1 [{ N := 8, lhs := some [-1, 3, -1, 5], rhs := none }] :=
  ⟨by decide,
   (reduce_terminates (haar_int.wave haar_int.forwardStep)
      [{ N := 2, lhs := some [5], rhs := some [2] },
        { N := 4, lhs := some [1, 2], rhs := none }] 2 (by decide)).1,
   by decide⟩

/-! ## The invariant of the calculation stack -/

theorem two_pow_step (a b : Nat) (h : 2 ^ a < 2 ^ b) : 2 ^ a * 2 ≤ 2 ^ b := by
  have h1 : a < b := (Nat.pow_lt_pow_iff_right (by decide)).1 h
  have h2 : 2 ^ (a + 1) ≤ 2 ^ b := Nat.pow_le_pow_right (by decide) h1
  rw [pow_succ] at h2
  exact h2

theorem stackOK_forall (s : List packcontainer_int) (h : StackOK s) :
    (∀ c ∈ s, c.lhs.isSome = true ∧ c.rhs = none)
    ∧ (s.map (fun c => c.N)).Pairwise (fun a b => a < b) := by
  induction s with
  | nil => exact ⟨fun c hc => by simp at hc, List.Pairwise.nil⟩
  | cons c rest ih =>
    obtain ⟨h1, h2, _, h4, h5⟩ := h
    obtain ⟨i1, i2⟩ := ih h5
    refine ⟨?_, ?_⟩
    · intro x hx
      rcases List.mem_cons.1 hx with e | e
      · subst e; exact ⟨h1, h2⟩
      · exact i1 x e
    · rw [List.map_cons, List.pairwise_cons]
      refine ⟨?_, i2⟩
      intro b hb
      rw [List.mem_map] at hb
      obtain ⟨d, hd, e⟩ := hb
      subst e
      exact h4 d hd

theorem reduceTop_shape (w : liftbase) :
    ∀ (rest : List packcontainer_int) (tos : packcontainer_int),
      tos.lhs.isSome = true → tos.rhs.isSome = true → (∃ e, tos.N = 2 ^ e) →
      StackOK rest → (∀ d ∈ rest, tos.N < d.N) →
      ∃ s2, invpacktree_int.reduceTop w tos rest = some s2 ∧ StackOK s2
        ∧ s2.map (fun c => c.N) = pushShape tos.N (rest.map (fun c => c.N)) := by
  intro rest
  induction rest with
  | nil =>
    intro tos hl hr ⟨e, he⟩ _ _
    have hb : (tos.lhs.isSome && tos.rhs.isSome) = true := by rw [hl, hr]; rfl
    rw [reduceTop_eq w tos [] hb]
    refine ⟨_, rfl, ⟨rfl, rfl, ⟨e + 1, ?_⟩, fun d hd => by simp at hd, trivial⟩, rfl⟩
    show tos.N * 2 = 2 ^ (e + 1)
    rw [he, pow_succ]
  | cons tos2 rest2 ih =>
    intro tos hl hr ⟨e, he⟩ hok hlt
    have hb : (tos.lhs.isSome && tos.rhs.isSome) = true := by rw [hl, hr]; rfl
    obtain ⟨h1, h2, ⟨e2, he2⟩, h4, h5⟩ := hok
    have hlt2 : tos.N < tos2.N := hlt tos2 (List.mem_cons_self _ _)
    have hge : tos.N * 2 ≤ tos2.N := by
      rw [he, he2] at *
      exact two_pow_step e e2 hlt2
    rw [reduceTop_eq w tos (tos2 :: rest2) hb]
    by_cases hc : tos2.N = tos.N * 2
    · simp only [if_pos hc]
      obtain ⟨s2, hs2, hok2, hsh⟩ := ih
        { tos2 with rhs := some ((List.range tos.N).map
            (fun i => (tos.step w.inverseStep tos.N).get i)) }
        h1 rfl ⟨e2, he2⟩ h5 h4
      refine ⟨s2, hs2, hok2, ?_⟩
      rw [hsh]
      simp only [List.map_cons, pushShape, if_pos hc]
      rw [hc]
    · have hgt : tos2.N > tos.N * 2 := by omega
      simp only [if_neg hc, if_pos hgt]
      refine ⟨_, rfl, ⟨rfl, rfl, ⟨e + 1, ?_⟩, ?_, h1, h2, ⟨e2, he2⟩, h4, h5⟩, ?_⟩
      · show tos.N * 2 = 2 ^ (e + 1)
        rw [he, pow_succ]
      · intro d hd
        show tos.N * 2 < d.N
        rcases List.mem_cons.1 hd with e3 | e3
        · subst e3; exact hgt
        · have := h4 d e3
          omega
      · simp only [List.map_cons, pushShape, if_neg hc]

theorem add_elem_shape (w : liftbase) (e : packnode) (hn : e.isNull = false) (j : Nat)
    (hlen : e.length = 2 ^ j) (s : List packcontainer_int) (hs : StackOK s)
    (hr : Ready s (2 ^ j)) :
    ∃ s2, invpacktree_int.add_elem w e s = some s2 ∧ StackOK s2
      ∧ s2.map (fun c => c.N) = pushShape (2 ^ j) (s.map (fun c => c.N)) := by
  rw [add_elem_eq w e s hn]
  cases s with
  | nil =>
    refine ⟨_, rfl, ⟨rfl, rfl, ⟨j + 1, ?_⟩, fun d hd => by simp at hd, trivial⟩, ?_⟩
    · show e.length * 2 = 2 ^ (j + 1)
      rw [hlen, pow_succ]
    · simp only [List.map_cons, List.map_nil, pushShape, hlen]
  | cons tos rest =>
    obtain ⟨h1, h2, ⟨e2, he2⟩, h4, h5⟩ := hs
    obtain ⟨_, hge⟩ := hr
    by_cases hc : tos.N = e.length * 2
    · have hns : tos.rhs.isSome = false := by rw [h2]; rfl
      simp only [if_pos hc, hns, Bool.false_eq_true, if_false]
      obtain ⟨s2, hs2, hok2, hsh⟩ := reduceTop_shape w rest
        { tos with rhs := some e.getData } h1 rfl ⟨e2, he2⟩ h5 h4
      refine ⟨s2, hs2, hok2, ?_⟩
      rw [hsh]
      have hc2 : tos.N = 2 ^ j * 2 := by rw [hc, hlen]
      simp only [List.map_cons, pushShape, if_pos hc2]
      rw [hc2]
    · have hgt : tos.N > e.length * 2 := by rw [hlen] at hc ⊢; omega
      simp only [if_neg hc, if_pos hgt]
      have hc2 : ¬ tos.N = 2 ^ j * 2 := by rw [← hlen]; exact hc
      refine ⟨_, rfl, ⟨rfl, rfl, ⟨j + 1, ?_⟩, ?_, h1, h2, ⟨e2, he2⟩, h4, h5⟩, ?_⟩
      · show e.length * 2 = 2 ^ (j + 1)
        rw [hlen, pow_succ]
      · intro d hd
        show e.length * 2 < d.N
        rcases List.mem_cons.1 hd with e3 | e3
        · subst e3; exact hgt
        · have := h4 d e3
          omega
      · simp only [List.map_cons, pushShape, if_neg hc2, hlen]

theorem pushShape_ready (j : Nat) (s : List packcontainer_int) (hr : Ready s (2 ^ (j + 1))) :
    pushShape (2 ^ j) (s.map (fun c => c.N)) = (2 ^ j * 2) :: s.map (fun c => c.N) := by
  cases s with
  | nil => rfl
  | cons c rest =>
    obtain ⟨_, hge⟩ := hr
    have hne : ¬ c.N = 2 ^ j * 2 := by
      rw [pow_succ] at hge
      have : 0 < 2 ^ j := Nat.two_pow_pos j
      omega
    simp only [List.map_cons, pushShape, if_neg hne]

theorem ready_of_shape (n : Nat) (s1 : List packcontainer_int) (ms : List Nat)
    (hok : StackOK s1) (hsh : s1.map (fun c => c.N) = (n * 2) :: ms) : Ready s1 n := by
  cases s1 with
  | nil => simp at hsh
  | cons c rest =>
    simp only [List.map_cons, List.cons.injEq] at hsh
    exact ⟨hok.2.1, by rw [hsh.1]; omega⟩

theorem ready_half (j : Nat) (s : List packcontainer_int) (hr : Ready s (2 ^ (j + 1))) :
    Ready s (2 ^ j) := by
  cases s with
  | nil => trivial
  | cons c rest =>
    obtain ⟨h1, h2⟩ := hr
    refine ⟨h1, ?_⟩
    rw [pow_succ] at h2
    omega

theorem addAll_single (w : liftbase) (e : packnode) (s : List packcontainer_int) :
    invpacktree_int.addAll w [e] s = invpacktree_int.add_elem w e s := by
  simp only [invpacktree_int.addAll]
  cases invpacktree_int.add_elem w e s <;> rfl

/-- Consuming the best basis list of a covered subtree of height `j` on a stack
that is ready for it keeps the invariant after every element and ends with the
declared lengths of an added array of length `2^j`. -/
theorem addAll_shape (w : liftbase) :
    ∀ (j : Nat) (t : packnode), Perfect j t → t.covered = true →
      ∀ s : List packcontainer_int, StackOK s → Ready s (2 ^ j) →
        (∃ s2, invpacktree_int.addAll w (basisListSpec t) s = some s2 ∧ StackOK s2
          ∧ s2.map (fun c => c.N) = pushShape (2 ^ j) (s.map (fun c => c.N)))
        ∧ ∀ i, ∃ s1, invpacktree_int.addAll w ((basisListSpec t).take i) s = some s1
            ∧ StackOK s1 := by
  have marked : ∀ (j : Nat) (k : transformKind) (n : Nat) (d : List Int) (c : Int)
      (l r : packnode), Perfect j (.node k n d c true l r) →
      ∀ s : List packcontainer_int, StackOK s → Ready s (2 ^ j) →
        (∃ s2, invpacktree_int.addAll w (basisListSpec (.node k n d c true l r)) s = some s2
          ∧ StackOK s2 ∧ s2.map (fun c => c.N) = pushShape (2 ^ j) (s.map (fun c => c.N)))
        ∧ ∀ i, ∃ s1, invpacktree_int.addAll w
              ((basisListSpec (.node k n d c true l r)).take i) s = some s1
            ∧ StackOK s1 := by
    intro j k n d c l r hp s hs hr
    have hlist : basisListSpec (.node k n d c true l r) = [.node k n d c true l r] := rfl
    have hE := add_elem_shape w (.node k n d c true l r) rfl j (perfect_length j _ hp) s hs hr
    rw [hlist]
    refine ⟨by rw [addAll_single]; exact hE, fun i => ?_⟩
    cases i with
    | zero => exact ⟨s, rfl, hs⟩
    | succ i =>
      obtain ⟨s2, h1, h2, _⟩ := hE
      refine ⟨s2, ?_, h2⟩
      simp only [List.take_succ_cons, List.take_nil]
      rw [addAll_single]; exact h1
  intro j
  induction j with
  | zero =>
    intro t hp hc s hs hr
    cases t with
    | null => simp [Perfect] at hp
    | node k n d c m l r =>
      cases m
      · obtain ⟨_, hl, _⟩ := hp
        subst hl
        simp [packnode.covered] at hc
      · exact marked 0 k n d c l r hp s hs hr
  | succ j ih =>
    intro t hp hc s hs hr
    cases t with
    | null => simp [Perfect] at hp
    | node k n d c m l r =>
      cases m
      · obtain ⟨_, hpl, hpr⟩ := hp
        simp only [packnode.covered, Bool.false_or, Bool.and_eq_true] at hc
        obtain ⟨⟨s1, ha1, hok1, hsh1⟩, hpre1⟩ := ih l hpl hc.1 s hs (ready_half j s hr)
        rw [pushShape_ready j s hr] at hsh1
        have hr1 : Ready s1 (2 ^ j) := ready_of_shape (2 ^ j) s1 _ hok1 hsh1
        obtain ⟨⟨s2, ha2, hok2, hsh2⟩, hpre2⟩ := ih r hpr hc.2 s1 hok1 hr1
        have hlist : basisListSpec (.node k n d c false l r)
            = basisListSpec l ++ basisListSpec r := by
          simp only [basisListSpec, Bool.false_eq_true, if_false]
        rw [hlist]
        refine ⟨⟨s2, ?_, hok2, ?_⟩, fun i => ?_⟩
        · rw [addAll_append, ha1]
          exact ha2
        · rw [hsh2, hsh1]
          simp only [pushShape, if_true, pow_succ]
        · rw [List.take_append_eq_append_take, addAll_append]
          by_cases hi : i ≤ (basisListSpec l).length
          · obtain ⟨s3, hs3, hok3⟩ := hpre1 i
            have h0 : i - (basisListSpec l).length = 0 := by omega
            rw [hs3, h0, List.take_zero]
            exact ⟨s3, rfl, hok3⟩
          · rw [List.take_of_length_le (by omega), ha1]
            exact hpre2 _
      · exact marked (j + 1) k n d c l r hp s hs hr

/-- C38. Inverse-stack invariant: while the best-basis list of the tree of
`N = 2^k` samples is consumed, after every `add_elem` call no assertion of
`add_elem` or `reduce` has failed, every container on the stack has its left half
set and its right half absent, and the declared lengths strictly increase from
the top of the stack to the bottom; at the end a single container is left, of
declared length `2N`, and the constructor takes `N` as the length of the
result. -/
theorem inverse_stack_invariant (w : liftbase) (costCalc : packnode → Int) (v : List Int)
    (k : Nat) :
    ∃ t2, bestBasis (costbase_int.traverse costCalc (packtree_int.new v (2 ^ k) w)) = some t2
      ∧ (∀ i, ∃ s, invpacktree_int.addAll w ((getBestBasisList t2).take i) [] = some s
          ∧ (∀ c ∈ s, c.lhs.isSome = true ∧ c.rhs = none)
          ∧ (s.map (fun c => c.N)).Pairwise (fun a b => a < b))
      ∧ (∃ c, invpacktree_int.addAll w (getBestBasisList t2) [] = some [c]
          ∧ c.N = 2 * 2 ^ k ∧ c.lhs.isSome = true ∧ c.rhs = none)
      ∧ ∃ inv, invpacktree_int.new (getBestBasisList t2) w = some inv ∧ inv.N = 2 ^ k
          ∧ inv.stack = [] := by
  obtain ⟨t2, hb, hcov, hperf⟩ := bestBasis_perfect w costCalc v k
  obtain ⟨⟨s2, ha, hok, hsh⟩, hpre⟩ := addAll_shape w k t2 hperf hcov [] trivial trivial
  rw [← getBestBasisList_eq_spec] at ha hpre
  have hfin : ∃ c, s2 = [c] ∧ c.N = 2 * 2 ^ k := by
    cases s2 with
    | nil => simp [pushShape] at hsh
    | cons c rest =>
      cases rest with
      | nil =>
        refine ⟨c, rfl, ?_⟩
        simp only [List.map_cons, List.map_nil, pushShape, List.cons.injEq, and_true] at hsh
        omega
      | cons c2 rest => simp [pushShape] at hsh
  obtain ⟨c, hc, hcN⟩ := hfin
  subst hc
  refine ⟨t2, hb, ?_, ⟨c, ha, hcN, hok.1, hok.2.1⟩, ?_⟩
  · intro i
    obtain ⟨s, hs, hoks⟩ := hpre i
    obtain ⟨h1, h2⟩ := stackOK_forall s hoks
    exact ⟨s, hs, h1, h2⟩
  · refine ⟨{ stack := [], data := c.lhs, N := c.N / 2 }, ?_, ?_, rfl⟩
    · simp only [invpacktree_int.new, ha]
    · show c.N / 2 = 2 ^ k
      omega

/-! ## The level basis of the frequency tree -/

theorem newLevelAuxD_perfect (w : liftbase_double) (bound : Nat) :
    ∀ (j : Nat) (k : transformKind) (d : List ℚ) (c : ℚ) (m f rev : Bool),
      2 ^ j ≤ bound →
      PerfectD j (packtree_base.newLevelAux w bound (.node k (2 ^ j) d c m .null .null) f rev) := by
  induction bound with
  | zero =>
    intro j k d c m f rev hb
    have : 0 < 2 ^ j := Nat.two_pow_pos j
    omega
  | succ b ih =>
    intro j k d c m f rev hb
    cases j with
    | zero =>
      simp only [pow_zero, packtree_base.newLevelAux, gt_iff_lt, Nat.lt_irrefl, if_false]
      exact ⟨rfl, rfl, rfl⟩
    | succ j =>
      have hlen := one_lt_pow_succ j
      have hb2 : 2 ^ j ≤ b := by
        have : 2 ^ (j + 1) = 2 ^ j + 2 ^ j := by rw [pow_succ]; omega
        have : 0 < 2 ^ j := Nat.two_pow_pos j
        omega
      simp only [packtree_base.newLevelAux, hlen, if_true, div_pow_succ]
      refine ⟨rfl, ih j _ _ _ _ _ _ hb2, ?_⟩
      cases f
      · exact ih j _ _ _ _ _ _ hb2
      · exact ih j _ _ _ _ _ _ hb2

theorem packfreq_new_perfect (v : List ℚ) (k : Nat) (w : liftbase_double) :
    PerfectD k (packfreq.new v (2 ^ k) w) := by
  simp only [packfreq.new, packtree_base.newLevel, packnode_double.setMark,
    packnode_double.length]
  exact newLevelAuxD_perfect w _ k _ _ _ _ _ _ (Nat.le_refl _)

theorem findLevel_eq (t : packnode_double) :
    ∀ (cur level : Nat) (mat : List packnode_double), cur ≤ level →
      packfreq.findLevel t cur level mat = mat ++ t.nodesAt (level - cur) := by
  induction t with
  | null =>
    intro cur level mat _
    simp [packfreq.findLevel, packnode_double.nodesAt]
  | node k n d c m l r ihl ihr =>
    intro cur level mat hle
    by_cases h : cur = level
    · subst h
      simp [packfreq.findLevel, packnode_double.nodesAt]
    · obtain ⟨i, hi⟩ : ∃ i, level - cur = i + 1 := ⟨level - cur - 1, by omega⟩
      have hi2 : level - (cur + 1) = i := by omega
      simp only [packfreq.findLevel, h, if_false]
      rw [ihl (cur + 1) level mat (by omega), ihr (cur + 1) level _ (by omega), hi, hi2]
      simp only [packnode_double.nodesAt, List.append_assoc]

theorem nodesAtD_perfect (k : Nat) (t : packnode_double) (h : PerfectD k t) :
    (∀ j, j ≤ k → (t.nodesAt j).length = 2 ^ j
        ∧ (∀ x ∈ t.nodesAt j, x.length = 2 ^ (k - j))
        ∧ t.nodesAt j = (levelPaths j).map (fun p => t.sub p))
    ∧ (∀ j, k < j → t.nodesAt j = []) := by
  induction t generalizing k with
  | null => cases k <;> simp [PerfectD] at h
  | node kd n d c m l r ihl ihr =>
    cases k with
    | zero =>
      obtain ⟨h1, h2, h3⟩ := h
      subst h1 h2 h3
      refine ⟨?_, ?_⟩
      · intro j hj
        have hj0 : j = 0 := by omega
        subst hj0
        simp [packnode_double.nodesAt, packnode_double.length, levelPaths, packnode_double.sub]
      · intro j hj
        obtain ⟨i, rfl⟩ : ∃ i, j = i + 1 := ⟨j - 1, by omega⟩
        simp [packnode_double.nodesAt]
    | succ k =>
      obtain ⟨hn, hl, hr⟩ := h
      obtain ⟨hl1, hl2⟩ := ihl k hl
      obtain ⟨hr1, hr2⟩ := ihr k hr
      refine ⟨?_, ?_⟩
      · intro j hj
        cases j with
        | zero =>
          simp [packnode_double.nodesAt, packnode_double.length, hn, levelPaths,
            packnode_double.sub]
        | succ j =>
          have hjk : j ≤ k := by omega
          obtain ⟨a1, a2, a3⟩ := hl1 j hjk
          obtain ⟨b1, b2, b3⟩ := hr1 j hjk
          refine ⟨?_, ?_, ?_⟩
          · simp only [packnode_double.nodesAt, List.length_append, a1, b1, pow_succ]
            omega
          · intro x hx
            simp only [packnode_double.nodesAt, List.mem_append] at hx
            have hsub : k + 1 - (j + 1) = k - j := by omega
            rw [hsub]
            rcases hx with hx | hx
            · exact a2 x hx
            · exact b2 x hx
          · simp only [packnode_double.nodesAt, levelPaths, List.map_append, List.map_map, a3, b3]
            rfl
      · intro j hj
        obtain ⟨i, rfl⟩ : ∃ i, j = i + 1 := ⟨j - 1, by omega⟩
        simp [packnode_double.nodesAt, hl2 i (by omega), hr2 i (by omega)]

theorem levelPaths_length (j : Nat) :
    (levelPaths j).length = 2 ^ j ∧ ∀ p ∈ levelPaths j, p.length = j := by
  induction j with
  | zero => simp [levelPaths]
  | succ j ih =>
    refine ⟨?_, ?_⟩
    · simp only [levelPaths, List.length_append, List.length_map, ih.1, pow_succ]
      omega
    · intro p hp
      simp only [levelPaths, List.mem_append, List.mem_map] at hp
      rcases hp with ⟨q, hq, e⟩ | ⟨q, hq, e⟩ <;>
        · subst e
          simp [ih.2 q hq]

/-- C35. Level basis: for the frequency tree built from `N = 2^k` samples,
`getLevel(level)` appends to the matrix the nodes of depth `level` from left to
right (the nodes at the paths of length `level` in left-to-right order); for
`level ≤ k` these are exactly `2^level` nodes, each of length `2^(k-level)`, and
for `level > k` nothing is appended. -/
theorem level_basis (w : liftbase_double) (v : List ℚ) (k level : Nat) :
    (∀ mat, packfreq.getLevel (packfreq.new v (2 ^ k) w) level mat
        = mat ++ (packfreq.new v (2 ^ k) w).nodesAt level)
    ∧ (level ≤ k →
        (packfreq.getLevel (packfreq.new v (2 ^ k) w) level []).length = 2 ^ level
        ∧ (∀ x ∈ packfreq.getLevel (packfreq.new v (2 ^ k) w) level [],
            x.length = 2 ^ (k - level))
        ∧ packfreq.getLevel (packfreq.new v (2 ^ k) w) level []
            = (levelPaths level).map (fun p => (packfreq.new v (2 ^ k) w).sub p)
        ∧ (levelPaths level).length = 2 ^ level
        ∧ ∀ p ∈ levelPaths level, p.length = level)
    ∧ (k < level → ∀ mat, packfreq.getLevel (packfreq.new v (2 ^ k) w) level mat = mat) := by
  have hp := packfreq_new_perfect v k w
  have hg : ∀ mat, packfreq.getLevel (packfreq.new v (2 ^ k) w) level mat
      = mat ++ (packfreq.new v (2 ^ k) w).nodesAt level := by
    intro mat
    unfold packfreq.getLevel
    rw [findLevel_eq _ 0 level mat (Nat.zero_le _), Nat.sub_zero]
  obtain ⟨h1, h2⟩ := nodesAtD_perfect k _ hp
  refine ⟨hg, fun hle => ?_, fun hlt mat => ?_⟩
  · obtain ⟨a1, a2, a3⟩ := h1 level hle
    rw [hg [], List.nil_append]
    exact ⟨a1, a2, a3, (levelPaths_length level).1, (levelPaths_length level).2⟩
  · rw [hg mat, h2 level hlt, List.append_nil]

/-- Witness for C35: 1024 samples and level 5 give 32 nodes of 32 elements. -/
theorem level_basis_witness :
    5 ≤ 10
    ∧ (packfreq.getLevel (packfreq.new [] (2 ^ 10) haar_classicFreq.wave) 5 []).length = 2 ^ 5
    ∧ (∀ x ∈ packfreq.getLevel (packfreq.new [] (2 ^ 10) haar_classicFreq.wave) 5 [],
        x.length = 2 ^ (10 - 5)) :=
  ⟨by decide,
   ((level_basis haar_classicFreq.wave [] 10 5).2.1 (by decide)).1,
   ((level_basis haar_classicFreq.wave [] 10 5).2.1 (by decide)).2.1⟩

/-- Witness for C38: the Haar tree over `[4, 6, 10, 12]` with the bit-width cost;
its best basis list has four elements, and after the third one two containers
wait on the stack. -/
theorem inverse_stack_invariant_witness :
    (∃ t2, bestBasis (costbase_int.traverse costwidth.costCalc
          (packtree_int.new [4, 6, 10, 12] (2 ^ 2) (haar_int.wave haar_int.forwardStep)))
        = some t2
      ∧ (∀ i, ∃ s, invpacktree_int.addAll (haar_int.wave haar_int.forwardStep)
            ((getBestBasisList t2).take i) [] = some s
          ∧ (∀ c ∈ s, c.lhs.isSome = true ∧ c.rhs = none)
          ∧ (s.map (fun c => c.N)).Pairwise (fun a b => a < b))
      ∧ (∃ c, invpacktree_int.addAll (haar_int.wave haar_int.forwardStep)
            (getBestBasisList t2) [] = some [c]
          ∧ c.N = 2 * 2 ^ 2 ∧ c.lhs.isSome = true ∧ c.rhs = none)
      ∧ ∃ inv, invpacktree_int.new (getBestBasisList t2)
            (haar_int.wave haar_int.forwardStep) = some inv ∧ inv.N = 2 ^ 2
          ∧ inv.stack = [])
    ∧ invpacktree_int.addAll (haar_int.wave haar_int.forwardStep)
        [.node .LowPass 1 [8] 5 true .null .null, .node .HighPass 1 [6] 5 true .null .null,
          .node .LowPass 1 [2] 3 true .null .null] []
      = some [{ N := 2, lhs := some [2], rhs := none },
          { N := 4, lhs := some [5, 11], rhs := none }] :=
  ⟨inverse_stack_invariant (haar_int.wave haar_int.forwardStep) costwidth.costCalc
      [4, 6, 10, 12] 2,
   by decide⟩

end Libpacket
